import Mathlib

/-!
# poker-room: a shallow embedding of the engine in `internal/game`

The Go sources `deck.go`, `hand.go`, `rules.go` and `poker.go` are translated
function by function.  Conventions of the embedding:

* Go `int` values that carry chips or bet sizes are `Int`; indices, suits,
  ranks and hand categories are `Nat` (the code only ever stores
  non-negative values in them).  Arithmetic overflow of the 64-bit `int` is
  not modelled.
* `[]*PokerPlayer` is a `List PokerPlayer`; a pointer to a seated player is
  the index of that player in the list.
* A call either returns `nil` (`Outcome.ok`), returns an error together with
  the state it leaves behind (`Outcome.err`), or does not return normally
  (`Outcome.panic`: index out of range, division by zero, empty deck, or a
  loop that never ends).
* `math/rand` is an explicit argument `r`: the call `rand.Intn(i + 1)` made
  by `Deck.Shuffle` at loop index `i` returns `r i % (i + 1)`.
* The `Description` strings built with `fmt.Sprintf` and the never-assigned
  `Kickers` field are left out of `HandResult` and `Winner`.
-/

set_option linter.unusedVariables false

namespace Poker

/-! ## deck.go -/

/-- Suits are the Go constants `Clubs = 0 .. Spades = 3`. -/
abbrev Suit := Nat

/-- Ranks are the Go constants `Two = 2 .. Ace = 14`. -/
abbrev Rank := Nat

def Clubs : Suit := 0
def Diamonds : Suit := 1
def Hearts : Suit := 2
def Spades : Suit := 3

def Two : Rank := 2
def Three : Rank := 3
def Four : Rank := 4
def Five : Rank := 5
def Six : Rank := 6
def Seven : Rank := 7
def Eight : Rank := 8
def Nine : Rank := 9
def Ten : Rank := 10
def Jack : Rank := 11
def Queen : Rank := 12
def King : Rank := 13
def Ace : Rank := 14

/-- A playing card (`type Card struct`). -/
structure Card where
  Suit : Suit
  Rank : Rank
deriving DecidableEq

/-- A deck: the card slice and the draw cursor `used`. -/
structure Deck where
  cards : List Card
  used : Nat
deriving DecidableEq

/-- The inner loop of `NewDeck`: ranks `Two .. Ace` of one suit. -/
def suitCards (s : Suit) : List Card :=
  (List.range 13).map (fun k => { Suit := s, Rank := k + 2 })

/-- Source `NewDeck`: suits `Clubs .. Spades`, each with ranks ascending, cursor 0. -/
def NewDeck : Deck :=
  { cards := suitCards Clubs ++ suitCards Diamonds ++ suitCards Hearts ++ suitCards Spades,
    used := 0 }

/-- Exchange of the entries at positions `i` and `j`
(`cards[i], cards[j] = cards[j], cards[i]`). -/
def swapAt (l : List Card) (i j : Nat) : List Card :=
  match l.get? i, l.get? j with
  | some a, some b => (l.set i b).set j a
  | _, _ => l

/-- The loop of `Shuffle`, entered with loop index `i`: runs while `i > 0`. -/
def shuffleLoop (r : Nat → Nat) : Nat → List Card → List Card
  | 0, l => l
  | i + 1, l => shuffleLoop r i (swapAt l (i + 1) (r (i + 1) % (i + 2)))

/-- Source `Deck.Shuffle`: Fisher-Yates from the last index down, then cursor 0. -/
def Deck.Shuffle (d : Deck) (r : Nat → Nat) : Deck :=
  { cards := shuffleLoop r (d.cards.length - 1) d.cards, used := 0 }

/-- Source `Deck.Draw`: `none` is the panic "no cards left in deck". -/
def Deck.Draw (d : Deck) : Option (Card × Deck) :=
  if d.used ≥ d.cards.length then none
  else
    match d.cards.get? d.used with
    | some c => some (c, { d with used := d.used + 1 })
    | none => none

/-- One inner `j` loop of `SortCardsByRankDesc` making `k` comparisons. -/
def bubblePassDesc : Nat → List Card → List Card
  | k + 1, a :: b :: t =>
      if a.Rank < b.Rank then b :: bubblePassDesc k (a :: t)
      else a :: bubblePassDesc k (b :: t)
  | _, l => l

/-- Source `SortCardsByRankDesc`: `n - 1` passes, pass `i` makes `n - i - 1`
comparisons. -/
def SortCardsByRankDesc (cards : List Card) : List Card :=
  (List.range (cards.length - 1)).foldl
    (fun cs i => bubblePassDesc (cards.length - i - 1) cs) cards

/-! ## hand.go -/

/-- Hand categories are the Go constants `HighCard = 0 .. RoyalFlush = 9`. -/
abbrev HandRank := Nat

def HighCard : HandRank := 0
def OnePair : HandRank := 1
def TwoPair : HandRank := 2
def ThreeOfAKind : HandRank := 3
def Straight : HandRank := 4
def Flush : HandRank := 5
def FullHouse : HandRank := 6
def FourOfAKind : HandRank := 7
def StraightFlush : HandRank := 8
def RoyalFlush : HandRank := 9

/-- The result of a hand evaluation: category and the cards of the hand. -/
structure HandResult where
  Rank : HandRank
  Cards : List Card
deriving DecidableEq

/-- Source `checkStraight`: every card is one rank above its successor. -/
def checkStraight : List Card → Bool
  | a :: b :: t => if a.Rank ≠ b.Rank + 1 then false else checkStraight (b :: t)
  | _ => true

/-- The flush test of `evaluateFiveCards`: every later card has the suit of
the first. -/
def isFlushHand : List Card → Bool
  | [] => true
  | a :: t => t.all (fun c => c.Suit == a.Suit)

/-- The value `rankCounts[r]` after counting the ranks of `hand`. -/
def rankCount (hand : List Card) (r : Rank) : Nat :=
  (hand.filter (fun c => c.Rank == r)).length

/-- The keys of `rankCounts` whose count is `n` (each key once). -/
def ranksWithCount (hand : List Card) (n : Nat) : List Rank :=
  ((hand.map (fun c => c.Rank)).dedup).filter (fun r => rankCount hand r == n)

/-- Source `evaluateFiveCards`: `none` is the panic on an input that is not five
cards. -/
def evaluateFiveCards (cards : List Card) : Option HandResult :=
  if cards.length ≠ 5 then none
  else
    match SortCardsByRankDesc cards with
    | [h0, h1, h2, h3, h4] =>
      let sorted := [h0, h1, h2, h3, h4]
      let isFlush := isFlushHand sorted
      let isStraight := checkStraight sorted
      let isWheelStraight :=
        !isStraight && h0.Rank == Ace &&
          (h1.Rank == Five && h2.Rank == Four && h3.Rank == Three && h4.Rank == Two)
      let hand := if isWheelStraight then [h1, h2, h3, h4, h0] else sorted
      let isStraight := isStraight || isWheelStraight
      let pairs := ranksWithCount hand 2
      let trips := ranksWithCount hand 3
      let quads := ranksWithCount hand 4
      let hd0 := (hand.get? 0).map (fun c => c.Rank)
      let hd1 := (hand.get? 1).map (fun c => c.Rank)
      if isFlush && isStraight then
        if hd0 == some Ace && hd1 == some King then
          some { Rank := RoyalFlush, Cards := hand }
        else some { Rank := StraightFlush, Cards := hand }
      else if quads.length > 0 then some { Rank := FourOfAKind, Cards := hand }
      else if trips.length > 0 && pairs.length > 0 then
        some { Rank := FullHouse, Cards := hand }
      else if isFlush then some { Rank := Flush, Cards := hand }
      else if isStraight then some { Rank := Straight, Cards := hand }
      else if trips.length > 0 then some { Rank := ThreeOfAKind, Cards := hand }
      else if pairs.length ≥ 2 then some { Rank := TwoPair, Cards := hand }
      else if pairs.length == 1 then some { Rank := OnePair, Cards := hand }
      else some { Rank := HighCard, Cards := hand }
    | _ => none

/-- Source `compareHands`: position-wise comparison of card ranks over the common
prefix; `1`, `-1`, or `0`. -/
def compareCards : List Card → List Card → Int
  | a :: s, b :: t =>
      if a.Rank > b.Rank then 1
      else if a.Rank < b.Rank then -1
      else compareCards s t
  | _, _ => 0

/-- Source `compareHands` on two results. -/
def compareHands (a b : HandResult) : Int := compareCards a.Cards b.Cards

/-- The closure `generate(start, current)` of `generateCombinations`, with
`rest` the cards from index `start` on.  The `for` loop is unrolled once:
its first iteration is `generate(start + 1, append(current, cards[start]))`
and its remaining iterations are those of `generate(start + 1, current)`,
whose length test fails like the present one. -/
def generate (k : Nat) : List Card → List Card → List (List Card)
  | current, [] => if current.length = k then [current] else []
  | current, c :: t =>
      if current.length = k then [current]
      else generate k (current ++ [c]) t ++ generate k current t

/-- Source `generateCombinations(cards, k)`. -/
def generateCombinations (cards : List Card) (k : Nat) : List (List Card) :=
  generate k [] cards

/-- The body of the `for _, combo := range combinations` loop of
`EvaluateBestHand`. -/
def bestStep (best : HandResult) (result : HandResult) : HandResult :=
  if result.Rank > best.Rank then result
  else if result.Rank == best.Rank then
    if compareHands result best > 0 then result else best
  else best

/-- The loop of `EvaluateBestHand` over the combinations; `none` when
`evaluateFiveCards` panics. -/
def bestLoop : HandResult → List (List Card) → Option HandResult
  | best, [] => some best
  | best, combo :: rest =>
      match evaluateFiveCards combo with
      | none => none
      | some result => bestLoop (bestStep best result) rest

/-- Source `EvaluateBestHand`: fewer than five cards give the empty high-card
result, otherwise the loop starts from `HandResult{Rank: HighCard}`. -/
def EvaluateBestHand (cards : List Card) : Option HandResult :=
  if cards.length < 5 then some { Rank := HighCard, Cards := [] }
  else bestLoop { Rank := HighCard, Cards := [] } (generateCombinations cards 5)

/-! ## poker.go: data -/

/-- Source `type BettingRound int` with its five constants. -/
inductive BettingRound where
  | PreFlop
  | Flop
  | Turn
  | River
  | Showdown
deriving DecidableEq

/-- Source `type ActionType int`: the six constants, and `Other` for every other
integer (no `case` of the `switch` in `ProcessAction` matches it). -/
inductive ActionType where
  | Check
  | Call
  | Bet
  | Raise
  | Fold
  | AllIn
  | Other
deriving DecidableEq

/-- A seated player (`type PokerPlayer struct`). -/
structure PokerPlayer where
  ID : String
  Name : String
  Chips : Int
  HoleCards : List Card
  CurrentBet : Int
  TotalBetInHand : Int
  HasActed : Bool
  IsFolded : Bool
  IsAllIn : Bool
  IsActive : Bool
  SeatPosition : Nat
deriving DecidableEq

/-- A side pot (`type SidePot struct`). -/
structure SidePot where
  Amount : Int
  EligiblePlayers : List String
deriving DecidableEq

/-- A hand winner (`type Winner struct`). -/
structure Winner where
  PlayerID : String
  Amount : Int
  HandRank : HandRank
  BestHand : List Card
deriving DecidableEq

/-- The table (`type PokerGame struct`). -/
structure PokerGame where
  SmallBlind : Int
  BigBlind : Int
  Players : List PokerPlayer
  DealerIndex : Nat
  CurrentIndex : Nat
  Deck : Deck
  CommunityCards : List Card
  Pot : Int
  SidePots : List SidePot
  CurrentBet : Int
  MinRaise : Int
  BettingRound : BettingRound
  LastAggressor : String
  NumActivePlayers : Int
  HandNumber : Nat
  HandComplete : Bool
  Winners : List Winner
deriving DecidableEq

/-- What a call of the API does: return `nil`, return an error (with the
state the call leaves behind), or not return normally. -/
inductive Outcome where
  | ok (g : PokerGame)
  | err (msg : String) (g : PokerGame)
  | panic
deriving DecidableEq

/-- Update through a player pointer: the entry at index `i` becomes `f` of
it. -/
def modifyAt (ps : List PokerPlayer) (i : Nat) (f : PokerPlayer → PokerPlayer) :
    List PokerPlayer :=
  match ps, i with
  | [], _ => []
  | p :: t, 0 => f p :: t
  | p :: t, i + 1 => p :: modifyAt t i f

/-- Source `NewPokerGame(smallBlind, bigBlind)`. -/
def NewPokerGame (smallBlind bigBlind : Int) : PokerGame :=
  { SmallBlind := smallBlind, BigBlind := bigBlind, Players := [], DealerIndex := 0,
    CurrentIndex := 0, Deck := NewDeck, CommunityCards := [], Pot := 0, SidePots := [],
    CurrentBet := 0, MinRaise := 0, BettingRound := BettingRound.PreFlop,
    LastAggressor := "", NumActivePlayers := 0, HandNumber := 0, HandComplete := false,
    Winners := [] }

/-- Source `AddPlayer(id, name, chips)`. -/
def AddPlayer (g : PokerGame) (id name : String) (chips : Int) : Outcome :=
  if g.Players.length ≥ 6 then Outcome.err "maximum 6 players allowed" g
  else
    Outcome.ok { g with Players := g.Players ++
      [{ ID := id, Name := name, Chips := chips, HoleCards := [], CurrentBet := 0,
         TotalBetInHand := 0, HasActed := false, IsFolded := false, IsAllIn := false,
         IsActive := true, SeatPosition := g.Players.length }] }

/-! ## poker.go: helpers -/

/-- The test of the loop of `getNextActivePlayer`. -/
def canAct (p : PokerPlayer) : Bool := p.IsActive && !p.IsFolded && !p.IsAllIn

/-- The loop of `getNextActivePlayer`, entered with the candidate `next`.
The fuel counts iterations; it runs out only when the Go loop never ends. -/
def nextLoop (ps : List PokerPlayer) (frm : Nat) : Nat → Nat → Option Nat
  | 0, _ => none
  | fuel + 1, next =>
      if next = frm then some frm
      else
        match ps.get? next with
        | none => none
        | some p =>
            if canAct p then some next
            else nextLoop ps frm fuel ((next + 1) % ps.length)

/-- Source `getNextActivePlayer(from)`.  `none`: division by zero on an empty table,
or a loop that never ends (`from` out of range and nobody able to act).
After `len(Players)` iterations every seat has been visited, so the fuel is
exact. -/
def getNextActivePlayer (ps : List PokerPlayer) (frm : Nat) : Option Nat :=
  if ps.length = 0 then none
  else nextLoop ps frm ps.length ((frm + 1) % ps.length)

/-- Source `getSmallBlindIndex`. -/
def getSmallBlindIndex (g : PokerGame) : Option Nat :=
  getNextActivePlayer g.Players g.DealerIndex

/-- Source `getBigBlindIndex`. -/
def getBigBlindIndex (g : PokerGame) : Option Nat :=
  match getSmallBlindIndex g with
  | none => none
  | some sb => getNextActivePlayer g.Players sb

/-- Source `moveDealerButton`. -/
def moveDealerButton (g : PokerGame) : Option PokerGame :=
  match getNextActivePlayer g.Players g.DealerIndex with
  | none => none
  | some d => some { g with DealerIndex := d }

/-- The amount `playerBet` really moves: the stack when `amount >= Chips`. -/
def betAmount (p : PokerPlayer) (amount : Int) : Int :=
  if amount ≥ p.Chips then p.Chips else amount

/-- The effect of `playerBet` on the player. -/
def betPlayer (amount : Int) (p : PokerPlayer) : PokerPlayer :=
  { p with
    IsAllIn := if amount ≥ p.Chips then true else p.IsAllIn
    Chips := p.Chips - betAmount p amount
    CurrentBet := p.CurrentBet + betAmount p amount
    TotalBetInHand := p.TotalBetInHand + betAmount p amount }

/-- Source `playerBet(player, amount)` for the player at index `i`. -/
def playerBet (g : PokerGame) (i : Nat) (amount : Int) : PokerGame :=
  match g.Players.get? i with
  | none => g
  | some p =>
      { g with Players := modifyAt g.Players i (betPlayer amount),
               Pot := g.Pot + betAmount p amount }

/-- Source `postBlinds`; `none` when an index lookup panics. -/
def postBlinds (g : PokerGame) : Option PokerGame :=
  match getSmallBlindIndex g with
  | none => none
  | some sbIndex =>
    match g.Players.get? sbIndex with
    | none => none
    | some sbPlayer =>
      let sbAmount := if g.SmallBlind > sbPlayer.Chips then sbPlayer.Chips else g.SmallBlind
      let g1 := playerBet g sbIndex sbAmount
      match getBigBlindIndex g1 with
      | none => none
      | some bbIndex =>
        match g1.Players.get? bbIndex with
        | none => none
        | some bbPlayer =>
          let bbAmount := if g1.BigBlind > bbPlayer.Chips then bbPlayer.Chips else g1.BigBlind
          let g2 := playerBet g1 bbIndex bbAmount
          some { g2 with CurrentBet := g2.BigBlind }

/-- One pass of the inner loop of `dealHoleCards`: a card to every active
player, in seat order; `none` when the deck runs out. -/
def dealRound : List PokerPlayer → Deck → Option (List PokerPlayer × Deck)
  | [], d => some ([], d)
  | p :: t, d =>
      if p.IsActive then
        match d.Draw with
        | none => none
        | some (card, d1) =>
            match dealRound t d1 with
            | none => none
            | some (t1, d2) => some ({ p with HoleCards := p.HoleCards ++ [card] } :: t1, d2)
      else
        match dealRound t d with
        | none => none
        | some (t1, d2) => some (p :: t1, d2)

/-- Source `dealHoleCards`: two passes. -/
def dealHoleCards (g : PokerGame) : Option PokerGame :=
  match dealRound g.Players g.Deck with
  | none => none
  | some (ps1, d1) =>
      match dealRound ps1 d1 with
      | none => none
      | some (ps2, d2) => some { g with Players := ps2, Deck := d2 }

/-- Source `resetHasActed`. -/
def resetHasActed (g : PokerGame) : PokerGame :=
  { g with Players := (g.Players.map
      (fun p => if !p.IsFolded && !p.IsAllIn then { p with HasActed := false } else p)) }

/-- Source `isBettingRoundComplete`. -/
def isBettingRoundComplete (g : PokerGame) : Bool :=
  if g.NumActivePlayers = 1 then true
  else g.Players.all (fun p =>
    if p.IsActive && !p.IsFolded && !p.IsAllIn then
      p.HasActed && !(decide (p.CurrentBet < g.CurrentBet))
    else true)

/-- Source `shouldEndHand`. -/
def shouldEndHand (g : PokerGame) : Bool :=
  (g.Players.filter (fun p => p.IsActive && !p.IsFolded)).length ≤ 1

/-- Source `createSidePots`: the body is empty in the source. -/
def createSidePots (g : PokerGame) : PokerGame := g

/-! ## poker.go: end of a hand -/

/-- The showdown entry of `determineWinners` for one contender: the player
with the result of `EvaluateBestHand(append(HoleCards, CommunityCards...))`;
`none` when the evaluation panics. -/
def playerHands (community : List Card) :
    List PokerPlayer → Option (List (PokerPlayer × HandResult))
  | [] => some []
  | p :: t =>
      match EvaluateBestHand (p.HoleCards ++ community) with
      | none => none
      | some bestHand =>
          match playerHands community t with
          | none => none
          | some rest => some ((p, bestHand) :: rest)

/-- The loop of `determineWinners` that finds the best category, starting
from `HighCard`. -/
def bestRankOf (phs : List (PokerPlayer × HandResult)) : HandRank :=
  phs.foldl (fun best ph => if ph.2.Rank > best then ph.2.Rank else best) HighCard

/-- Source `determineWinners`; `none` when the pot is divided among zero winners
(integer division by zero) or an evaluation panics. -/
def determineWinners (g : PokerGame) : Option PokerGame :=
  let contenders := g.Players.filter (fun p => p.IsActive && !p.IsFolded)
  match contenders with
  | [winner] =>
      some { g with Winners :=
        [{ PlayerID := winner.ID, Amount := g.Pot, HandRank := HighCard, BestHand := [] }] }
  | _ =>
      match playerHands g.CommunityCards contenders with
      | none => none
      | some phs =>
          let bestRank := bestRankOf phs
          let winners := phs.filter (fun ph => ph.2.Rank == bestRank)
          if winners.length = 0 then none
          else
            let potShare := Int.tdiv g.Pot (winners.length : Int)
            some { g with Winners := g.Winners ++ winners.map (fun w =>
              { PlayerID := w.1.ID, Amount := potShare, HandRank := w.2.Rank,
                BestHand := w.2.Cards }) }

/-- The inner loop of `awardPots` for one winner: the first player with the
winner's id receives the amount. -/
def awardOne : List PokerPlayer → Winner → List PokerPlayer
  | [], _ => []
  | p :: t, w =>
      if p.ID = w.PlayerID then { p with Chips := p.Chips + w.Amount } :: t
      else p :: awardOne t w

/-- Source `awardPots`. -/
def awardPots (g : PokerGame) : PokerGame :=
  { g with Players := g.Winners.foldl awardOne g.Players }

/-- Source `endHand`. -/
def endHand (g : PokerGame) : Option PokerGame :=
  match determineWinners { g with HandComplete := true } with
  | none => none
  | some g1 => some (awardPots g1)

/-- Appends `n` drawn cards to the community cards; `none` when the deck
runs out. -/
def dealCommunity : Nat → PokerGame → Option PokerGame
  | 0, g => some g
  | n + 1, g =>
      match g.Deck.Draw with
      | none => none
      | some (card, d) =>
          dealCommunity n { g with CommunityCards := g.CommunityCards ++ [card], Deck := d }

/-- The last statement of `endBettingRound`:
`g.CurrentIndex = g.getNextActivePlayer(g.DealerIndex)`. -/
def setNextPlayer (g : PokerGame) : Option PokerGame :=
  match getNextActivePlayer g.Players g.DealerIndex with
  | none => none
  | some i => some { g with CurrentIndex := i }

/-- Source `endBettingRound`. -/
def endBettingRound (g : PokerGame) : Option PokerGame :=
  let g1 : PokerGame :=
    { g with Players := g.Players.map (fun p => { p with CurrentBet := 0, HasActed := false }),
             CurrentBet := 0 }
  let g2 := createSidePots g1
  if shouldEndHand g2 then endHand g2
  else
    match g2.BettingRound with
    | BettingRound.PreFlop =>
        match dealCommunity 3 g2 with
        | none => none
        | some g3 => setNextPlayer { g3 with BettingRound := BettingRound.Flop }
    | BettingRound.Flop =>
        match dealCommunity 1 g2 with
        | none => none
        | some g3 => setNextPlayer { g3 with BettingRound := BettingRound.Turn }
    | BettingRound.Turn =>
        match dealCommunity 1 g2 with
        | none => none
        | some g3 => setNextPlayer { g3 with BettingRound := BettingRound.River }
    | BettingRound.River => endHand g2
    | BettingRound.Showdown => setNextPlayer g2

/-! ## poker.go: the API -/

/-- The per-player reset of `StartNewHand`. -/
def resetPlayer (p : PokerPlayer) : PokerPlayer :=
  if p.Chips > 0 then
    { p with IsActive := true, IsFolded := false, IsAllIn := false, HasActed := false,
             CurrentBet := 0, TotalBetInHand := 0, HoleCards := [] }
  else { p with IsActive := false }

/-- The state of `StartNewHand` after the resets and the count of players
with chips. -/
def resetForNewHand (g : PokerGame) (r : Nat → Nat) : PokerGame :=
  { g with HandNumber := g.HandNumber + 1, HandComplete := false, Pot := 0, SidePots := [],
           CurrentBet := 0, MinRaise := g.BigBlind, BettingRound := BettingRound.PreFlop,
           CommunityCards := [], Winners := [], LastAggressor := "",
           Deck := NewDeck.Shuffle r,
           Players := g.Players.map resetPlayer,
           NumActivePlayers := ((g.Players.filter (fun p => p.Chips > 0)).length : Int) }

/-- The rest of `StartNewHand`: dealer button, blinds, hole cards, first
player. -/
def beginHand (g : PokerGame) : Option PokerGame :=
  match moveDealerButton g with
  | none => none
  | some g1 =>
    match postBlinds g1 with
    | none => none
    | some g2 =>
      match dealHoleCards g2 with
      | none => none
      | some g3 =>
        match getBigBlindIndex g3 with
        | none => none
        | some bb =>
          match getNextActivePlayer g3.Players bb with
          | none => none
          | some i => some { g3 with CurrentIndex := i }

/-- Source `StartNewHand`, with `r` the random generator used by the shuffle. -/
def StartNewHand (g : PokerGame) (r : Nat → Nat) : Outcome :=
  if g.Players.length < 2 then Outcome.err "need at least 2 players to start" g
  else
    let g1 := resetForNewHand g r
    if g1.NumActivePlayers < 2 then Outcome.err "not enough players with chips" g1
    else
      match beginHand g1 with
      | none => Outcome.panic
      | some g2 => Outcome.ok g2

/-- The `switch action` of `ProcessAction` for the player at index `i`
(`cur` is that player before the action): the error returned, or the state
after the case. -/
def applyAction (g : PokerGame) (i : Nat) (cur : PokerPlayer) (playerID : String)
    (action : ActionType) (amount : Int) : Except String PokerGame :=
  match action with
  | ActionType.Check =>
      if g.CurrentBet > cur.CurrentBet then Except.error "cannot check, must call or fold"
      else Except.ok g
  | ActionType.Call =>
      if g.CurrentBet - cur.CurrentBet ≤ 0 then Except.error "nothing to call"
      else Except.ok (playerBet g i (g.CurrentBet - cur.CurrentBet))
  | ActionType.Bet =>
      if g.CurrentBet > 0 then Except.error "cannot bet, must raise"
      else if amount < g.BigBlind then Except.error "bet must be at least big blind"
      else
        let g1 := playerBet g i amount
        Except.ok (resetHasActed
          { g1 with CurrentBet := amount, MinRaise := amount, LastAggressor := playerID })
  | ActionType.Raise =>
      if g.CurrentBet = 0 then Except.error "cannot raise, must bet"
      else if amount - cur.CurrentBet < g.MinRaise then
        Except.error ("raise must be at least " ++ toString g.MinRaise)
      else
        let g1 := playerBet g i (amount - cur.CurrentBet)
        Except.ok (resetHasActed
          { g1 with MinRaise := amount - g1.CurrentBet, CurrentBet := amount,
                    LastAggressor := playerID })
  | ActionType.Fold =>
      Except.ok { g with Players := modifyAt g.Players i (fun p => { p with IsFolded := true }),
                         NumActivePlayers := g.NumActivePlayers - 1 }
  | ActionType.AllIn =>
      let g1 := playerBet g i cur.Chips
      match g1.Players.get? i with
      | none => Except.ok g1
      | some cur1 =>
          if cur1.CurrentBet > g1.CurrentBet then
            Except.ok (resetHasActed
              { g1 with MinRaise := cur1.CurrentBet - g1.CurrentBet,
                        CurrentBet := cur1.CurrentBet, LastAggressor := playerID })
          else Except.ok g1
  | ActionType.Other => Except.ok g

/-- The end of `ProcessAction`: mark the player as having acted, then close
the betting round or pass the turn. -/
def finishAction (g : PokerGame) (i : Nat) : Option PokerGame :=
  let g1 : PokerGame :=
    { g with Players := modifyAt g.Players i (fun p => { p with HasActed := true }) }
  if isBettingRoundComplete g1 then endBettingRound g1
  else
    match getNextActivePlayer g1.Players g1.CurrentIndex with
    | none => none
    | some n => some { g1 with CurrentIndex := n }

/-- Source `ProcessAction(playerID, action, amount)`. -/
def ProcessAction (g : PokerGame) (playerID : String) (action : ActionType)
    (amount : Int) : Outcome :=
  match g.Players.get? g.CurrentIndex with
  | none => Outcome.panic
  | some currentPlayer =>
      if currentPlayer.ID ≠ playerID then Outcome.err "not your turn" g
      else if currentPlayer.IsFolded || currentPlayer.IsAllIn then
        Outcome.err "player cannot act" g
      else
        match applyAction g g.CurrentIndex currentPlayer playerID action amount with
        | Except.error msg => Outcome.err msg g
        | Except.ok g1 =>
            match finishAction g1 g.CurrentIndex with
            | none => Outcome.panic
            | some g2 => Outcome.ok g2

/-! ## rules.go -/

/-- Source `DefaultBigBlind`. -/
def DefaultBigBlind : Int := 20

/-- Source `ValidateAction`: `none` is `nil`, `some msg` the error returned. -/
def ValidateAction (action : ActionType) (amount playerChips currentBet playerBet
    minRaise potSize : Int) : Option String :=
  match action with
  | ActionType.Check =>
      if currentBet > playerBet then some "cannot check, must call or fold" else none
  | ActionType.Call =>
      if currentBet - playerBet ≤ 0 then some "nothing to call"
      else if currentBet - playerBet > playerChips then some "insufficient chips"
      else none
  | ActionType.Bet =>
      if currentBet > 0 then some "cannot bet, must raise"
      else if amount < DefaultBigBlind then some "bet too small"
      else if amount > playerChips then some "insufficient chips"
      else none
  | ActionType.Raise =>
      if currentBet = 0 then some "cannot raise, must bet"
      else if amount - currentBet < minRaise then some "raise too small"
      else if amount - playerBet > playerChips then some "insufficient chips"
      else none
  | ActionType.Fold => none
  | ActionType.AllIn => if playerChips ≤ 0 then some "no chips remaining" else none
  | ActionType.Other => none

/-! ## Quantities of the specification -/

/-- Sum of the players' stacks. -/
def sumChips (ps : List PokerPlayer) : Int := (ps.map (fun p => p.Chips)).sum

/-- Sum of the side-pot amounts. -/
def sumSidePots (sp : List SidePot) : Int := (sp.map (fun s => s.Amount)).sum

/-- The chip total of the conservation invariant: stacks, pot and side
pots. -/
def chipTotal (g : PokerGame) : Int := sumChips g.Players + g.Pot + sumSidePots g.SidePots

/-- The state a call returned with `nil`, if it did. -/
def Outcome.accepted : Outcome → Option PokerGame
  | Outcome.ok g => some g
  | _ => none

/-- The state a call left behind when it returned (with or without an
error). -/
def Outcome.after : Outcome → Option PokerGame
  | Outcome.ok g => some g
  | Outcome.err _ g => some g
  | Outcome.panic => none

/-- Whether a call returned a non-nil error. -/
def Outcome.isErr : Outcome → Bool
  | Outcome.err _ _ => true
  | _ => false

/-- The states reached from a successful `StartNewHand` on `g0` (with
shuffle randomness `r`) by accepted `ProcessAction` calls. -/
inductive Reached (g0 : PokerGame) (r : Nat → Nat) : PokerGame → Prop where
  | start {g : PokerGame} : StartNewHand g0 r = Outcome.ok g → Reached g0 r g
  | step {g g1 : PokerGame} (playerID : String) (action : ActionType) (amount : Int) :
      Reached g0 r g → ProcessAction g playerID action amount = Outcome.ok g1 →
      Reached g0 r g1

/-- Insertion into a list of numbers kept in descending order. -/
def insertDesc (x : Nat) : List Nat → List Nat
  | [] => [x]
  | y :: t => if y ≤ x then x :: y :: t else y :: insertDesc x t

/-- Descending sort of a list of numbers. -/
def sortDesc : List Nat → List Nat
  | [] => []
  | x :: t => insertDesc x (sortDesc t)

/-- The ranks that occur exactly `n` times among `ranks`, descending, each
written `n` times. -/
def groupOf (ranks : List Nat) (n : Nat) : List Nat :=
  (sortDesc ((ranks.dedup).filter (fun r => ranks.count r == n))).flatMap
    (fun r => List.replicate n r)

/-- The canonical order of the specification for the ranks of a five-card
hand: quad ranks, then trip ranks, then pair ranks, then singletons, each
group descending; the wheel is written 5, 4, 3, 2, 1. -/
def groupedRanks (cards : List Card) : List Nat :=
  let ranks := cards.map (fun c => c.Rank)
  if sortDesc ranks = [14, 5, 4, 3, 2] then [5, 4, 3, 2, 1]
  else groupOf ranks 4 ++ groupOf ranks 3 ++ groupOf ranks 2 ++ groupOf ranks 1

/-- The rank key of the specification: the category, then the ranks in
canonical order. -/
def rankKey (h : HandResult) : List Nat := h.Rank :: groupedRanks h.Cards

/-- Strict lexicographic order on rank keys. -/
def keyLt : List Nat → List Nat → Bool
  | [], [] => false
  | [], _ :: _ => true
  | _ :: _, [] => false
  | a :: s, b :: t => if a < b then true else if b < a then false else keyLt s t

/-- The rank keys of all five-card subsets of `cards`, as evaluated by
`evaluateFiveCards`. -/
def subsetKeys (cards : List Card) : List (List Nat) :=
  (generateCombinations cards 5).filterMap
    (fun combo => (evaluateFiveCards combo).map rankKey)

/-! ## Tables and runs used as concrete inputs -/

/-- A table with the given blinds and the players seated in order through
`AddPlayer` (name equal to id). -/
def seatPlayers (smallBlind bigBlind : Int) (seats : List (String × Int)) : PokerGame :=
  seats.foldl
    (fun g s => match AddPlayer g s.1 s.1 s.2 with
      | Outcome.ok g1 => g1
      | _ => g)
    (NewPokerGame smallBlind bigBlind)

/-- A run of `ProcessAction` calls, stopping at the first call that is not
accepted. -/
def runActions : Outcome → List (String × ActionType × Int) → Outcome
  | o, [] => o
  | Outcome.ok g, (playerID, action, amount) :: t =>
      runActions (ProcessAction g playerID action amount) t
  | o, _ :: _ => o

/-- A generator that always returns 0. -/
def zeroRand : Nat → Nat := fun _ => 0

/-- The values `j` a generator returns at loop indices 0..51 of the shuffle
so that the deck starts Ah 2c 7d 9h Ad 2s Ks 5c Jd. -/
def dealTable : List Nat :=
  [0, 0, 1, 2, 1, 1, 6, 3, 8, 1, 2, 4, 5, 6, 7, 8, 9, 10, 11, 12, 13, 14, 15, 16, 17, 19,
   20, 21, 23, 24, 26, 27, 28, 29, 30, 31, 32, 34, 35, 36, 37, 40, 41, 42, 43, 44, 45, 46,
   47, 48, 49, 51]

/-- The generator that plays `dealTable`. -/
def dealRand : Nat → Nat := fun i => dealTable.getD i 0

/-- Two seats, blinds 10 and 20, stacks of 1000. -/
def headsUpTable : PokerGame := seatPlayers 10 20 [("a", 1000), ("b", 1000)]

/-- Two seats, blinds 10 and 20, stacks of 5 and 15. -/
def shortStackTable : PokerGame := seatPlayers 10 20 [("a", 5), ("b", 15)]

/-- Three seats, blinds 10 and 20; with the button moving to seat 1 the
order of action on the flop is p1, p2, p3, and p3 reaches the flop with
310 chips. -/
def threeSeatTable : PokerGame := seatPlayers 10 20 [("p2", 1000), ("p3", 330), ("p1", 1000)]

/-- Heads-up hand checked down to the showdown: a call and a check before
the flop, then two checks on each street. -/
def checkDown : List (String × ActionType × Int) :=
  [("a", ActionType.Call, 0), ("b", ActionType.Check, 0),
   ("a", ActionType.Check, 0), ("b", ActionType.Check, 0),
   ("a", ActionType.Check, 0), ("b", ActionType.Check, 0),
   ("a", ActionType.Check, 0), ("b", ActionType.Check, 0)]

/-- Three-seat hand: everybody sees the flop for 20, then p1 bets 100, p2
raises to 250 and p3 moves all-in for 310. -/
def shortAllInLine : List (String × ActionType × Int) :=
  [("p3", ActionType.Call, 0), ("p1", ActionType.Call, 0), ("p2", ActionType.Check, 0),
   ("p1", ActionType.Bet, 100), ("p2", ActionType.Raise, 250), ("p3", ActionType.AllIn, 0)]

/-- A seven-card input without pair, straight or flush:
2c 4d 6h 8s Tc Qd Ah. -/
def highCardSeven : List Card :=
  [⟨Clubs, Two⟩, ⟨Diamonds, Four⟩, ⟨Hearts, Six⟩, ⟨Spades, Eight⟩, ⟨Clubs, Ten⟩,
   ⟨Diamonds, Queen⟩, ⟨Hearts, Ace⟩]

/-- The state of an accepted call, or `d` when the call was not accepted. -/
def Outcome.stateOr (o : Outcome) (d : PokerGame) : PokerGame :=
  match o with
  | Outcome.ok g => g
  | _ => d

/-- The heads-up table after `StartNewHand`. -/
def headsUpStart : PokerGame := (StartNewHand headsUpTable zeroRand).stateOr headsUpTable

/-- The heads-up hand after the first player folds before the flop. -/
def headsUpFolded : PokerGame :=
  (ProcessAction headsUpStart "a" ActionType.Fold 0).stateOr headsUpTable

/-- The heads-up hand at the start of the flop (a call and a check before
it). -/
def headsUpFlop : PokerGame :=
  (runActions (Outcome.ok headsUpStart)
    [("a", ActionType.Call, 0), ("b", ActionType.Check, 0)]).stateOr headsUpTable

/-- The heads-up hand dealt by `dealRand` and checked down: a holds Ah 7d,
b holds 2c 9h, the board is Ad 2s Ks 5c Jd. -/
def showdownState : PokerGame :=
  (runActions (StartNewHand headsUpTable dealRand) checkDown).stateOr headsUpTable

/-- The short-stack table after `StartNewHand`. -/
def shortStackStart : PokerGame :=
  (StartNewHand shortStackTable zeroRand).stateOr shortStackTable

/-- The three-seat hand before p3 moves all-in. -/
def beforeAllIn : PokerGame :=
  (runActions (StartNewHand threeSeatTable zeroRand) (shortAllInLine.take 5)).stateOr
    threeSeatTable

/-- The three-seat hand after p3 moved all-in. -/
def afterAllIn : PokerGame :=
  (runActions (StartNewHand threeSeatTable zeroRand) shortAllInLine).stateOr threeSeatTable

/-! ## The hand categories of the specification -/

/-- Descending order of ranks along a list of cards. -/
def RanksDesc (l : List Card) : Prop := l.Pairwise (fun a b => b.Rank ≤ a.Rank)

/-- The ranks of the cards, in the order given. -/
def ranksOf (cards : List Card) : List Nat := cards.map (fun c => c.Rank)

/-- Flush of the specification: all suits equal. -/
def specFlush (cards : List Card) : Bool :=
  cards.all (fun c => cards.all (fun d => c.Suit == d.Suit))

/-- Five consecutive ranks, descending. -/
def consecutiveDesc : List Nat → Bool
  | [a, b, c, d, e] => a == b + 1 && b == c + 1 && c == d + 1 && d == e + 1
  | _ => false

/-- Straight of the specification: the ranks sorted descending are five
consecutive ranks, or they are the wheel A, 5, 4, 3, 2. -/
def specStraight (cards : List Card) : Bool :=
  consecutiveDesc (sortDesc (ranksOf cards)) || sortDesc (ranksOf cards) == [14, 5, 4, 3, 2]

/-- The number of ranks that occur exactly `n` times (the entries `n` of the
rank-frequency multiset). -/
def rankTimes (cards : List Card) (n : Nat) : Nat :=
  (((ranksOf cards).dedup).filter (fun r => (ranksOf cards).count r == n)).length

/-- Category assignment of the specification, first match wins. -/
def specCategory (cards : List Card) : HandRank :=
  if specFlush cards && specStraight cards && (sortDesc (ranksOf cards)).take 2 == [Ace, King]
    then RoyalFlush
  else if specFlush cards && specStraight cards then StraightFlush
  else if rankTimes cards 4 > 0 then FourOfAKind
  else if rankTimes cards 3 > 0 && rankTimes cards 2 > 0 then FullHouse
  else if specFlush cards then Flush
  else if specStraight cards then Straight
  else if rankTimes cards 3 > 0 then ThreeOfAKind
  else if rankTimes cards 2 == 2 then TwoPair
  else if rankTimes cards 2 == 1 then OnePair
  else HighCard

/-- The input 7h 7c 7d 7s 2h 3h Kh. -/
def quadSevens : List Card :=
  [⟨Hearts, Seven⟩, ⟨Clubs, Seven⟩, ⟨Diamonds, Seven⟩, ⟨Spades, Seven⟩, ⟨Hearts, Two⟩,
   ⟨Hearts, Three⟩, ⟨Hearts, King⟩]

/-- The input 2h 2d 3c 3s 4h 4d 5s. -/
def threePairs : List Card :=
  [⟨Hearts, Two⟩, ⟨Diamonds, Two⟩, ⟨Clubs, Three⟩, ⟨Spades, Three⟩, ⟨Hearts, Four⟩,
   ⟨Diamonds, Four⟩, ⟨Spades, Five⟩]

/-- The input As 2s 3s 4s 5s Kd Qd. -/
def wheelFlushSeven : List Card :=
  [⟨Spades, Ace⟩, ⟨Spades, Two⟩, ⟨Spades, Three⟩, ⟨Spades, Four⟩, ⟨Spades, Five⟩,
   ⟨Diamonds, King⟩, ⟨Diamonds, Queen⟩]

/-- The five cards As 2d 3c 4s 5h, a wheel of mixed suits. -/
def wheelFive : List Card :=
  [⟨Spades, Ace⟩, ⟨Diamonds, Two⟩, ⟨Clubs, Three⟩, ⟨Spades, Four⟩, ⟨Hearts, Five⟩]

/-- The five cards 6c 5d 4h 3s 2c, a six-high straight. -/
def sixHighFive : List Card :=
  [⟨Clubs, Six⟩, ⟨Diamonds, Five⟩, ⟨Hearts, Four⟩, ⟨Spades, Three⟩, ⟨Clubs, Two⟩]

/-- The values `j` a generator returns at loop indices 0..51 of the shuffle
so that the deck starts 2c 3d 4h 7d 8h 9s Ah Kd Qc Js Th: dealt to three
seats, every seat plays the board, an ace-high straight. -/
def boardTable : List Nat :=
  [0, 1, 2, 3, 1, 1, 5, 6, 3, 7, 3, 1, 2, 3, 4, 5, 6, 7, 8, 9, 11, 12, 13, 15, 16, 17, 19,
   20, 21, 22, 23, 25, 26, 27, 29, 30, 31, 33, 35, 36, 37, 39, 40, 41, 42, 43, 44, 45, 47,
   49, 50, 51]

/-- The generator that plays `boardTable`. -/
def boardRand : Nat → Nat := fun i => boardTable.getD i 0

/-- Three seats, blinds 1 and 2, stacks of 1000. -/
def oddPotTable : PokerGame := seatPlayers 1 2 [("a", 1000), ("b", 1000), ("c", 1000)]

/-- The hand on `oddPotTable`: b raises to 50, the small blind c folds, the
big blind a calls (pot 101), and the two check the hand down. -/
def oddPotLine : List (String × ActionType × Int) :=
  [("b", ActionType.Raise, 50), ("c", ActionType.Fold, 0), ("a", ActionType.Call, 0),
   ("a", ActionType.Check, 0), ("b", ActionType.Check, 0),
   ("a", ActionType.Check, 0), ("b", ActionType.Check, 0),
   ("a", ActionType.Check, 0), ("b", ActionType.Check, 0)]

/-- The state at the end of `oddPotLine`. -/
def oddPotShowdown : PokerGame :=
  (runActions (StartNewHand oddPotTable boardRand) oddPotLine).stateOr oddPotTable

/-- Three seats, blinds 10 and 20, stacks of 1000; on the flop the order of
action is p1, p2, p3. -/
def threeDeepTable : PokerGame :=
  seatPlayers 10 20 [("p2", 1000), ("p3", 1000), ("p1", 1000)]

/-- The hand on `threeDeepTable`: everybody sees the flop for 20, then p1
bets 100, p2 raises to 250, p3 raises to 400. -/
def reraiseLine : List (String × ActionType × Int) :=
  [("p3", ActionType.Call, 0), ("p1", ActionType.Call, 0), ("p2", ActionType.Check, 0),
   ("p1", ActionType.Bet, 100), ("p2", ActionType.Raise, 250), ("p3", ActionType.Raise, 400)]

/-- The state at the end of `reraiseLine`. -/
def afterReraise : PokerGame :=
  (runActions (StartNewHand threeDeepTable zeroRand) reraiseLine).stateOr threeDeepTable

/-- Two seats, blinds 10 and 20, stacks of 500 and 1000. -/
def coveredTable : PokerGame := seatPlayers 10 20 [("a", 500), ("b", 1000)]

/-- The hand on `coveredTable` at the start of the flop: a moved all-in and
b called. -/
def coveredFlop : PokerGame :=
  (runActions (StartNewHand coveredTable zeroRand)
    [("a", ActionType.AllIn, 0), ("b", ActionType.Call, 0)]).stateOr coveredTable

/-- The hand on `coveredTable` after b checked the flop, the turn and the
river. -/
def coveredShowdown : PokerGame :=
  (runActions (Outcome.ok coveredFlop)
    [("b", ActionType.Check, 0), ("b", ActionType.Check, 0),
     ("b", ActionType.Check, 0)]).stateOr coveredTable

/-- A relation between the records of one player before and after a step
that is kept by every update of a player made inside a betting round
(`betPlayer` is only ever applied to a player who is not all-in). -/
structure StepRel (R : PokerPlayer → PokerPlayer → Prop) : Prop where
  same : ∀ p, R p p
  chain : ∀ p q r, R p q → R q r → R p r
  bet : ∀ a p, p.IsAllIn = false → R p (betPlayer a p)
  acted : ∀ p b, R p { p with HasActed := b }
  street : ∀ p, R p { p with CurrentBet := 0, HasActed := false }

/-- The table after a step: every seat related by `R` to what it was, the
dealer, the count of active players and the blinds unchanged. -/
def Evolves (R : PokerPlayer → PokerPlayer → Prop) (g g1 : PokerGame) : Prop :=
  List.Forall₂ R g.Players g1.Players ∧ g1.DealerIndex = g.DealerIndex ∧
    g1.NumActivePlayers = g.NumActivePlayers ∧ g1.BigBlind = g.BigBlind ∧
    g1.SmallBlind = g.SmallBlind

/-- Where the turn can be after a step: where it was, at the dealer, or at a
seat that is able to act. -/
def NextOk (g g1 : PokerGame) : Prop :=
  g1.CurrentIndex = g.CurrentIndex ∨ g1.CurrentIndex = g.DealerIndex ∨
    ∃ p, g1.Players.get? g1.CurrentIndex = some p ∧ canAct p = true

/-- The update `resetHasActed` makes to one player. -/
def reopenPlayer (p : PokerPlayer) : PokerPlayer :=
  if !p.IsFolded && !p.IsAllIn then { p with HasActed := false } else p

/-- The heads-up hand on the flop after a bets 100. -/
def headsUpBet : PokerGame :=
  (ProcessAction headsUpFlop "a" ActionType.Bet 100).stateOr headsUpTable

/-! ## rules.go: the main pot -/

/-- Source `MaxBuyIn`. -/
def MaxBuyIn : Int := 100000

/-- Source `CalculateMainPot(players)`. -/
def CalculateMainPot (players : List PokerPlayer) : Int :=
  let found : Int × Nat := players.foldl
    (fun acc p =>
      if p.IsAllIn && decide (p.TotalBetInHand < acc.1) then (p.TotalBetInHand, acc.2 + 1)
      else acc)
    (MaxBuyIn, 0)
  if found.2 = 0 then (players.map (fun p => p.TotalBetInHand)).sum
  else
    (players.map (fun p =>
      if p.TotalBetInHand ≥ found.1 then found.1 else p.TotalBetInHand)).sum

/-! ## Inputs for the side pots and for the errors of `StartNewHand` -/

/-- Three seats, blinds 10 and 20, stacks of 100, 200 and 500. -/
def mainPotTable : PokerGame := seatPlayers 10 20 [("p1", 100), ("p2", 200), ("p3", 500)]

/-- The hand on `mainPotTable` after all three players moved all-in before
the flop (p2 acts first, then p3, then the big blind p1). -/
def allInThree : PokerGame :=
  (runActions (StartNewHand mainPotTable zeroRand)
    [("p2", ActionType.AllIn, 0), ("p3", ActionType.AllIn, 0),
     ("p1", ActionType.AllIn, 0)]).stateOr mainPotTable

/-- The values `j` a generator returns at loop indices 0..51 of the shuffle
so that the deck starts 2c Ah 7d Ad 3s 5h 9c Jd Kh: heads-up, seat 0 holds
2c 7d, seat 1 holds Ah Ad, and the board is 3s 5h 9c Jd Kh. -/
def bustTable : List Nat :=
  [0, 1, 2, 2, 2, 2, 6, 6, 6, 1, 2, 3, 4, 5, 6, 8, 9, 10, 11, 12, 13, 14, 15, 16, 17, 19,
   20, 21, 23, 24, 26, 27, 28, 30, 31, 32, 33, 34, 35, 36, 39, 41, 42, 43, 44, 45, 46, 47,
   48, 49, 50, 51]

/-- The generator that plays `bustTable`. -/
def bustRand : Nat → Nat := fun i => bustTable.getD i 0

/-- The heads-up hand on `coveredTable` dealt by `bustRand`: a moves all-in
for 500, b calls and checks the hand down; b wins with a pair of aces and a
is left without chips. -/
def bustedShowdown : PokerGame :=
  (runActions (StartNewHand coveredTable bustRand)
    [("a", ActionType.AllIn, 0), ("b", ActionType.Call, 0), ("b", ActionType.Check, 0),
     ("b", ActionType.Check, 0), ("b", ActionType.Check, 0)]).stateOr coveredTable

/-- The state `StartNewHand` leaves behind on `bustedShowdown`. -/
def afterFailedStart : PokerGame :=
  ((StartNewHand bustedShowdown zeroRand).after).getD bustedShowdown

/-- The players still contending for the pot: active and not folded (the
test of `shouldEndHand` and `determineWinners`). -/
def contenders (ps : List PokerPlayer) : List PokerPlayer :=
  ps.filter (fun p => p.IsActive && !p.IsFolded)

/-- Seat `i` holds a player who is in the hand (`IsActive`). -/
def SeatedAt (ps : List PokerPlayer) (i : Nat) : Prop :=
  ∃ p, ps.get? i = some p ∧ p.IsActive = true

/-- Seat `i` holds a player who is able to act. -/
def AbleAt (ps : List PokerPlayer) (i : Nat) : Prop :=
  ∃ p, ps.get? i = some p ∧ canAct p = true

/-- What no step of a hand changes in a player, folding apart: the id, and
the flags `IsActive` and `IsFolded`. -/
def CoreRel (p q : PokerPlayer) : Prop :=
  q.ID = p.ID ∧ q.IsActive = p.IsActive ∧ q.IsFolded = p.IsFolded

/-- The table is consistent: `NumActivePlayers` counts the contenders, the
dealer seat and the acting seat hold players who are in the hand, and two
contenders are left unless the player at the acting seat has folded (the
fold that left one contender ended the hand and the turn did not pass). -/
structure TableOk (g : PokerGame) : Prop where
  count : g.NumActivePlayers = ((contenders g.Players).length : Int)
  acting : SeatedAt g.Players g.CurrentIndex
  dealer : SeatedAt g.Players g.DealerIndex
  alive : 2 ≤ g.NumActivePlayers ∨
    ∃ p, g.Players.get? g.CurrentIndex = some p ∧ p.IsFolded = true

/-- The first half of `postBlinds`: seat `sb`, holding `sbP`, posts the small
blind. -/
def sbPosted (g : PokerGame) (sb : Nat) (sbP : PokerPlayer) : PokerGame :=
  playerBet g sb (if g.SmallBlind > sbP.Chips then sbP.Chips else g.SmallBlind)

/-- The second half of `postBlinds`: seat `bb`, holding `bbP`, posts the big
blind and the current bet is set. -/
def bbPosted (g : PokerGame) (bb : Nat) (bbP : PokerPlayer) : PokerGame :=
  { playerBet g bb (if g.BigBlind > bbP.Chips then bbP.Chips else g.BigBlind) with
    CurrentBet := (playerBet g bb
      (if g.BigBlind > bbP.Chips then bbP.Chips else g.BigBlind)).BigBlind }


/-- Two different seats hold players who are able to act. -/
def TwoAble (ps : List PokerPlayer) : Prop :=
  ∃ i j, i ≠ j ∧ AbleAt ps i ∧ AbleAt ps j

/-- An all-in player holds no chips. -/
def AllInBroke (p : PokerPlayer) : Prop := p.IsAllIn = true → p.Chips = 0

/-- A step keeps the property `AllInBroke` of a player. -/
def KeepsBroke (p q : PokerPlayer) : Prop := AllInBroke p → AllInBroke q

/-- The number of community cards on the board during a street. -/
def streetCards : BettingRound → Nat
  | BettingRound.PreFlop => 0
  | BettingRound.Flop => 3
  | BettingRound.Turn => 4
  | BettingRound.River => 5
  | BettingRound.Showdown => 5

/-- The players dealt into the hand (`IsActive`), in seat order. -/
def dealtIn (ps : List PokerPlayer) : List PokerPlayer := ps.filter (fun p => p.IsActive)

/-- The hole cards of the players dealt into the hand. -/
def holeCardsOf (ps : List PokerPlayer) : List Card :=
  (dealtIn ps).flatMap (fun p => p.HoleCards)

/-- All the cards of a hand: the hole cards of the players dealt in and the
community cards. -/
def handCards (g : PokerGame) : List Card := holeCardsOf g.Players ++ g.CommunityCards

/-- What no step after the deal changes in a player: the id, the flag
`IsActive` and the hole cards. -/
def DealtRel (p q : PokerPlayer) : Prop :=
  q.ID = p.ID ∧ q.IsActive = p.IsActive ∧ q.HoleCards = p.HoleCards

/-- From `d` to `d1` the next `n` cards were drawn and are the list `cs`. -/
def Drew (n : Nat) (d d1 : Deck) (cs : List Card) : Prop :=
  d1.cards = d.cards ∧ d1.used = d.used + n ∧ cs = (d.cards.drop d.used).take n ∧
    cs.length = n

/-- The deck of a hand is consistent: it is a permutation of the new deck,
the cursor counts two cards for every player dealt in and the community
cards, the board has the number of cards of its street, and the cards of the
hand are the cards before the cursor. -/
structure DeckOk (g : PokerGame) : Prop where
  cards : g.Deck.cards.Perm NewDeck.cards
  used : g.Deck.used = 2 * (dealtIn g.Players).length + g.CommunityCards.length
  street : g.CommunityCards.length = streetCards g.BettingRound
  dealt : (handCards g).Perm (g.Deck.cards.take g.Deck.used)

/-- The table after the `Fold` case of `ProcessAction` for the acting player. -/
def foldedState (g : PokerGame) : PokerGame :=
  { g with
    Players := modifyAt g.Players g.CurrentIndex (fun p => { p with IsFolded := true }),
    NumActivePlayers := g.NumActivePlayers - 1 }

/-- The table after the player at index `i` is marked as having acted and
`endBettingRound` has reset the street bets. -/
def streetReset (g : PokerGame) (i : Nat) : PokerGame :=
  { g with
    Players := (modifyAt g.Players i (fun p => { p with HasActed := true })).map
      (fun p => { p with CurrentBet := 0, HasActed := false }),
    CurrentBet := 0 }

/-- The record of a, the acting player, in `headsUpStart`. -/
def headsUpActing : PokerPlayer :=
  { ID := "a", Name := "a", Chips := 990, HoleCards := [⟨Clubs, Three⟩, ⟨Clubs, Five⟩],
    CurrentBet := 10, TotalBetInHand := 10, HasActed := false, IsFolded := false,
    IsAllIn := false, IsActive := true, SeatPosition := 0 }

/-- The record of b, the big blind, in `headsUpStart`. -/
def headsUpWaiting : PokerPlayer :=
  { ID := "b", Name := "b", Chips := 980, HoleCards := [⟨Clubs, Four⟩, ⟨Clubs, Six⟩],
    CurrentBet := 20, TotalBetInHand := 20, HasActed := false, IsFolded := false,
    IsAllIn := false, IsActive := true, SeatPosition := 1 }

/-- The seats `sbIndex` and `bbIndex` that `postBlinds` computes: the big
blind seat is looked up after the small blind is posted. -/
def blindSeats (g : PokerGame) : Option (Nat × Nat) :=
  match getSmallBlindIndex g with
  | none => none
  | some sbIndex =>
    match g.Players.get? sbIndex with
    | none => none
    | some sbPlayer =>
      let sbAmount := if g.SmallBlind > sbPlayer.Chips then sbPlayer.Chips else g.SmallBlind
      match getBigBlindIndex (playerBet g sbIndex sbAmount) with
      | none => none
      | some bbIndex => some (sbIndex, bbIndex)

/-- What the posting of the blinds and the deal leave as they are in a
player: the flags `HasActed` and `IsActive`. -/
def WaitRel (p q : PokerPlayer) : Prop :=
  q.HasActed = p.HasActed ∧ q.IsActive = p.IsActive

/-- The heads-up hand after a, the first to act, called the big blind. -/
def headsUpCalled : PokerGame :=
  (ProcessAction headsUpStart "a" ActionType.Call 0).stateOr headsUpTable

/-- Only the seats `i` and `j` hold players who are in the hand. -/
def OnlySeats (ps : List PokerPlayer) (i j : Nat) : Prop :=
  ∀ k p, ps.get? k = some p → p.IsActive = true → k = i ∨ k = j

/-- A step keeps the flag `IsActive` of a player. -/
def ActiveRel (p q : PokerPlayer) : Prop := q.IsActive = p.IsActive

/-- The record of a at `headsUpTable`, before any hand. -/
def headsUpSeatA : PokerPlayer :=
  { ID := "a", Name := "a", Chips := 1000, HoleCards := [], CurrentBet := 0,
    TotalBetInHand := 0, HasActed := false, IsFolded := false, IsAllIn := false,
    IsActive := true, SeatPosition := 0 }

/-- The record of b at `headsUpTable`, before any hand. -/
def headsUpSeatB : PokerPlayer :=
  { ID := "b", Name := "b", Chips := 1000, HoleCards := [], CurrentBet := 0,
    TotalBetInHand := 0, HasActed := false, IsFolded := false, IsAllIn := false,
    IsActive := true, SeatPosition := 1 }

/-- The ranks that occur exactly `n` times among `ranks`, descending, each
written once. -/
def groupRanks (ranks : List Nat) (n : Nat) : List Nat :=
  sortDesc ((ranks.dedup).filter (fun r => ranks.count r == n))

/-- The first-match chain of `specCategory`, on the outcomes of its tests. -/
def chainCategory (royal straightFlush flush straight : Bool) (t4 t3 t2 : Nat) : HandRank :=
  if royal then RoyalFlush
  else if straightFlush then StraightFlush
  else if t4 > 0 then FourOfAKind
  else if t3 > 0 && t2 > 0 then FullHouse
  else if flush then Flush
  else if straight then Straight
  else if t3 > 0 then ThreeOfAKind
  else if t2 == 2 then TwoPair
  else if t2 == 1 then OnePair
  else HighCard

/-- The heads-up hand dealt by `dealRand` before the last check of the
river. -/
def beforeShowdown : PokerGame :=
  (runActions (StartNewHand headsUpTable dealRand) (checkDown.take 7)).stateOr headsUpTable

/-- The checked-down heads-up hand after two more checks, accepted after the
showdown. -/
def paidTwice : PokerGame :=
  (runActions (StartNewHand headsUpTable dealRand)
    (checkDown ++ [("b", ActionType.Check, 0), ("a", ActionType.Check, 0)])).stateOr
    headsUpTable

/-- The state after a `StartNewHand` on `headsUpStart`, a hand in progress
with 30 in the pot. -/
def restarted : PokerGame := (StartNewHand headsUpStart zeroRand).stateOr headsUpStart

/-- Two seats with the same id, blinds 10 and 20, stacks of 1000 (`AddPlayer`
does not compare ids). -/
def twinTable : PokerGame := seatPlayers 10 20 [("a", 1000), ("a", 1000)]

/-- The table of equal ids after `StartNewHand`. -/
def twinStart : PokerGame := (StartNewHand twinTable zeroRand).stateOr twinTable

/-- The hand on the table of equal ids after the acting seat 0 folds. -/
def twinFolded : PokerGame :=
  (ProcessAction twinStart "a" ActionType.Fold 0).stateOr twinTable

/-! ## Relations used in the proofs -/

/-- What every step inside a running hand keeps: the chip total, the completion flag. -/
def Keeps (g g1 : PokerGame) : Prop :=
  chipTotal g1 = chipTotal g ∧ g1.HandComplete = g.HandComplete ∧
    g1.Winners = g.Winners ∧ g1.SidePots = g.SidePots

/-- The two ways a betting round ends: the hand goes on with the chip total
kept, or the hand is ended from a state with the chip total kept. -/
def GoesOnOrEnds (g g1 : PokerGame) : Prop :=
  Keeps g g1 ∨ ∃ g2, Keeps g g2 ∧ endHand g2 = some g1

/-- The record of p3 before the all-in. -/
def p3BeforeAllIn : PokerPlayer :=
  { ID := "p3", Name := "p3", Chips := 310, HoleCards := [⟨Clubs, Four⟩, ⟨Clubs, Seven⟩],
    CurrentBet := 0, TotalBetInHand := 20, HasActed := false, IsFolded := false,
    IsAllIn := false, IsActive := true, SeatPosition := 1 }

/-- The record of p2 before the all-in. -/
def p2BeforeAllIn : PokerPlayer :=
  { ID := "p2", Name := "p2", Chips := 730, HoleCards := [⟨Clubs, Three⟩, ⟨Clubs, Six⟩],
    CurrentBet := 250, TotalBetInHand := 270, HasActed := true, IsFolded := false,
    IsAllIn := false, IsActive := true, SeatPosition := 0 }

/-! ## Lemmas -/

theorem sumChips_cons (p : PokerPlayer) (t : List PokerPlayer) :
    sumChips (p :: t) = p.Chips + sumChips t := by
  simp [sumChips]

theorem sumChips_modifyAt (ps : List PokerPlayer) (i : Nat) (f : PokerPlayer → PokerPlayer)
    (p : PokerPlayer) (h : ps.get? i = some p) :
    sumChips (modifyAt ps i f) = sumChips ps - p.Chips + (f p).Chips := by
  induction ps generalizing i with
  | nil => simp at h
  | cons q t ih =>
    cases i with
    | zero =>
      simp at h
      subst h
      simp only [modifyAt, sumChips_cons]
      ring
    | succ n =>
      have h1 : t.get? n = some p := h
      simp only [modifyAt, sumChips_cons, ih n h1]
      ring

theorem sumChips_modifyAt_same (ps : List PokerPlayer) (i : Nat) (f : PokerPlayer → PokerPlayer)
    (hf : ∀ p, (f p).Chips = p.Chips) : sumChips (modifyAt ps i f) = sumChips ps := by
  induction ps generalizing i with
  | nil => simp [modifyAt]
  | cons q t ih =>
    cases i with
    | zero => simp only [modifyAt, sumChips_cons, hf]
    | succ n => simp only [modifyAt, sumChips_cons, ih n]

theorem sumChips_map_same (ps : List PokerPlayer) (f : PokerPlayer → PokerPlayer)
    (hf : ∀ p, (f p).Chips = p.Chips) : sumChips (ps.map f) = sumChips ps := by
  induction ps with
  | nil => rfl
  | cons q t ih => simp only [List.map, sumChips_cons, hf, ih]

theorem Keeps.refl (g : PokerGame) : Keeps g g := ⟨rfl, rfl, rfl, rfl⟩

theorem Keeps.trans {a b c : PokerGame} (h1 : Keeps a b) (h2 : Keeps b c) : Keeps a c :=
  ⟨h2.1.trans h1.1, h2.2.1.trans h1.2.1, h2.2.2.1.trans h1.2.2.1, h2.2.2.2.trans h1.2.2.2⟩

theorem keeps_of_fields {g g1 : PokerGame} (hc : sumChips g1.Players = sumChips g.Players)
    (hp : g1.Pot = g.Pot) (hs : g1.SidePots = g.SidePots)
    (hh : g1.HandComplete = g.HandComplete) (hw : g1.Winners = g.Winners) : Keeps g g1 := by
  refine ⟨?_, hh, hw, hs⟩
  simp only [chipTotal, hc, hp, hs]

theorem keeps_playerBet (g : PokerGame) (i : Nat) (amount : Int) :
    Keeps g (playerBet g i amount) := by
  unfold playerBet
  split
  · exact Keeps.refl g
  · rename_i p hp
    refine ⟨?_, rfl, rfl, rfl⟩
    simp only [chipTotal, sumChips_modifyAt g.Players i _ p hp, betPlayer]
    ring

theorem keeps_resetHasActed (g : PokerGame) : Keeps g (resetHasActed g) := by
  refine keeps_of_fields ?_ rfl rfl rfl rfl
  apply sumChips_map_same
  intro p
  split <;> rfl

theorem keeps_applyAction {g g1 : PokerGame} {i : Nat} {cur : PokerPlayer} {playerID : String}
    {action : ActionType} {amount : Int}
    (h : applyAction g i cur playerID action amount = Except.ok g1) : Keeps g g1 := by
  unfold applyAction at h
  split at h
  · split at h
    · cases h
    · cases h; exact Keeps.refl g
  · split at h
    · cases h
    · cases h; exact keeps_playerBet _ _ _
  · split at h
    · cases h
    · split at h
      · cases h
      · cases h
        refine Keeps.trans (keeps_playerBet g i amount) (Keeps.trans ?_ (keeps_resetHasActed _))
        exact keeps_of_fields rfl rfl rfl rfl rfl
  · split at h
    · cases h
    · split at h
      · cases h
      · cases h
        refine Keeps.trans (keeps_playerBet g i (amount - cur.CurrentBet))
          (Keeps.trans ?_ (keeps_resetHasActed _))
        exact keeps_of_fields rfl rfl rfl rfl rfl
  · cases h
    exact keeps_of_fields (sumChips_modifyAt_same _ _ _ (fun _ => rfl)) rfl rfl rfl rfl
  · simp only at h
    split at h
    · cases h; exact keeps_playerBet _ _ _
    · split at h
      · cases h
        refine Keeps.trans (keeps_playerBet g i cur.Chips)
          (Keeps.trans ?_ (keeps_resetHasActed _))
        exact keeps_of_fields rfl rfl rfl rfl rfl
      · cases h; exact keeps_playerBet _ _ _
  · cases h; exact Keeps.refl g

theorem keeps_dealCommunity (n : Nat) (g g1 : PokerGame) (h : dealCommunity n g = some g1) :
    Keeps g g1 := by
  induction n generalizing g with
  | zero =>
    simp only [dealCommunity] at h
    cases h
    exact Keeps.refl _
  | succ k ih =>
    simp only [dealCommunity] at h
    split at h
    · cases h
    · refine Keeps.trans ?_ (ih _ h)
      exact keeps_of_fields rfl rfl rfl rfl rfl

theorem keeps_setNextPlayer (g g1 : PokerGame) (h : setNextPlayer g = some g1) :
    Keeps g g1 := by
  unfold setNextPlayer at h
  split at h
  · cases h
  · cases h
    exact keeps_of_fields rfl rfl rfl rfl rfl

theorem determineWinners_complete (g g1 : PokerGame) (h : determineWinners g = some g1) :
    g1.HandComplete = g.HandComplete := by
  unfold determineWinners at h
  simp only at h
  split at h
  · cases h; rfl
  · split at h
    · cases h
    · split at h
      · cases h
      · cases h; rfl

theorem endHand_complete (g g1 : PokerGame) (h : endHand g = some g1) :
    g1.HandComplete = true := by
  unfold endHand at h
  split at h
  · cases h
  · rename_i g2 hg2
    cases h
    have := determineWinners_complete _ _ hg2
    simpa [awardPots] using this

theorem endBettingRound_cases (g g1 : PokerGame) (h : endBettingRound g = some g1) :
    GoesOnOrEnds g g1 := by
  have hk : Keeps g (createSidePots
      { g with Players := g.Players.map (fun p => { p with CurrentBet := 0, HasActed := false }),
               CurrentBet := 0 }) :=
    keeps_of_fields (sumChips_map_same _ _ (fun _ => rfl)) rfl rfl rfl rfl
  unfold endBettingRound at h
  simp only at h
  split at h
  · exact Or.inr ⟨_, hk, h⟩
  · split at h
    · split at h
      · cases h
      · rename_i g3 hg3
        refine Or.inl (Keeps.trans hk (Keeps.trans (keeps_dealCommunity _ _ _ hg3) ?_))
        refine Keeps.trans ?_ (keeps_setNextPlayer _ _ h)
        exact keeps_of_fields rfl rfl rfl rfl rfl
    · split at h
      · cases h
      · rename_i g3 hg3
        refine Or.inl (Keeps.trans hk (Keeps.trans (keeps_dealCommunity _ _ _ hg3) ?_))
        refine Keeps.trans ?_ (keeps_setNextPlayer _ _ h)
        exact keeps_of_fields rfl rfl rfl rfl rfl
    · split at h
      · cases h
      · rename_i g3 hg3
        refine Or.inl (Keeps.trans hk (Keeps.trans (keeps_dealCommunity _ _ _ hg3) ?_))
        refine Keeps.trans ?_ (keeps_setNextPlayer _ _ h)
        exact keeps_of_fields rfl rfl rfl rfl rfl
    · exact Or.inr ⟨_, hk, h⟩
    · exact Or.inl (Keeps.trans hk (keeps_setNextPlayer _ _ h))

theorem finishAction_cases (g g1 : PokerGame) (i : Nat) (h : finishAction g i = some g1) :
    GoesOnOrEnds g g1 := by
  have hk : Keeps g
      { g with Players := modifyAt g.Players i (fun p => { p with HasActed := true }) } :=
    keeps_of_fields (sumChips_modifyAt_same _ _ _ (fun _ => rfl)) rfl rfl rfl rfl
  unfold finishAction at h
  simp only at h
  split at h
  · rcases endBettingRound_cases _ _ h with h1 | ⟨g2, h2, h3⟩
    · exact Or.inl (Keeps.trans hk h1)
    · exact Or.inr ⟨g2, Keeps.trans hk h2, h3⟩
  · split at h
    · cases h
    · cases h
      exact Or.inl (Keeps.trans hk (keeps_of_fields rfl rfl rfl rfl rfl))

theorem processAction_cases (g g1 : PokerGame) (playerID : String) (action : ActionType)
    (amount : Int) (h : ProcessAction g playerID action amount = Outcome.ok g1) :
    GoesOnOrEnds g g1 := by
  unfold ProcessAction at h
  split at h
  · cases h
  · split at h
    · cases h
    · split at h
      · cases h
      · split at h
        · cases h
        · rename_i g2 hg2
          have hk := keeps_applyAction hg2
          split at h
          · cases h
          · rename_i g3 hg3
            cases h
            rcases finishAction_cases _ _ _ hg3 with h1 | ⟨g4, h2, h3⟩
            · exact Or.inl (Keeps.trans hk h1)
            · exact Or.inr ⟨g4, Keeps.trans hk h2, h3⟩

theorem sumChips_awardOne (ps : List PokerPlayer) (w : Winner)
    (h : ∃ p ∈ ps, p.ID = w.PlayerID) :
    sumChips (awardOne ps w) = sumChips ps + w.Amount := by
  induction ps with
  | nil => simp at h
  | cons q t ih =>
    simp only [awardOne]
    split
    · simp only [sumChips_cons]; ring
    · rename_i hq
      have ht : ∃ p ∈ t, p.ID = w.PlayerID := by
        rcases h with ⟨p, hp, hid⟩
        rcases List.mem_cons.mp hp with rfl | hp
        · exact absurd hid hq
        · exact ⟨p, hp, hid⟩
      simp only [sumChips_cons, ih ht]; ring

theorem playerHands_fst (community : List Card) (l : List PokerPlayer)
    (phs : List (PokerPlayer × HandResult)) (h : playerHands community l = some phs) :
    phs.map Prod.fst = l := by
  induction l generalizing phs with
  | nil =>
    simp only [playerHands] at h
    cases h; rfl
  | cons p t ih =>
    simp only [playerHands] at h
    split at h
    · cases h
    · split at h
      · cases h
      · rename_i rest hrest
        cases h
        simp [ih rest hrest]

theorem endHand_single (g g1 : PokerGame) (h : endHand g = some g1) (hw : g.Winners = [])
    (h1 : g1.Winners.length = 1) :
    sumChips g1.Players = sumChips g.Players + g.Pot ∧ g1.Pot = g.Pot ∧
      g1.SidePots = g.SidePots := by
  unfold endHand at h
  split at h
  · cases h
  · rename_i g2 hg2
    cases h
    unfold determineWinners at hg2
    simp only at hg2
    split at hg2
    · rename_i winner hwin
      cases hg2
      refine ⟨?_, rfl, rfl⟩
      have hmem : winner ∈ g.Players := by
        have : winner ∈ List.filter (fun p => p.IsActive && !p.IsFolded) g.Players := by
          rw [hwin]; exact List.mem_singleton.mpr rfl
        exact (List.mem_filter.mp this).1
      simp only [awardPots, List.foldl]
      rw [sumChips_awardOne _ _ ⟨winner, hmem, rfl⟩]
    · split at hg2
      · cases hg2
      · rename_i phs hphs
        split at hg2
        · cases hg2
        · cases hg2
          refine ⟨?_, rfl, rfl⟩
          simp only [awardPots, hw, List.nil_append, List.length_map] at h1 ⊢
          have hfst := playerHands_fst _ _ _ hphs
          generalize hws : List.filter (fun ph => ph.2.Rank == bestRankOf phs) phs = ws at h1 ⊢
          match ws, h1 with
          | [x], _ =>
            have hx : x ∈ phs := by
              have : x ∈ List.filter (fun ph => ph.2.Rank == bestRankOf phs) phs := by
                rw [hws]; exact List.mem_singleton.mpr rfl
              exact (List.mem_filter.mp this).1
            have hx1 : x.1 ∈ g.Players := by
              have : x.1 ∈ phs.map Prod.fst := List.mem_map_of_mem _ hx
              rw [hfst] at this
              exact (List.mem_filter.mp this).1
            simp only [List.map, List.foldl, List.length_singleton]
            rw [sumChips_awardOne _ _ ⟨x.1, hx1, rfl⟩]
            simp

theorem dealRound_sumChips (ps : List PokerPlayer) (d : Deck) (ps1 : List PokerPlayer)
    (d1 : Deck) (h : dealRound ps d = some (ps1, d1)) : sumChips ps1 = sumChips ps := by
  induction ps generalizing d ps1 d1 with
  | nil =>
    simp only [dealRound] at h
    cases h; rfl
  | cons p t ih =>
    simp only [dealRound] at h
    split at h
    · split at h
      · cases h
      · split at h
        · cases h
        · rename_i t1 d2 ht
          cases h
          simp only [sumChips_cons, ih _ _ _ ht]
    · split at h
      · cases h
      · rename_i t1 d2 ht
        cases h
        simp only [sumChips_cons, ih _ _ _ ht]

theorem keeps_dealHoleCards (g g1 : PokerGame) (h : dealHoleCards g = some g1) :
    Keeps g g1 := by
  unfold dealHoleCards at h
  split at h
  · cases h
  · rename_i ps1 d1 h1
    split at h
    · cases h
    · rename_i ps2 d2 h2
      cases h
      refine keeps_of_fields ?_ rfl rfl rfl rfl
      exact (dealRound_sumChips _ _ _ _ h2).trans (dealRound_sumChips _ _ _ _ h1)

theorem keeps_setCurrentBet (g : PokerGame) (x : Int) :
    Keeps g { g with CurrentBet := x } :=
  keeps_of_fields rfl rfl rfl rfl rfl

theorem keeps_postBlinds (g g1 : PokerGame) (h : postBlinds g = some g1) : Keeps g g1 := by
  unfold postBlinds at h
  split at h
  · cases h
  · split at h
    · cases h
    · simp only at h
      split at h
      · cases h
      · split at h
        · cases h
        · cases h
          exact Keeps.trans (keeps_playerBet _ _ _)
            (Keeps.trans (keeps_playerBet _ _ _) (keeps_setCurrentBet _ _))

theorem keeps_beginHand (g g1 : PokerGame) (h : beginHand g = some g1) : Keeps g g1 := by
  unfold beginHand at h
  split at h
  · cases h
  · rename_i ga hga
    have ha : Keeps g ga := by
      unfold moveDealerButton at hga
      split at hga
      · cases hga
      · cases hga
        exact keeps_of_fields rfl rfl rfl rfl rfl
    split at h
    · cases h
    · rename_i gb hgb
      split at h
      · cases h
      · rename_i gc hgc
        split at h
        · cases h
        · split at h
          · cases h
          · cases h
            refine Keeps.trans ha (Keeps.trans (keeps_postBlinds _ _ hgb)
              (Keeps.trans (keeps_dealHoleCards _ _ hgc) ?_))
            exact keeps_of_fields rfl rfl rfl rfl rfl

theorem startNewHand_total (g0 g : PokerGame) (r : Nat → Nat)
    (h : StartNewHand g0 r = Outcome.ok g) :
    chipTotal g = sumChips g0.Players ∧ g.HandComplete = false ∧ g.Winners = [] ∧
      g.SidePots = [] := by
  unfold StartNewHand at h
  split at h
  · cases h
  · simp only at h
    split at h
    · cases h
    · split at h
      · cases h
      · rename_i g2 hg2
        cases h
        obtain ⟨k1, k2, k3, k4⟩ := keeps_beginHand _ _ hg2
        refine ⟨?_, k2, k3, k4⟩
        rw [k1]
        have : sumChips (g0.Players.map resetPlayer) = sumChips g0.Players := by
          apply sumChips_map_same
          intro p
          unfold resetPlayer
          split <;> rfl
        simp [chipTotal, resetForNewHand, this, sumSidePots]

/-- Invariant of a running hand. -/
theorem reached_running (g0 g : PokerGame) (r : Nat → Nat) (h : Reached g0 r g)
    (hc : g.HandComplete = false) :
    chipTotal g = sumChips g0.Players ∧ g.Winners = [] ∧ g.SidePots = [] := by
  induction h with
  | start hs =>
    obtain ⟨a, _, c, d⟩ := startNewHand_total _ _ _ hs
    exact ⟨a, c, d⟩
  | step playerID action amount hr hp ih =>
    rcases processAction_cases _ _ _ _ _ hp with ⟨k1, k2, k3, k4⟩ | ⟨g2, _, h3⟩
    · obtain ⟨a, c, d⟩ := ih (k2 ▸ hc)
      exact ⟨k1.trans a, k3.trans c, k4.trans d⟩
    · rw [endHand_complete _ _ h3] at hc
      cases hc


theorem get?_modifyAt_eq (ps : List PokerPlayer) (i : Nat) (f : PokerPlayer → PokerPlayer)
    (p : PokerPlayer) (h : ps.get? i = some p) : (modifyAt ps i f).get? i = some (f p) := by
  induction ps generalizing i with
  | nil => cases h
  | cons q t ih =>
    cases i with
    | zero =>
      have : q = p := by simpa using h
      subst this
      rfl
    | succ n =>
      have h1 : t.get? n = some p := h
      exact ih n h1

theorem get?_modifyAt_ne (ps : List PokerPlayer) (i j : Nat) (f : PokerPlayer → PokerPlayer)
    (h : j ≠ i) : (modifyAt ps i f).get? j = ps.get? j := by
  induction ps generalizing i j with
  | nil => rfl
  | cons q t ih =>
    cases i with
    | zero =>
      cases j with
      | zero => exact absurd rfl h
      | succ m => rfl
    | succ n =>
      cases j with
      | zero => rfl
      | succ m => exact ih n m (fun e => h (congrArg Nat.succ e))

theorem modifyAt_none (ps : List PokerPlayer) (i : Nat) (f : PokerPlayer → PokerPlayer)
    (h : ps.get? i = none) : modifyAt ps i f = ps := by
  induction ps generalizing i with
  | nil => rfl
  | cons q t ih =>
    cases i with
    | zero => cases h
    | succ n =>
      have h1 : t.get? n = none := h
      simp only [modifyAt, ih n h1]

theorem playerBet_Players (g : PokerGame) (i : Nat) (amount : Int) :
    (playerBet g i amount).Players = modifyAt g.Players i (betPlayer amount) := by
  unfold playerBet
  split
  · rename_i h
    exact (modifyAt_none _ _ _ h).symm
  · rfl

theorem playerBet_CurrentBet (g : PokerGame) (i : Nat) (amount : Int) :
    (playerBet g i amount).CurrentBet = g.CurrentBet := by
  unfold playerBet
  split <;> rfl

theorem playerBet_NumActivePlayers (g : PokerGame) (i : Nat) (amount : Int) :
    (playerBet g i amount).NumActivePlayers = g.NumActivePlayers := by
  unfold playerBet
  split <;> rfl

theorem betPlayer_all (cur : PokerPlayer) :
    (betPlayer cur.Chips cur).CurrentBet = cur.CurrentBet + cur.Chips := by
  simp [betPlayer, betAmount]

/-- C9, amended: when the acting player goes all-in, the resulting street
bet exceeds the current bet (by any increment, also one below the minimum
raise) and another seat is still able to act, the current bet rises to the
new amount, the minimum raise becomes the increment over the old current
bet, and `HasActed` is false afterwards for every other player who is
neither folded nor all-in. -/
theorem allIn_above_current_bet_reopens (g g1 : PokerGame) (playerID : String) (amount : Int)
    (cur : PokerPlayer)
    (hcur : g.Players.get? g.CurrentIndex = some cur)
    (hok : ProcessAction g playerID ActionType.AllIn amount = Outcome.ok g1)
    (hgt : cur.CurrentBet + cur.Chips > g.CurrentBet)
    (hn : g.NumActivePlayers ≠ 1)
    (hother : ∃ j q, j ≠ g.CurrentIndex ∧ g.Players.get? j = some q ∧ canAct q = true) :
    g1.CurrentBet = cur.CurrentBet + cur.Chips ∧
    g1.MinRaise = cur.CurrentBet + cur.Chips - g.CurrentBet ∧
    ∀ j q, j ≠ g.CurrentIndex → g.Players.get? j = some q →
      q.IsFolded = false → q.IsAllIn = false →
      (g1.Players.get? j).map (fun p => p.HasActed) = some false := by
  have hbet : (playerBet g g.CurrentIndex cur.Chips).Players.get? g.CurrentIndex
      = some (betPlayer cur.Chips cur) := by
    rw [playerBet_Players]
    exact get?_modifyAt_eq _ _ _ _ hcur
  have hplayers : ∀ j q, j ≠ g.CurrentIndex → g.Players.get? j = some q →
      q.IsFolded = false → q.IsAllIn = false →
      ((modifyAt ((playerBet g g.CurrentIndex cur.Chips).Players.map
        (fun p => if !p.IsFolded && !p.IsAllIn then { p with HasActed := false } else p))
        g.CurrentIndex (fun p => { p with HasActed := true })).get? j)
        = some { q with HasActed := false } := by
    intro j q hj hq hf ha
    rw [get?_modifyAt_ne _ _ _ _ hj, List.get?_eq_getElem?, List.getElem?_map,
      ← List.get?_eq_getElem?, playerBet_Players,
      get?_modifyAt_ne _ _ _ _ hj, hq]
    simp [hf, ha]
  unfold ProcessAction at hok
  rw [hcur] at hok
  simp only at hok
  split at hok
  · cases hok
  · split at hok
    · cases hok
    · simp only [applyAction, hbet, betPlayer_all, playerBet_CurrentBet, if_pos hgt] at hok
      unfold finishAction at hok
      simp only [resetHasActed] at hok
      have hround : isBettingRoundComplete
          { (playerBet g g.CurrentIndex cur.Chips) with
            Players := modifyAt ((playerBet g g.CurrentIndex cur.Chips).Players.map
              (fun p => if !p.IsFolded && !p.IsAllIn then { p with HasActed := false } else p))
              g.CurrentIndex (fun p => { p with HasActed := true }),
            MinRaise := cur.CurrentBet + cur.Chips - g.CurrentBet,
            CurrentBet := cur.CurrentBet + cur.Chips,
            LastAggressor := playerID } = false := by
        obtain ⟨j, q, hj, hq, hact⟩ := hother
        simp only [canAct, Bool.and_eq_true, Bool.not_eq_true', ] at hact
        have hmem := List.get?_mem (hplayers j q hj hq hact.1.2 hact.2)
        unfold isBettingRoundComplete
        simp only [playerBet_NumActivePlayers, if_neg hn]
        rw [List.all_eq_false]
        refine ⟨_, hmem, ?_⟩
        simp [hact.1.1, hact.1.2, hact.2]
      rw [hround] at hok
      simp only [Bool.false_eq_true, if_false] at hok
      split at hok
      · cases hok
      · rename_i g2 hg2
        cases hok
        split at hg2
        · cases hg2
        · cases hg2
          refine ⟨rfl, rfl, ?_⟩
          intro j q hj hq hf ha
          simp only [hplayers j q hj hq hf ha]
          rfl

/-- Witness for C9 amended: the all-in of p3 for 310 over the current bet of
250 with minimum raise 150. -/
theorem allIn_above_current_bet_reopens_witness :
    beforeAllIn.MinRaise = 150 ∧ afterAllIn.CurrentBet = 0 + 310 ∧
      afterAllIn.MinRaise = 0 + 310 - beforeAllIn.CurrentBet ∧
      (afterAllIn.Players.get? 0).map (fun p => p.HasActed) = some false :=
  have h := allIn_above_current_bet_reopens beforeAllIn afterAllIn "p3" 0 p3BeforeAllIn
    (by decide) (by decide) (by decide) (by decide)
    ⟨0, p2BeforeAllIn, by decide, by decide, by decide⟩
  ⟨by decide, h.1, h.2.1, h.2.2 0 p2BeforeAllIn (by decide) (by decide) rfl rfl⟩

theorem processAction_rejects_blocked_seat (g : PokerGame) (p : PokerPlayer)
    (hp : g.Players.get? g.CurrentIndex = some p) (hs : (p.IsFolded || p.IsAllIn) = true)
    (playerID : String) (action : ActionType) (amount : Int) :
    (ProcessAction g playerID action amount).isErr = true := by
  unfold ProcessAction
  rw [hp]
  simp only
  split
  · rfl
  · rfl

theorem processAction_err_state (g : PokerGame) (playerID : String)
    (action : ActionType) (amount : Int) (msg : String) (g1 : PokerGame)
    (h : ProcessAction g playerID action amount = Outcome.err msg g1) : g1 = g := by
  unfold ProcessAction at h
  split at h
  · cases h
  · split at h
    · cases h; rfl
    · split at h
      · cases h; rfl
      · split at h
        · cases h; rfl
        · split at h <;> cases h

/-! ## The claims -/

/-- C2: the code breaks the claim on 2c 4d 6h 8s Tc Qd Ah, seven distinct
cards without pair, straight or flush: `EvaluateBestHand` returns the
high-card result with no cards at all, not five of the input. -/
theorem evaluateBestHand_high_card_has_no_cards :
    highCardSeven.Nodup ∧ highCardSeven.length = 7 ∧
      EvaluateBestHand highCardSeven = some { Rank := HighCard, Cards := [] } :=
  ⟨by decide, by decide, by decide⟩

/-- C3: the code breaks the claim on 2c 4d 6h 8s Tc Qd Ah: the rank key of
the hand returned is the bare category, strictly below the key
(high card; A, Q, T, 8, 6) of one of the 21 five-card subsets. -/
theorem evaluateBestHand_key_below_subset_key :
    (EvaluateBestHand highCardSeven).map rankKey = some [0] ∧
      (subsetKeys highCardSeven).length = 21 ∧
      [0, 14, 12, 10, 8, 6] ∈ subsetKeys highCardSeven ∧
      keyLt [0] [0, 14, 12, 10, 8, 6] = true :=
  ⟨by decide, by decide, by decide, by decide⟩

/-- C4: the code breaks the claim at the showdown of a holding Ah 7d against
b holding 2c 9h on the board Ad 2s Ks 5c Jd: both best hands are One Pair,
the hand of a (aces) compares above the hand of b (twos), and yet both are
in `Winners` with half of the pot of 40 each, and both stacks are back at
1000. -/
theorem determineWinners_ignores_tie_break :
    runActions (StartNewHand headsUpTable dealRand) checkDown = Outcome.ok showdownState ∧
      showdownState.Pot = 40 ∧
      showdownState.Winners.map (fun w => w.PlayerID) = ["a", "b"] ∧
      showdownState.Winners.map (fun w => w.Amount) = [20, 20] ∧
      showdownState.Winners.map (fun w => w.HandRank) = [OnePair, OnePair] ∧
      showdownState.Winners.map (fun w => w.BestHand.map (fun c => c.Rank))
        = [[14, 14, 13, 11, 7], [14, 13, 11, 2, 2]] ∧
      showdownState.Winners.map (fun w => groupedRanks w.BestHand)
        = [[14, 14, 13, 11, 7], [2, 2, 14, 13, 11]] ∧
      keyLt [OnePair, 2, 2, 14, 13, 11] [OnePair, 14, 14, 13, 11, 7] = true ∧
      showdownState.Players.map (fun p => p.Chips) = [1000, 1000] :=
  ⟨by decide, by decide, by decide, by decide, by decide, by decide, by decide, by decide,
    by decide⟩

/-- C5: whenever `ProcessAction` returns an error, the state it leaves
behind, every field of the table and of every player, is the state before
the call. -/
theorem processAction_error_leaves_state (g : PokerGame) (playerID : String)
    (action : ActionType) (amount : Int)
    (h : (ProcessAction g playerID action amount).isErr = true) :
    (ProcessAction g playerID action amount).after = some g := by
  cases hres : ProcessAction g playerID action amount with
  | ok g1 =>
    rw [hres] at h
    cases h
  | err msg g1 =>
    rw [processAction_err_state g playerID action amount msg g1 hres]
    rfl
  | panic =>
    rw [hres] at h
    cases h

/-- Witness for C5: the big blind tries to check before the flop while it is
the turn of the other seat. -/
theorem processAction_error_leaves_state_witness :
    (ProcessAction headsUpStart "b" ActionType.Check 0).isErr = true ∧
      (ProcessAction headsUpStart "b" ActionType.Check 0).after = some headsUpStart :=
  have h : (ProcessAction headsUpStart "b" ActionType.Check 0).isErr = true := by decide
  ⟨h, processAction_error_leaves_state headsUpStart "b" ActionType.Check 0 h⟩

/-- C6: the code breaks the claim after the showdown of the checked-down
heads-up hand: with `HandComplete` true the check of b is accepted, and after
the check of a that follows the pot of 40 has been paid out again, the stacks
being 1040 each where 2000 chips were seated. -/
theorem processAction_accepted_after_hand_complete :
    runActions (StartNewHand headsUpTable dealRand) checkDown = Outcome.ok showdownState ∧
      showdownState.HandComplete = true ∧
      showdownState.Players.map (fun p => p.Chips) = [1000, 1000] ∧
      (ProcessAction showdownState "b" ActionType.Check 0).isErr = false ∧
      (ProcessAction showdownState "b" ActionType.Check 0).accepted.isSome = true ∧
      (runActions (Outcome.ok showdownState)
        [("b", ActionType.Check, 0), ("a", ActionType.Check, 0)]).accepted.map
          (fun g => g.Players.map (fun p => p.Chips)) = some [1040, 1040] :=
  ⟨by decide, by decide, by decide, by decide, by decide, by decide⟩

/-- C7: the code breaks the claim before the flop of the heads-up hand
(current bet 20, minimum raise 20, the small blind a has 10 in and 990
behind): the raise to 30, an increment of 10 over the current bet, is
accepted and makes the minimum raise 10, and the raise to 5000, more than a
holds, is accepted with the current bet set to 5000 and 1000 paid; the
sibling `ValidateAction` rejects both. -/
theorem raise_measured_from_player_bet :
    headsUpStart.CurrentBet = 20 ∧ headsUpStart.MinRaise = 20 ∧
      (headsUpStart.Players.get? headsUpStart.CurrentIndex).map
        (fun p => (p.ID, p.CurrentBet, p.Chips)) = some ("a", 10, 990) ∧
      (ProcessAction headsUpStart "a" ActionType.Raise 30).accepted.map
        (fun g => (g.CurrentBet, g.MinRaise)) = some (30, 10) ∧
      ValidateAction ActionType.Raise 30 990 20 10 20 30 = some "raise too small" ∧
      (ProcessAction headsUpStart "a" ActionType.Raise 5000).accepted.map
        (fun g => (g.CurrentBet, g.Players.map (fun p => p.CurrentBet))) =
          some (5000, [1000, 20]) ∧
      ValidateAction ActionType.Raise 5000 990 20 10 20 30 = some "insufficient chips" :=
  ⟨by decide, by decide, by rfl, by rfl, by decide, by rfl, by decide⟩

/-- C8: the code breaks the claim on the flop of the heads-up hand (current
bet 0, a to act with 980 chips): the bet of 5000 is accepted, the current bet
and the minimum raise become 5000 while the street bet of a is 980; the
sibling `ValidateAction` rejects the bet. -/
theorem bet_above_stack_accepted :
    headsUpFlop.CurrentBet = 0 ∧
      (headsUpFlop.Players.get? headsUpFlop.CurrentIndex).map
        (fun p => (p.ID, p.Chips)) = some ("a", 980) ∧
      (ProcessAction headsUpFlop "a" ActionType.Bet 5000).accepted.map
        (fun g => (g.CurrentBet, g.MinRaise, g.Players.map (fun p => p.CurrentBet))) =
          some (5000, 5000, [980, 0]) ∧
      ValidateAction ActionType.Bet 5000 980 0 0 20 40 = some "insufficient chips" :=
  ⟨by decide, by rfl, by rfl, by decide⟩

/-- C9, as stated, fails in its own scenario: after p1 bets 100, p2 raises
to 250 and p3 moves all-in for 310, the minimum raise is 60 (it was 150), the
flag `HasActed` of p2 has gone from true to false, and the raise of p1 to
370, below 310 + 150, is accepted. -/
theorem short_all_in_reopens_action :
    runActions (StartNewHand threeSeatTable zeroRand) shortAllInLine = Outcome.ok afterAllIn ∧
      beforeAllIn.CurrentBet = 250 ∧ beforeAllIn.MinRaise = 150 ∧
      beforeAllIn.Players.map (fun p => (p.ID, p.HasActed))
        = [("p2", true), ("p3", false), ("p1", false)] ∧
      afterAllIn.CurrentBet = 310 ∧ afterAllIn.MinRaise = 60 ∧
      afterAllIn.Players.map (fun p => (p.ID, p.HasActed))
        = [("p2", false), ("p3", true), ("p1", false)] ∧
      (ProcessAction afterAllIn "p1" ActionType.Raise 370).isErr = false ∧
      (ProcessAction afterAllIn "p1" ActionType.Raise 370).accepted.isSome = true :=
  ⟨by decide, by decide, by decide, by rfl, by decide, by decide, by rfl, by decide,
    by decide⟩


/-- C10: the code breaks the claim on the table with stacks 5 and 15 and
blinds 10/20: after `StartNewHand` both blinds are all-in, `HandComplete` is
false, the acting seat is the all-in big blind, and every `ProcessAction`
call, for whatever player, action and amount, returns an error. -/
theorem acting_seat_all_in_after_blinds :
    StartNewHand shortStackTable zeroRand = Outcome.ok shortStackStart ∧
      shortStackStart.HandComplete = false ∧
      shortStackStart.Players.map (fun p => p.IsAllIn) = [true, true] ∧
      (shortStackStart.Players.get? shortStackStart.CurrentIndex).map
        (fun p => (p.ID, p.IsAllIn)) = some ("b", true) ∧
      ∀ (playerID : String) (action : ActionType) (amount : Int),
        (ProcessAction shortStackStart playerID action amount).isErr = true :=
  ⟨by decide, by decide, by decide, by rfl,
    processAction_rejects_blocked_seat shortStackStart
      { ID := "b", Name := "b", Chips := 0, HoleCards := [⟨Clubs, Four⟩, ⟨Clubs, Six⟩],
        CurrentBet := 15, TotalBetInHand := 15, HasActed := false, IsFolded := false,
        IsAllIn := true, IsActive := true, SeatPosition := 1 }
      (by decide) (by decide)⟩

/-! ## Lemmas on the hand evaluator -/

theorem bubblePassDesc_perm (k : Nat) (l : List Card) : (bubblePassDesc k l).Perm l := by
  induction k generalizing l with
  | zero => simp [bubblePassDesc]
  | succ k ih =>
    match l with
    | [] => simp [bubblePassDesc]
    | [a] => simp [bubblePassDesc]
    | a :: b :: t =>
      simp only [bubblePassDesc]
      split
      · exact ((ih (a :: t)).cons b).trans (List.Perm.swap a b t)
      · exact (ih (b :: t)).cons a

theorem bubblePassDesc_append (k : Nat) (l s : List Card) (h : l.length = k + 1) :
    bubblePassDesc k (l ++ s) = bubblePassDesc k l ++ s := by
  induction k generalizing l with
  | zero =>
    match l, h with
    | [a], _ => cases s <;> simp [bubblePassDesc]
  | succ k ih =>
    match l, h with
    | a :: b :: t, h =>
      have ht : t.length = k := by simpa using h
      simp only [List.cons_append, bubblePassDesc]
      split
      · have := ih (a :: t) (by simp [ht])
        exact congrArg (fun x => b :: x) this
      · have := ih (b :: t) (by simp [ht])
        exact congrArg (fun x => a :: x) this

theorem bubblePassDesc_last (k : Nat) (l : List Card) (h : l.length = k + 1) :
    ∃ l1 m, bubblePassDesc k l = l1 ++ [m] ∧ ∀ x ∈ l, m.Rank ≤ x.Rank := by
  induction k generalizing l with
  | zero =>
    match l, h with
    | [a], _ =>
      refine ⟨[], a, by simp [bubblePassDesc], ?_⟩
      intro x hx
      simp at hx
      subst hx
      exact le_refl _
  | succ k ih =>
    match l, h with
    | a :: b :: t, h =>
      have ht : t.length = k := by simpa using h
      simp only [bubblePassDesc]
      split
      · rename_i hab
        obtain ⟨l1, m, e, hm⟩ := ih (a :: t) (by simp [ht])
        refine ⟨b :: l1, m, by simp [e], ?_⟩
        intro x hx
        have hma : m.Rank ≤ a.Rank := hm a (by simp)
        rcases List.mem_cons.mp hx with rfl | hx
        · exact hma
        · rcases List.mem_cons.mp hx with rfl | hx
          · exact le_of_lt (lt_of_le_of_lt hma hab)
          · exact hm x (by simp [hx])
      · rename_i hab
        obtain ⟨l1, m, e, hm⟩ := ih (b :: t) (by simp [ht])
        refine ⟨a :: l1, m, by simp [e], ?_⟩
        intro x hx
        have hmb : m.Rank ≤ b.Rank := hm b (by simp)
        rcases List.mem_cons.mp hx with rfl | hx
        · exact le_trans hmb (not_lt.mp hab)
        · exact hm x hx

theorem sortPasses_perm (n i : Nat) (l : List Card) :
    ((List.range i).foldl (fun cs j => bubblePassDesc (n - j - 1) cs) l).Perm l := by
  induction i with
  | zero => simp
  | succ i ih =>
    rw [List.range_succ, List.foldl_append]
    simp only [List.foldl]
    exact (bubblePassDesc_perm _ _).trans ih

theorem sortPasses_inv (l : List Card) (i : Nat) (hi : i + 1 ≤ l.length) :
    ∃ pre suf, (List.range i).foldl (fun cs j => bubblePassDesc (l.length - j - 1) cs) l
        = pre ++ suf ∧ pre.length = l.length - i ∧ RanksDesc suf ∧
      ∀ x ∈ pre, ∀ y ∈ suf, y.Rank ≤ x.Rank := by
  induction i with
  | zero =>
    exact ⟨l, [], by simp, by simp, List.Pairwise.nil, by simp⟩
  | succ i ih =>
    obtain ⟨pre, suf, e, hlen, hs, hps⟩ := ih (by omega)
    rw [List.range_succ, List.foldl_append]
    simp only [List.foldl]
    rw [e]
    have hpl : pre.length = (l.length - i - 1) + 1 := by omega
    rw [bubblePassDesc_append _ _ _ hpl]
    obtain ⟨l1, m, e1, hm⟩ := bubblePassDesc_last _ pre hpl
    have hperm := bubblePassDesc_perm (l.length - i - 1) pre
    rw [e1] at hperm ⊢
    have hmem : ∀ x, x ∈ l1 ++ [m] → x ∈ pre := fun x hx => hperm.subset hx
    refine ⟨l1, m :: suf, by simp, ?_, ?_, ?_⟩
    · have := hperm.length_eq
      simp at this
      omega
    · refine List.Pairwise.cons ?_ hs
      intro y hy
      exact hps m (hmem m (by simp)) y hy
    · intro x hx y hy
      rcases List.mem_cons.mp hy with rfl | hy
      · exact hm x (hmem x (by simp [hx]))
      · exact hps x (hmem x (by simp [hx])) y hy

theorem sortCardsByRankDesc_perm (l : List Card) : (SortCardsByRankDesc l).Perm l :=
  sortPasses_perm l.length (l.length - 1) l

theorem sortCardsByRankDesc_sorted (l : List Card) : RanksDesc (SortCardsByRankDesc l) := by
  match l with
  | [] => simp [SortCardsByRankDesc, RanksDesc]
  | a :: t =>
    obtain ⟨pre, suf, e, hlen, hs, hps⟩ :=
      sortPasses_inv (a :: t) ((a :: t).length - 1) (by simp)
    unfold SortCardsByRankDesc
    rw [e]
    have h1 : pre.length = 1 := by
      rw [hlen]; simp
    match pre, h1 with
    | [x], _ =>
      exact List.Pairwise.cons (fun y hy => hps x (by simp) y hy) hs
theorem sortDesc_eq_insertionSort (l : List Nat) :
    sortDesc l = List.insertionSort (fun a b => b ≤ a) l := by
  induction l with
  | nil => rfl
  | cons x t ih =>
    simp only [sortDesc, List.insertionSort, ih]
    generalize List.insertionSort (fun a b => b ≤ a) t = s
    induction s with
    | nil => rfl
    | cons y u ihu =>
      simp only [insertDesc, List.orderedInsert]
      split
      · rfl
      · rw [ihu]

theorem sortDesc_perm (l : List Nat) : (sortDesc l).Perm l := by
  rw [sortDesc_eq_insertionSort]
  exact List.perm_insertionSort _ l

theorem sortDesc_sorted (l : List Nat) : (sortDesc l).Sorted (fun a b => b ≤ a) := by
  rw [sortDesc_eq_insertionSort]
  haveI : IsTotal Nat (fun a b => b ≤ a) := ⟨fun a b => le_total b a⟩
  haveI : IsTrans Nat (fun a b => b ≤ a) := ⟨fun a b c h1 h2 => le_trans h2 h1⟩
  exact List.sorted_insertionSort _ l

theorem ranksOf_sorted (cards : List Card) :
    ranksOf (SortCardsByRankDesc cards) = sortDesc (ranksOf cards) := by
  haveI : IsAntisymm Nat (fun a b => b ≤ a) := ⟨fun a b h1 h2 => le_antisymm h2 h1⟩
  apply List.eq_of_perm_of_sorted (r := fun a b => b ≤ a)
  · exact ((sortCardsByRankDesc_perm cards).map _).trans (sortDesc_perm _).symm
  · have := sortCardsByRankDesc_sorted cards
    unfold RanksDesc at this
    unfold ranksOf
    exact List.pairwise_map.mpr this
  · exact sortDesc_sorted _
theorem specFlush_iff (l : List Card) :
    specFlush l = true ↔ ∀ c ∈ l, ∀ d ∈ l, c.Suit = d.Suit := by
  simp [specFlush, List.all_eq_true]

theorem isFlushHand_eq_specFlush (l : List Card) : isFlushHand l = specFlush l := by
  rw [Bool.eq_iff_iff, specFlush_iff]
  match l with
  | [] => simp [isFlushHand]
  | a :: t =>
    simp only [isFlushHand, List.all_eq_true, beq_iff_eq]
    constructor
    · intro h c hc d hd
      have hc1 : c.Suit = a.Suit := by
        rcases List.mem_cons.mp hc with rfl | hc
        · rfl
        · exact h c hc
      have hd1 : d.Suit = a.Suit := by
        rcases List.mem_cons.mp hd with rfl | hd
        · rfl
        · exact h d hd
      rw [hc1, hd1]
    · intro h c hc
      exact h c (List.mem_cons_of_mem _ hc) a (List.mem_cons_self _ _)

theorem specFlush_perm {l1 l2 : List Card} (h : l1.Perm l2) : specFlush l1 = specFlush l2 := by
  rw [Bool.eq_iff_iff, specFlush_iff, specFlush_iff]
  constructor
  · intro hh c hc d hd
    exact hh c (h.symm.subset hc) d (h.symm.subset hd)
  · intro hh c hc d hd
    exact hh c (h.subset hc) d (h.subset hd)

theorem rankCount_eq_count (hand : List Card) (r : Nat) :
    rankCount hand r = (ranksOf hand).count r := by
  induction hand with
  | nil => rfl
  | cons c t ih =>
    unfold rankCount ranksOf at ih ⊢
    by_cases hc : c.Rank = r
    · simp [List.filter_cons, List.count_cons, hc, ih]
    · simp [List.filter_cons, List.count_cons, hc, ih]

theorem ranksWithCount_length (hand : List Card) (n : Nat) :
    (ranksWithCount hand n).length = rankTimes hand n := by
  unfold ranksWithCount rankTimes
  have : (fun r => rankCount hand r == n) = (fun r => (ranksOf hand).count r == n) := by
    funext r
    rw [rankCount_eq_count]
  rw [this]
  rfl

theorem rankTimes_perm {l1 l2 : List Card} (h : l1.Perm l2) (n : Nat) :
    rankTimes l1 n = rankTimes l2 n := by
  unfold rankTimes
  have hr : (ranksOf l1).Perm (ranksOf l2) := h.map _
  have hf : (fun r => (ranksOf l1).count r == n) = (fun r => (ranksOf l2).count r == n) := by
    funext r
    rw [hr.count_eq]
  rw [hf]
  exact ((hr.dedup).filter _).length_eq

theorem rankTimes_bound (cards : List Card) (n : Nat) :
    n * rankTimes cards n ≤ cards.length := by
  unfold rankTimes
  have h := List.sum_map_count_dedup_filter_eq_countP
    (fun r => (ranksOf cards).count r == n) (ranksOf cards)
  have hle : (ranksOf cards).countP (fun r => (ranksOf cards).count r == n)
      ≤ (ranksOf cards).length := List.countP_le_length _
  have hmap : (List.map (fun x => (ranksOf cards).count x)
      (List.filter (fun r => (ranksOf cards).count r == n) (ranksOf cards).dedup))
      = List.map (fun _ => n)
        (List.filter (fun r => (ranksOf cards).count r == n) (ranksOf cards).dedup) := by
    apply List.map_congr_left
    intro x hx
    have := (List.mem_filter.mp hx).2
    simpa using this
  rw [hmap] at h
  simp only [List.map_const', List.sum_replicate, smul_eq_mul] at h
  have hl : (ranksOf cards).length = cards.length := by simp [ranksOf]
  rw [mul_comm]
  omega
theorem length_five {α : Type} (l : List α) (h : l.length = 5) :
    ∃ a b c d e, l = [a, b, c, d, e] := by
  match l, h with
  | [a, b, c, d, e], _ => exact ⟨a, b, c, d, e, rfl⟩

theorem evaluateFiveCards_category_aux (cards : List Card) (h : cards.length = 5) :
    (evaluateFiveCards cards).map (fun r => r.Rank) = some (specCategory cards) := by
  have hperm := sortCardsByRankDesc_perm cards
  obtain ⟨h0, h1, h2, h3, h4, hs⟩ := length_five (SortCardsByRankDesc cards)
    (by rw [hperm.length_eq, h])
  rw [hs] at hperm
  have hr : sortDesc (ranksOf cards) = [h0.Rank, h1.Rank, h2.Rank, h3.Rank, h4.Rank] := by
    rw [← ranksOf_sorted, hs]; rfl
  have hF : isFlushHand [h0, h1, h2, h3, h4] = specFlush cards := by
    rw [isFlushHand_eq_specFlush]; exact specFlush_perm hperm
  have hrot0 : ([h1, h2, h3, h4] ++ [h0]).Perm ([h0] ++ [h1, h2, h3, h4]) :=
    List.perm_append_comm
  have hrot : [h1, h2, h3, h4, h0].Perm cards := hrot0.trans hperm
  have hc1 : ∀ n, (ranksWithCount [h0, h1, h2, h3, h4] n).length = rankTimes cards n :=
    fun n => (ranksWithCount_length _ n).trans (rankTimes_perm hperm n)
  have hc2 : ∀ n, (ranksWithCount [h1, h2, h3, h4, h0] n).length = rankTimes cards n :=
    fun n => (ranksWithCount_length _ n).trans (rankTimes_perm hrot n)
  have hb := rankTimes_bound cards 2
  rw [h] at hb
  have hch : ∀ (c : Prop) [Decidable c] (n : Nat),
      (ranksWithCount (if c then [h1, h2, h3, h4, h0] else [h0, h1, h2, h3, h4]) n).length
        = rankTimes cards n := by
    intro c _ n
    split
    · exact hc2 n
    · exact hc1 n
  have hS : consecutiveDesc [h0.Rank, h1.Rank, h2.Rank, h3.Rank, h4.Rank]
      = checkStraight [h0, h1, h2, h3, h4] := by
    rw [Bool.eq_iff_iff]
    simp only [consecutiveDesc, checkStraight, Bool.and_eq_true, beq_iff_eq, ne_eq, ite_not]
    split_ifs <;> simp_all
  have hW : ([h0.Rank, h1.Rank, h2.Rank, h3.Rank, h4.Rank] == [14, 5, 4, 3, 2])
      = (h0.Rank == Ace && (h1.Rank == Five && h2.Rank == Four && h3.Rank == Three &&
          h4.Rank == Two)) := by
    rw [Bool.eq_iff_iff]
    simp [Ace, Five, Four, Three, Two, and_assoc]
  have hR : (List.take 2 [h0.Rank, h1.Rank, h2.Rank, h3.Rank, h4.Rank] == [Ace, King])
      = (h0.Rank == Ace && h1.Rank == King) := by
    rw [Bool.eq_iff_iff]
    simp
  unfold evaluateFiveCards
  rw [if_neg (by simp [h]), hs]
  simp only
  unfold specCategory specStraight
  rw [hr, ← hF, hS, hW, hR]
  simp only [hch]
  have hp2 : (rankTimes cards 2 ≥ 2) ↔ rankTimes cards 2 = 2 := by omega
  generalize checkStraight [h0, h1, h2, h3, h4] = S
  generalize isFlushHand [h0, h1, h2, h3, h4] = F
  generalize rankTimes cards 4 = q
  generalize rankTimes cards 3 = t
  generalize rankTimes cards 2 = p at hp2
  simp only [apply_ite (Option.map (fun r : HandResult => r.Rank)), Option.map_some']
  cases S <;> cases F <;>
    simp only [Bool.false_and, Bool.true_and, Bool.false_or, Bool.true_or, Bool.not_false,
      Bool.not_true, Bool.and_false, Bool.and_true, Bool.false_eq_true, if_false, if_true]
  · generalize (h0.Rank == Ace && (h1.Rank == Five && h2.Rank == Four && h3.Rank == Three &&
      h4.Rank == Two)) = W
    split_ifs <;> simp_all
  · by_cases hw : (h0.Rank == Ace && (h1.Rank == Five && h2.Rank == Four &&
        h3.Rank == Three && h4.Rank == Two)) = true
    · have h5 : h1.Rank = 5 := by
        simp only [Bool.and_eq_true, beq_iff_eq] at hw
        exact hw.2.1.1.1
      simp only [hw, if_true, List.get?, Option.map, Bool.true_and]
      simp [h5, Ace, King]
    · simp [hw]
      split_ifs <;> rfl
  · split_ifs <;> rfl
  · simp only [List.get?, Option.map]
    by_cases hA : h0.Rank = Ace <;> by_cases hK : h1.Rank = King <;> simp [hA, hK]
theorem evaluateFiveCards_cards (cards : List Card) (h : cards.length = 5) :
    ∃ r, evaluateFiveCards cards = some r ∧
      r.Cards = if sortDesc (ranksOf cards) = [14, 5, 4, 3, 2]
        then (SortCardsByRankDesc cards).rotate 1 else SortCardsByRankDesc cards := by
  have hperm := sortCardsByRankDesc_perm cards
  obtain ⟨h0, h1, h2, h3, h4, hs⟩ := length_five (SortCardsByRankDesc cards)
    (by rw [hperm.length_eq, h])
  have hr : sortDesc (ranksOf cards) = [h0.Rank, h1.Rank, h2.Rank, h3.Rank, h4.Rank] := by
    rw [← ranksOf_sorted, hs]; rfl
  have hwheel : ((!checkStraight [h0, h1, h2, h3, h4] && h0.Rank == Ace &&
      (h1.Rank == Five && h2.Rank == Four && h3.Rank == Three && h4.Rank == Two)) = true)
      ↔ [h0.Rank, h1.Rank, h2.Rank, h3.Rank, h4.Rank] = [14, 5, 4, 3, 2] := by
    simp only [Bool.and_eq_true, beq_iff_eq, Bool.not_eq_true', List.cons.injEq, and_true,
      Ace, Five, Four, Three, Two]
    constructor
    · rintro ⟨⟨_, a⟩, ⟨⟨b, c⟩, d⟩, e⟩
      exact ⟨a, b, c, d, e⟩
    · rintro ⟨a, b, c, d, e⟩
      refine ⟨⟨?_, a⟩, ⟨⟨b, c⟩, d⟩, e⟩
      simp [checkStraight, a, b]
  have hhand : (if (!checkStraight [h0, h1, h2, h3, h4] && h0.Rank == Ace &&
      (h1.Rank == Five && h2.Rank == Four && h3.Rank == Three && h4.Rank == Two)) = true
      then [h1, h2, h3, h4, h0] else [h0, h1, h2, h3, h4])
      = if sortDesc (ranksOf cards) = [14, 5, 4, 3, 2]
        then (SortCardsByRankDesc cards).rotate 1 else SortCardsByRankDesc cards := by
    rw [hr, hs]
    by_cases hw : [h0.Rank, h1.Rank, h2.Rank, h3.Rank, h4.Rank] = [14, 5, 4, 3, 2]
    · rw [if_pos (hwheel.mpr hw), if_pos hw]; rfl
    · rw [if_neg (fun hc => hw (hwheel.mp hc)), if_neg hw]
  rw [← hhand]
  unfold evaluateFiveCards
  rw [if_neg (by simp [h]), hs]
  simp only
  generalize (if (!checkStraight [h0, h1, h2, h3, h4] && h0.Rank == Ace &&
      (h1.Rank == Five && h2.Rank == Four && h3.Rank == Three && h4.Rank == Two)) = true
      then [h1, h2, h3, h4, h0] else [h0, h1, h2, h3, h4]) = hand
  split_ifs <;> exact ⟨_, rfl, rfl⟩

theorem evaluateFiveCards_spec (cards : List Card) (h : cards.length = 5) :
    ∃ r, evaluateFiveCards cards = some r ∧ r.Rank = specCategory cards ∧
      r.Cards = if sortDesc (ranksOf cards) = [14, 5, 4, 3, 2]
        then (SortCardsByRankDesc cards).rotate 1 else SortCardsByRankDesc cards := by
  obtain ⟨r, hr, hc⟩ := evaluateFiveCards_cards cards h
  have := evaluateFiveCards_category_aux cards h
  rw [hr] at this
  simp only [Option.map_some', Option.some.injEq] at this
  exact ⟨r, hr, this, hc⟩

theorem generate_mem (k : Nat) (cur rest x : List Card) (h : x ∈ generate k cur rest) :
    x.length = k ∧ ∃ s, s.Sublist rest ∧ x = cur ++ s := by
  induction rest generalizing cur with
  | nil =>
    simp only [generate] at h
    split at h
    · rename_i hk
      simp only [List.mem_singleton] at h
      subst h
      exact ⟨hk, [], List.Sublist.refl _, by simp⟩
    · simp at h
  | cons c t ih =>
    simp only [generate] at h
    split at h
    · rename_i hk
      simp only [List.mem_singleton] at h
      subst h
      exact ⟨hk, [], List.nil_sublist _, by simp⟩
    · rcases List.mem_append.mp h with h1 | h1
      · obtain ⟨hl, s, hs, e⟩ := ih _ h1
        exact ⟨hl, c :: s, hs.cons₂ c, by simp [e]⟩
      · obtain ⟨hl, s, hs, e⟩ := ih _ h1
        exact ⟨hl, s, hs.cons c, e⟩

theorem generate_complete (k : Nat) (cur rest s : List Card) (hs : s.Sublist rest)
    (hk : (cur ++ s).length = k) : cur ++ s ∈ generate k cur rest := by
  induction hs generalizing cur with
  | slnil => simp [generate, hk] at hk ⊢; exact hk
  | @cons l1 l2 a hsub ih =>
    simp only [generate]
    split
    · rename_i hc
      have : l1 = [] := by
        have : l1.length = 0 := by simp at hk; omega
        exact List.length_eq_zero.mp this
      simp [this]
    · exact List.mem_append.mpr (Or.inr (ih cur hk))
  | @cons₂ l1 l2 a hsub ih =>
    simp only [generate]
    split
    · rename_i hc
      simp at hk
      omega
    · refine List.mem_append.mpr (Or.inl ?_)
      have := ih (cur ++ [a]) (by simpa using hk)
      simpa using this

theorem generateCombinations_mem (cards x : List Card) (k : Nat) :
    x ∈ generateCombinations cards k ↔ x.Sublist cards ∧ x.length = k := by
  unfold generateCombinations
  constructor
  · intro h
    obtain ⟨hl, s, hs, e⟩ := generate_mem k [] cards x h
    simp only [List.nil_append] at e
    subst e
    exact ⟨hs, hl⟩
  · rintro ⟨hs, hl⟩
    have := generate_complete k [] cards x hs (by simpa using hl)
    simpa using this

theorem generateCombinations_nonempty (cards : List Card) (k : Nat) (h : k ≤ cards.length) :
    ∃ x, x ∈ generateCombinations cards k :=
  ⟨cards.take k, (generateCombinations_mem cards _ k).mpr
    ⟨List.take_sublist k cards, by simp [h]⟩⟩

theorem bestStep_rank (best result : HandResult) :
    (bestStep best result).Rank = max best.Rank result.Rank := by
  unfold bestStep
  split
  · rename_i h
    exact (max_eq_right (le_of_lt h)).symm
  · split
    · rename_i h1 h2
      have e : result.Rank = best.Rank := by simpa using h2
      split
      · simp [e]
      · simp [e]
    · rename_i h1 h2
      have h3 : result.Rank ≠ best.Rank := by simpa using h2
      have : result.Rank ≤ best.Rank := not_lt.mp h1
      exact (max_eq_left this).symm

theorem bestStep_origin (best result : HandResult) :
    bestStep best result = best ∨ bestStep best result = result := by
  unfold bestStep
  split
  · exact Or.inr rfl
  · split
    · split
      · exact Or.inr rfl
      · exact Or.inl rfl
    · exact Or.inl rfl

theorem bestLoop_total (best : HandResult) (combos : List (List Card))
    (h : ∀ c ∈ combos, c.length = 5) : ∃ r, bestLoop best combos = some r := by
  induction combos generalizing best with
  | nil => exact ⟨best, rfl⟩
  | cons c t ih =>
    obtain ⟨r, hr, _⟩ := evaluateFiveCards_cards c (h c (List.mem_cons_self _ _))
    simp only [bestLoop, hr]
    exact ih _ (fun x hx => h x (List.mem_cons_of_mem _ hx))

theorem bestLoop_rank (best h : HandResult) (combos : List (List Card))
    (hb : bestLoop best combos = some h) :
    best.Rank ≤ h.Rank ∧ ∀ c ∈ combos, ∀ r, evaluateFiveCards c = some r → r.Rank ≤ h.Rank := by
  induction combos generalizing best with
  | nil =>
    simp only [bestLoop, Option.some.injEq] at hb
    subst hb
    exact ⟨le_refl _, by simp⟩
  | cons c t ih =>
    simp only [bestLoop] at hb
    split at hb
    · cases hb
    · rename_i result hres
      obtain ⟨h1, h2⟩ := ih _ hb
      rw [bestStep_rank] at h1
      refine ⟨le_trans (le_max_left _ _) h1, ?_⟩
      intro x hx r hr
      rcases List.mem_cons.mp hx with rfl | hx
      · rw [hres] at hr
        cases hr
        exact le_trans (le_max_right _ _) h1
      · exact h2 x hx r hr

theorem bestLoop_origin (best h : HandResult) (combos : List (List Card))
    (hb : bestLoop best combos = some h) :
    h = best ∨ ∃ c ∈ combos, evaluateFiveCards c = some h := by
  induction combos generalizing best with
  | nil =>
    simp only [bestLoop, Option.some.injEq] at hb
    exact Or.inl hb.symm
  | cons c t ih =>
    simp only [bestLoop] at hb
    split at hb
    · cases hb
    · rename_i result hres
      rcases ih _ hb with h1 | ⟨x, hx, hxe⟩
      · rcases bestStep_origin best result with h2 | h2
        · exact Or.inl (h1.trans h2)
        · refine Or.inr ⟨c, List.mem_cons_self _ _, ?_⟩
          rw [hres, h1, h2]
      · exact Or.inr ⟨x, List.mem_cons_of_mem _ hx, hxe⟩
theorem sortDesc_perm_eq {l1 l2 : List Nat} (h : l1.Perm l2) : sortDesc l1 = sortDesc l2 := by
  haveI : IsAntisymm Nat (fun a b => b ≤ a) := ⟨fun a b h1 h2 => le_antisymm h2 h1⟩
  exact List.eq_of_perm_of_sorted (r := fun a b => b ≤ a)
    ((sortDesc_perm l1).trans (h.trans (sortDesc_perm l2).symm))
    (sortDesc_sorted l1) (sortDesc_sorted l2)

theorem specCategory_perm {l1 l2 : List Card} (h : l1.Perm l2) :
    specCategory l1 = specCategory l2 := by
  have hr : sortDesc (ranksOf l1) = sortDesc (ranksOf l2) := sortDesc_perm_eq (h.map _)
  unfold specCategory specStraight
  rw [specFlush_perm h, hr, rankTimes_perm h 4, rankTimes_perm h 3, rankTimes_perm h 2]

/-- C13: for every five cards, `evaluateFiveCards` returns a result, and its
category is the one the first-match list of the specification assigns
(`specCategory`): Royal Flush, Straight Flush, Four of a Kind, Full House,
Flush, Straight, Three of a Kind, Two Pair, One Pair, High Card. -/
theorem evaluateFiveCards_category_matches_spec (cards : List Card)
    (h : cards.length = 5) :
    ∃ r, evaluateFiveCards cards = some r ∧ r.Rank = specCategory cards := by
  obtain ⟨r, hr, hc, _⟩ := evaluateFiveCards_spec cards h
  exact ⟨r, hr, hc⟩

/-- Witness for C13: the mixed-suit wheel As 2d 3c 4s 5h is a Straight. -/
theorem evaluateFiveCards_category_matches_spec_witness :
    wheelFive.length = 5 ∧ specCategory wheelFive = Straight ∧
      ∃ r, evaluateFiveCards wheelFive = some r ∧ r.Rank = specCategory wheelFive :=
  ⟨by decide, by decide, evaluateFiveCards_category_matches_spec wheelFive (by decide)⟩

/-- C14: for every input of at least five cards, `EvaluateBestHand` returns
a result whose category is the maximum of the categories `evaluateFiveCards`
assigns to the five-card subsets of the input: no subset (in any order) has a
higher category, and some subset has exactly this category. -/
theorem evaluateBestHand_category_is_maximum (cards : List Card) (h : 5 ≤ cards.length) :
    ∃ best, EvaluateBestHand cards = some best ∧
      (∀ combo, combo.Subperm cards → combo.length = 5 →
        ∃ r, evaluateFiveCards combo = some r ∧ r.Rank ≤ best.Rank) ∧
      (∃ combo, combo.Sublist cards ∧ combo.length = 5 ∧
        ∃ r, evaluateFiveCards combo = some r ∧ r.Rank = best.Rank) := by
  have hlen : ∀ c ∈ generateCombinations cards 5, c.length = 5 :=
    fun c hc => ((generateCombinations_mem cards c 5).mp hc).2
  obtain ⟨best, hbest⟩ := bestLoop_total { Rank := HighCard, Cards := [] } _ hlen
  have hE : EvaluateBestHand cards = some best := by
    unfold EvaluateBestHand
    rw [if_neg (by omega)]
    exact hbest
  obtain ⟨_, hmax⟩ := bestLoop_rank _ _ _ hbest
  refine ⟨best, hE, ?_, ?_⟩
  · intro combo hsub h5
    obtain ⟨l, hl, hls⟩ := hsub
    have hl5 : l.length = 5 := by rw [hl.length_eq, h5]
    obtain ⟨r, hr, hrank, _⟩ := evaluateFiveCards_spec combo h5
    obtain ⟨r1, hr1, hrank1, _⟩ := evaluateFiveCards_spec l hl5
    refine ⟨r, hr, ?_⟩
    rw [hrank, ← specCategory_perm hl, ← hrank1]
    exact hmax l ((generateCombinations_mem cards l 5).mpr ⟨hls, hl5⟩) r1 hr1
  · rcases bestLoop_origin _ _ _ hbest with h0 | ⟨c, hc, hce⟩
    · obtain ⟨x, hx⟩ := generateCombinations_nonempty cards 5 h
      obtain ⟨hxs, hx5⟩ := (generateCombinations_mem cards x 5).mp hx
      obtain ⟨r, hr, _⟩ := evaluateFiveCards_cards x hx5
      refine ⟨x, hxs, hx5, r, hr, ?_⟩
      have := hmax x hx r hr
      rw [h0] at this ⊢
      exact Nat.le_antisymm this (Nat.zero_le _)
    · obtain ⟨hcs, hc5⟩ := (generateCombinations_mem cards c 5).mp hc
      exact ⟨c, hcs, hc5, best, hce, rfl⟩

/-- Witness for C14: the seven cards 2h 2d 3c 3s 4h 4d 5s. -/
theorem evaluateBestHand_category_is_maximum_witness :
    5 ≤ threePairs.length ∧
      ∃ best, EvaluateBestHand threePairs = some best ∧
        (∀ combo, combo.Subperm threePairs → combo.length = 5 →
          ∃ r, evaluateFiveCards combo = some r ∧ r.Rank ≤ best.Rank) ∧
        (∃ combo, combo.Sublist threePairs ∧ combo.length = 5 ∧
          ∃ r, evaluateFiveCards combo = some r ∧ r.Rank = best.Rank) :=
  ⟨by decide, evaluateBestHand_category_is_maximum threePairs (by decide)⟩
theorem evaluateFiveCards_order (cards : List Card) (h : cards.length = 5) (r : HandResult)
    (hr : evaluateFiveCards cards = some r) :
    r.Cards.Perm cards ∧ (RanksDesc r.Cards ∨ ranksOf r.Cards = [5, 4, 3, 2, 14]) := by
  obtain ⟨r1, hr1, hc⟩ := evaluateFiveCards_cards cards h
  rw [hr] at hr1
  cases hr1
  have hperm := sortCardsByRankDesc_perm cards
  split at hc
  · rename_i hw
    rw [hc]
    refine ⟨(List.rotate_perm _ 1).trans hperm, Or.inr ?_⟩
    rw [← ranksOf_sorted] at hw
    obtain ⟨h0, h1, h2, h3, h4, hs⟩ := length_five (SortCardsByRankDesc cards)
      (by rw [hperm.length_eq, h])
    rw [hs] at hw ⊢
    simp only [ranksOf, List.map, List.cons.injEq, and_true] at hw
    obtain ⟨a, b, c, d, e⟩ := hw
    have hrot : [h0, h1, h2, h3, h4].rotate 1 = [h1, h2, h3, h4, h0] := rfl
    rw [hrot]
    simp [ranksOf, a, b, c, d, e]
  · rw [hc]
    exact ⟨hperm, Or.inl (sortCardsByRankDesc_sorted cards)⟩

/-- C15, as stated, fails on both examples of the claim: for
7h 7c 7d 7s 2h 3h Kh the cards returned are Kh 7h 7c 7d 7s (the kicker
first) and for 2h 2d 3c 3s 4h 4d 5s they are 5s 4h 4d 3c 3s. -/
theorem evaluateBestHand_cards_not_grouped :
    EvaluateBestHand quadSevens = some
        { Rank := FourOfAKind,
          Cards := [⟨Hearts, King⟩, ⟨Hearts, Seven⟩, ⟨Clubs, Seven⟩, ⟨Diamonds, Seven⟩,
                    ⟨Spades, Seven⟩] } ∧
      EvaluateBestHand threePairs = some
        { Rank := TwoPair,
          Cards := [⟨Spades, Five⟩, ⟨Hearts, Four⟩, ⟨Diamonds, Four⟩, ⟨Clubs, Three⟩,
                    ⟨Spades, Three⟩] } :=
  ⟨by decide, by decide⟩

/-- C15, amended: the evaluator keeps the cards in plain descending order of
rank, pairs, trips and quads not moved to the front: for every input
`EvaluateBestHand` returns a result whose cards are either none at all (then
the category is High Card), or five cards of the input whose ranks descend
from first to last or are the wheel in the order 5, 4, 3, 2, A. For
7h 7c 7d 7s 2h 3h Kh the ranks returned are K 7 7 7 7 and for
2h 2d 3c 3s 4h 4d 5s they are 5 4 4 3 3. -/
theorem evaluateBestHand_cards_plain_descending :
    (∀ cards : List Card, ∃ best, EvaluateBestHand cards = some best ∧
      ((best.Cards = [] ∧ best.Rank = HighCard) ∨
        (best.Cards.length = 5 ∧ best.Cards.Subperm cards ∧
          (RanksDesc best.Cards ∨ ranksOf best.Cards = [5, 4, 3, 2, 14])))) ∧
      (EvaluateBestHand quadSevens).map (fun b => ranksOf b.Cards) = some [13, 7, 7, 7, 7] ∧
      (EvaluateBestHand threePairs).map (fun b => ranksOf b.Cards) = some [5, 4, 4, 3, 3] := by
  refine ⟨?_, by decide, by decide⟩
  intro cards
  unfold EvaluateBestHand
  split
  · exact ⟨_, rfl, Or.inl ⟨rfl, rfl⟩⟩
  · have hlen : ∀ c ∈ generateCombinations cards 5, c.length = 5 :=
      fun c hc => ((generateCombinations_mem cards c 5).mp hc).2
    obtain ⟨best, hbest⟩ := bestLoop_total { Rank := HighCard, Cards := [] } _ hlen
    refine ⟨best, hbest, ?_⟩
    rcases bestLoop_origin _ _ _ hbest with h0 | ⟨c, hc, hce⟩
    · rw [h0]
      exact Or.inl ⟨rfl, rfl⟩
    · obtain ⟨hcs, hc5⟩ := (generateCombinations_mem cards c 5).mp hc
      obtain ⟨hp, ho⟩ := evaluateFiveCards_order c hc5 best hce
      exact Or.inr ⟨by rw [hp.length_eq, hc5], ⟨c, hp.symm, hcs⟩, ho⟩
theorem rankTimes_of_ranks {cards : List Card} {rs : List Nat} (h : (ranksOf cards).Perm rs)
    (n : Nat) :
    rankTimes cards n = ((rs.dedup).filter (fun r => rs.count r == n)).length := by
  unfold rankTimes
  have hf : (fun r => (ranksOf cards).count r == n) = (fun r => rs.count r == n) := by
    funext r
    rw [h.count_eq]
  rw [hf]
  exact ((h.dedup).filter _).length_eq

theorem ranksOf_head {l : List Card} {a : Nat} {rest : List Nat}
    (h : ranksOf l = a :: rest) : ∃ x t, l = x :: t ∧ x.Rank = a := by
  match l, h with
  | x :: t, h =>
    simp only [ranksOf, List.map, List.cons.injEq] at h
    exact ⟨x, t, rfl, h.1⟩

theorem compareCards_head_lt (x y : Card) (s t : List Card) (h : x.Rank < y.Rank) :
    compareCards (x :: s) (y :: t) = -1 ∧ compareCards (y :: t) (x :: s) = 1 := by
  have h1 : ¬ x.Rank > y.Rank := not_lt.mpr (le_of_lt h)
  constructor
  · simp only [compareCards, if_neg h1, if_pos h]
  · simp only [compareCards]
    rw [if_pos h]

/-- C16: five cards whose ranks are exactly A, 5, 4, 3, 2 evaluate to a
Straight, or to a Straight Flush (not a Royal Flush) when all five share a
suit; the cards returned are the input in the rank order 5, 4, 3, 2, A; and
`compareHands` puts this hand below every hand `evaluateFiveCards` returns
for a straight that is six-high or higher (-1 one way, 1 the other way). For
As 2s 3s 4s 5s Kd Qd `EvaluateBestHand` returns the Straight Flush
5s 4s 3s 2s As. -/
theorem wheel_is_five_high_straight (cards : List Card) (h5 : cards.length = 5)
    (hw : (ranksOf cards).Perm [14, 5, 4, 3, 2]) :
    (∃ r, evaluateFiveCards cards = some r ∧
      r.Rank = (if specFlush cards then StraightFlush else Straight) ∧
      r.Cards.Perm cards ∧ ranksOf r.Cards = [5, 4, 3, 2, 14] ∧
      ∀ (other : List Card) (r1 : HandResult) (t : Nat), other.length = 5 →
        evaluateFiveCards other = some r1 → 6 ≤ t →
        sortDesc (ranksOf other) = [t, t - 1, t - 2, t - 3, t - 4] →
        compareHands r r1 = -1 ∧ compareHands r1 r = 1) ∧
    EvaluateBestHand wheelFlushSeven = some
      { Rank := StraightFlush,
        Cards := [⟨Spades, Five⟩, ⟨Spades, Four⟩, ⟨Spades, Three⟩, ⟨Spades, Two⟩,
                  ⟨Spades, Ace⟩] } := by
  refine ⟨?_, by decide⟩
  have hr0 : sortDesc (ranksOf cards) = [14, 5, 4, 3, 2] := by
    rw [sortDesc_perm_eq hw]; rfl
  obtain ⟨r, hr, hrank, hcards⟩ := evaluateFiveCards_spec cards h5
  obtain ⟨hperm, hord⟩ := evaluateFiveCards_order cards h5 r hr
  have hranks : ranksOf r.Cards = [5, 4, 3, 2, 14] := by
    rcases hord with hd | hd
    · exfalso
      have h1 : (ranksOf r.Cards).Perm [14, 5, 4, 3, 2] := (hperm.map _).trans hw
      have h2 : (ranksOf r.Cards).Sorted (fun a b => b ≤ a) := by
        unfold RanksDesc at hd
        unfold ranksOf
        exact List.pairwise_map.mpr hd
      rw [if_pos hr0] at hcards
      have hs := sortCardsByRankDesc_sorted cards
      have hp := sortCardsByRankDesc_perm cards
      obtain ⟨h0, h1', h2', h3, h4, hs5⟩ := length_five (SortCardsByRankDesc cards)
        (by rw [hp.length_eq, h5])
      have hrk := ranksOf_sorted cards
      rw [hs5, hr0] at hrk
      simp only [ranksOf, List.map, List.cons.injEq, and_true] at hrk
      rw [hs5] at hcards
      have hrot : [h0, h1', h2', h3, h4].rotate 1 = [h1', h2', h3, h4, h0] := rfl
      rw [hrot] at hcards
      rw [hcards] at hd
      have hle : h0.Rank ≤ h1'.Rank := (List.pairwise_cons.mp hd).1 h0 (by simp)
      rw [hrk.1, hrk.2.1] at hle
      exact absurd hle (by decide)
    · exact hd
  refine ⟨r, hr, ?_, hperm, hranks, ?_⟩
  · rw [hrank]
    unfold specCategory specStraight
    rw [hr0, rankTimes_of_ranks hw 4, rankTimes_of_ranks hw 3, rankTimes_of_ranks hw 2]
    cases specFlush cards <;> decide
  · intro other r1 t ho hr1 ht hst
    obtain ⟨r2, hr2, _, hc2⟩ := evaluateFiveCards_spec other ho
    rw [hr1] at hr2
    cases hr2
    have hne : ¬ sortDesc (ranksOf other) = [14, 5, 4, 3, 2] := by
      rw [hst]
      simp only [List.cons.injEq, and_true, not_and]
      intro a b
      omega
    rw [if_neg hne] at hc2
    have hrk : ranksOf r1.Cards = [t, t - 1, t - 2, t - 3, t - 4] := by
      rw [hc2, ranksOf_sorted, hst]
    obtain ⟨x, s, hx, hxr⟩ := ranksOf_head hranks
    obtain ⟨y, u, hy, hyr⟩ := ranksOf_head hrk
    unfold compareHands
    rw [hx, hy]
    have hlt : x.Rank < y.Rank := by
      rw [hxr, hyr]
      exact Nat.lt_of_lt_of_le (by decide) ht
    exact compareCards_head_lt x y s u hlt

/-- Witness for C16: the mixed-suit wheel As 2d 3c 4s 5h against the
six-high straight 6c 5d 4h 3s 2c. -/
theorem wheel_is_five_high_straight_witness :
    wheelFive.length = 5 ∧ (ranksOf wheelFive).Perm [14, 5, 4, 3, 2] ∧
      (evaluateFiveCards wheelFive).map (fun r => (r.Rank, ranksOf r.Cards))
        = some (Straight, [5, 4, 3, 2, 14]) ∧
      (∃ r, evaluateFiveCards wheelFive = some r ∧
        r.Rank = (if specFlush wheelFive then StraightFlush else Straight) ∧
        r.Cards.Perm wheelFive ∧ ranksOf r.Cards = [5, 4, 3, 2, 14] ∧
        ∀ (other : List Card) (r1 : HandResult) (t : Nat), other.length = 5 →
          evaluateFiveCards other = some r1 → 6 ≤ t →
          sortDesc (ranksOf other) = [t, t - 1, t - 2, t - 3, t - 4] →
          compareHands r r1 = -1 ∧ compareHands r1 r = 1) :=
  ⟨by decide, by decide, by rfl,
    (wheel_is_five_high_straight wheelFive (by decide) (by decide)).1⟩

/-- C11: the code breaks the claim at the showdown of the hand on three
seats with blinds 1/2 where the pot is 101 and a and b both play the board
(ace-high straight, a true tie): each is paid 50, nobody receives the odd
chip, and the stacks sum to 2999 where 3000 chips were seated. The claim says
51 and 50. -/
theorem split_pot_drops_odd_chip :
    runActions (StartNewHand oddPotTable boardRand) oddPotLine = Outcome.ok oddPotShowdown ∧
      oddPotShowdown.HandComplete = true ∧ oddPotShowdown.Pot = 101 ∧
      oddPotShowdown.Winners.map (fun w => (w.PlayerID, w.Amount)) = [("a", 50), ("b", 50)] ∧
      oddPotShowdown.Winners.map (fun w => rankKey ⟨w.HandRank, w.BestHand⟩)
        = [[4, 14, 13, 12, 11, 10], [4, 14, 13, 12, 11, 10]] ∧
      oddPotShowdown.Players.map (fun p => p.Chips) = [1000, 1000, 999] ∧
      sumChips oddPotTable.Players = 3000 ∧ sumChips oddPotShowdown.Players = 2999 :=
  ⟨by decide, by decide, by decide, by rfl, by rfl, by decide, by decide, by decide⟩

/-- C17: the code breaks the claim on the flop of the hand on three seats
where p1 bet 100, p2 raised to 250 and p3 raised to 400 (minimum raise 150):
the raise of p1 to 250, measured from the 100 p1 has in, is accepted and
sets the table's current bet to 250, below the 400 of p3, who has not
folded. -/
theorem raise_lowers_current_bet :
    runActions (StartNewHand threeDeepTable zeroRand) reraiseLine = Outcome.ok afterReraise ∧
      afterReraise.CurrentBet = 400 ∧ afterReraise.MinRaise = 150 ∧
      (ProcessAction afterReraise "p1" ActionType.Raise 250).accepted.map
        (fun g => (g.CurrentBet, g.HandComplete,
          g.Players.map (fun p => (p.ID, p.CurrentBet, p.IsFolded))))
        = some (250, false, [("p2", 250, false), ("p3", 400, false), ("p1", 250, false)]) ∧
      ValidateAction ActionType.Raise 250 880 400 100 150 810 = some "raise too small" :=
  ⟨by decide, by decide, by decide, by rfl, by decide⟩

/-- C18, as stated, fails in the heads-up hand where a (500 chips) moves
all-in before the flop and b (1000 chips) calls: at the start of the flop a
is all-in with `HasActed` false, and after the showdown, where the pot of
1000 is split, a is still flagged all-in and holds 500 chips. -/
theorem all_in_flag_outlives_street_and_award :
    runActions (StartNewHand coveredTable zeroRand)
        [("a", ActionType.AllIn, 0), ("b", ActionType.Call, 0)] = Outcome.ok coveredFlop ∧
      coveredFlop.HandComplete = false ∧
      coveredFlop.Players.map (fun p => (p.ID, p.IsAllIn, p.Chips, p.HasActed))
        = [("a", true, 0, false), ("b", false, 500, false)] ∧
      runActions (Outcome.ok coveredFlop)
        [("b", ActionType.Check, 0), ("b", ActionType.Check, 0), ("b", ActionType.Check, 0)]
        = Outcome.ok coveredShowdown ∧
      coveredShowdown.HandComplete = true ∧
      coveredShowdown.Players.map (fun p => (p.ID, p.IsAllIn, p.Chips, p.HasActed))
        = [("a", true, 500, false), ("b", false, 1000, false)] :=
  ⟨by decide, by decide, by rfl, by decide, by decide, by rfl⟩

/-! ## Lemmas on the turn order and on the steps of a betting round -/

theorem nextLoop_sound (ps : List PokerPlayer) (frm fuel next k : Nat)
    (h : nextLoop ps frm fuel next = some k) :
    k = frm ∨ ∃ p, ps.get? k = some p ∧ canAct p = true := by
  induction fuel generalizing next with
  | zero => simp [nextLoop] at h
  | succ fuel ih =>
    simp only [nextLoop] at h
    split at h
    · cases h; exact Or.inl rfl
    · split at h
      · cases h
      · rename_i p hp
        split at h
        · rename_i hc
          cases h
          exact Or.inr ⟨p, hp, hc⟩
        · exact ih _ h

theorem getNextActivePlayer_sound (ps : List PokerPlayer) (frm k : Nat)
    (h : getNextActivePlayer ps frm = some k) :
    k = frm ∨ ∃ p, ps.get? k = some p ∧ canAct p = true := by
  unfold getNextActivePlayer at h
  split at h
  · cases h
  · exact nextLoop_sound _ _ _ _ _ h

theorem nextLoop_total (ps : List PokerPlayer) (frm : Nat) (hf : frm < ps.length)
    (fuel t : Nat) (ht1 : 1 ≤ t) (htn : t ≤ ps.length) (hfuel : ps.length + 1 ≤ fuel + t) :
    ∃ k, nextLoop ps frm fuel ((frm + t) % ps.length) = some k := by
  induction fuel generalizing t with
  | zero =>
    exfalso; omega
  | succ fuel ih =>
    simp only [nextLoop]
    split
    · exact ⟨_, rfl⟩
    · rename_i hne
      have hlt : (frm + t) % ps.length < ps.length := Nat.mod_lt _ (by omega)
      have htlt : t < ps.length := by
        rcases Nat.lt_or_ge t ps.length with h1 | h1
        · exact h1
        · exfalso
          have : t = ps.length := by omega
          rw [this, Nat.add_mod_right, Nat.mod_eq_of_lt hf] at hne
          exact hne rfl
      split
      · rename_i hnone
        simp only [List.get?_eq_getElem?, List.getElem?_eq_none_iff] at hnone
        omega
      · split
        · exact ⟨_, rfl⟩
        · have := ih (t + 1) (by omega) (by omega) (by omega)
          rw [← Nat.add_assoc, Nat.add_mod] at this
          rw [Nat.add_mod ((frm + t) % ps.length) 1, Nat.mod_mod]
          exact this

theorem getNextActivePlayer_total (ps : List PokerPlayer) (frm : Nat) (hf : frm < ps.length) :
    ∃ k, getNextActivePlayer ps frm = some k := by
  unfold getNextActivePlayer
  rw [if_neg (by omega)]
  exact nextLoop_total ps frm hf ps.length 1 (le_refl _) (by omega) (by omega)
theorem nextLoop_finds (ps : List PokerPlayer) (frm fuel t k : Nat)
    (hprev : ∀ s, 1 ≤ s → s < t → ∀ p, ps.get? ((frm + s) % ps.length) = some p →
      canAct p = false)
    (h : nextLoop ps frm fuel ((frm + t) % ps.length) = some k) :
    (∃ p, ps.get? k = some p ∧ canAct p = true ∧ k ≠ frm) ∨
    (k = frm ∧ ∃ t1, t ≤ t1 ∧ (frm + t1) % ps.length = frm ∧
      ∀ s, 1 ≤ s → s < t1 → ∀ p, ps.get? ((frm + s) % ps.length) = some p →
        canAct p = false) := by
  induction fuel generalizing t with
  | zero => simp [nextLoop] at h
  | succ fuel ih =>
    simp only [nextLoop] at h
    split at h
    · rename_i heq
      cases h
      exact Or.inr ⟨rfl, t, le_refl _, heq, hprev⟩
    · rename_i hne
      split at h
      · cases h
      · rename_i p hp
        split at h
        · rename_i hc
          cases h
          exact Or.inl ⟨p, hp, hc, hne⟩
        · rename_i hc
          have hstep : ((frm + t) % ps.length + 1) % ps.length
              = (frm + (t + 1)) % ps.length := by
            rw [← Nat.add_assoc, Nat.add_mod (frm + t) 1, Nat.add_mod ((frm + t) % ps.length) 1,
              Nat.mod_mod]
          rw [hstep] at h
          have hprev1 : ∀ s, 1 ≤ s → s < t + 1 → ∀ q,
              ps.get? ((frm + s) % ps.length) = some q → canAct q = false := by
            intro s hs1 hs2 q hq
            rcases Nat.lt_or_ge s t with h1 | h1
            · exact hprev s hs1 h1 q hq
            · have : s = t := by omega
              subst this
              rw [hp] at hq
              cases hq
              simpa using hc
          rcases ih (t + 1) hprev1 h with h1 | ⟨h1, t1, ht1, h2, h3⟩
          · exact Or.inl h1
          · exact Or.inr ⟨h1, t1, by omega, h2, h3⟩

theorem getNextActivePlayer_finds (ps : List PokerPlayer) (frm k : Nat)
    (h : getNextActivePlayer ps frm = some k)
    (hex : ∃ j q, j ≠ frm ∧ ps.get? j = some q ∧ canAct q = true) :
    k ≠ frm ∧ ∃ p, ps.get? k = some p ∧ canAct p = true := by
  unfold getNextActivePlayer at h
  split at h
  · cases h
  · rename_i hn
    rcases nextLoop_finds ps frm ps.length 1 k (by intro s h1 h2; omega) h with
      ⟨p, hp, hc, hk⟩ | ⟨_, t1, ht1, hmod, hall⟩
    · exact ⟨hk, p, hp, hc⟩
    · exfalso
      obtain ⟨j, q, hj, hq, hcq⟩ := hex
      have hnpos : 0 < ps.length := Nat.pos_of_ne_zero hn
      have hfrm : frm < ps.length := by
        rw [← hmod]; exact Nat.mod_lt _ hnpos
      have hjn : j < ps.length := by
        have := List.get?_eq_some.mp hq
        exact this.1
      have ht : ps.length ≤ t1 := by
        rcases Nat.lt_or_ge t1 ps.length with h1 | h1
        · exfalso
          rcases Nat.lt_or_ge (frm + t1) ps.length with h2 | h2
          · rw [Nat.mod_eq_of_lt h2] at hmod
            omega
          · rw [Nat.mod_eq_sub_mod h2, Nat.mod_eq_of_lt (by omega)] at hmod
            omega
        · exact h1
      rcases Nat.lt_or_ge frm j with h1 | h1
      · have := hall (j - frm) (by omega) (by omega) q
        rw [show frm + (j - frm) = j by omega, Nat.mod_eq_of_lt hjn] at this
        have := this hq
        rw [hcq] at this
        cases this
      · have hlt : j < frm := by omega
        have := hall (ps.length - frm + j) (by omega) (by omega) q
        rw [show frm + (ps.length - frm + j) = j + ps.length by omega, Nat.add_mod_right,
          Nat.mod_eq_of_lt hjn] at this
        have := this hq
        rw [hcq] at this
        cases this
theorem forall2_modifyAt {R : PokerPlayer → PokerPlayer → Prop} (hr : ∀ p, R p p)
    (ps : List PokerPlayer) (i : Nat) (f : PokerPlayer → PokerPlayer) (hf : ∀ p, R p (f p)) :
    List.Forall₂ R ps (modifyAt ps i f) := by
  induction ps generalizing i with
  | nil => exact List.Forall₂.nil
  | cons p t ih =>
    cases i with
    | zero => exact List.Forall₂.cons (hf p) (List.forall₂_same.mpr (fun x _ => hr x))
    | succ n => exact List.Forall₂.cons (hr p) (ih n)

theorem forall2_modifyAt_at {R : PokerPlayer → PokerPlayer → Prop} (hr : ∀ p, R p p)
    (ps : List PokerPlayer) (i : Nat) (f : PokerPlayer → PokerPlayer)
    (hf : ∀ p, ps.get? i = some p → R p (f p)) :
    List.Forall₂ R ps (modifyAt ps i f) := by
  induction ps generalizing i with
  | nil => exact List.Forall₂.nil
  | cons p t ih =>
    cases i with
    | zero => exact List.Forall₂.cons (hf p rfl) (List.forall₂_same.mpr (fun x _ => hr x))
    | succ n => exact List.Forall₂.cons (hr p) (ih n (fun q hq => hf q hq))

theorem forall2_map {R : PokerPlayer → PokerPlayer → Prop} (ps : List PokerPlayer)
    (f : PokerPlayer → PokerPlayer) (hf : ∀ p, R p (f p)) : List.Forall₂ R ps (ps.map f) := by
  induction ps with
  | nil => exact List.Forall₂.nil
  | cons p t ih => exact List.Forall₂.cons (hf p) ih

theorem forall2_chain {R : PokerPlayer → PokerPlayer → Prop}
    (ht : ∀ p q r, R p q → R q r → R p r) {ps qs rs : List PokerPlayer}
    (h1 : List.Forall₂ R ps qs) (h2 : List.Forall₂ R qs rs) : List.Forall₂ R ps rs := by
  induction h1 generalizing rs with
  | nil => cases h2; exact List.Forall₂.nil
  | cons hab _ ih =>
    cases h2 with
    | cons hbc htl => exact List.Forall₂.cons (ht _ _ _ hab hbc) (ih htl)

theorem forall2_get {R : PokerPlayer → PokerPlayer → Prop} {ps qs : List PokerPlayer}
    (h : List.Forall₂ R ps qs) (i : Nat) (p : PokerPlayer) (hp : ps.get? i = some p) :
    ∃ q, qs.get? i = some q ∧ R p q := by
  induction h generalizing i with
  | nil => cases hp
  | @cons a b l1 l2 hab _ ih =>
    cases i with
    | zero =>
      have : a = p := by simpa using hp
      subst this
      exact ⟨b, rfl, hab⟩
    | succ n =>
      have h1 : l1.get? n = some p := hp
      exact ih n h1

theorem forall2_get_right {R : PokerPlayer → PokerPlayer → Prop} {ps qs : List PokerPlayer}
    (h : List.Forall₂ R ps qs) (i : Nat) (q : PokerPlayer) (hq : qs.get? i = some q) :
    ∃ p, ps.get? i = some p ∧ R p q := by
  induction h generalizing i with
  | nil => cases hq
  | @cons a b l1 l2 hab _ ih =>
    cases i with
    | zero =>
      have : b = q := by simpa using hq
      subst this
      exact ⟨a, rfl, hab⟩
    | succ n =>
      have h1 : l2.get? n = some q := hq
      exact ih n h1

theorem Evolves.same {R : PokerPlayer → PokerPlayer → Prop} (S : StepRel R) (g : PokerGame) :
    Evolves R g g :=
  ⟨List.forall₂_same.mpr (fun x _ => S.same x), rfl, rfl, rfl, rfl⟩

theorem Evolves.chain {R : PokerPlayer → PokerPlayer → Prop} (S : StepRel R)
    {a b c : PokerGame} (h1 : Evolves R a b) (h2 : Evolves R b c) : Evolves R a c :=
  ⟨forall2_chain S.chain h1.1 h2.1, h2.2.1.trans h1.2.1, h2.2.2.1.trans h1.2.2.1,
    h2.2.2.2.1.trans h1.2.2.2.1, h2.2.2.2.2.trans h1.2.2.2.2⟩

theorem evolves_fields {R : PokerPlayer → PokerPlayer → Prop} (S : StepRel R)
    {g g1 : PokerGame} (hp : g1.Players = g.Players) (hd : g1.DealerIndex = g.DealerIndex)
    (hn : g1.NumActivePlayers = g.NumActivePlayers) (hb : g1.BigBlind = g.BigBlind)
    (hs : g1.SmallBlind = g.SmallBlind) : Evolves R g g1 := by
  refine ⟨?_, hd, hn, hb, hs⟩
  rw [hp]
  exact List.forall₂_same.mpr (fun x _ => S.same x)

theorem evolves_playerBet {R : PokerPlayer → PokerPlayer → Prop} (S : StepRel R)
    (g : PokerGame) (i : Nat) (amount : Int)
    (hi : ∀ p, g.Players.get? i = some p → p.IsAllIn = false) :
    Evolves R g (playerBet g i amount) := by
  refine ⟨?_, ?_, ?_, ?_, ?_⟩
  · rw [playerBet_Players]
    exact forall2_modifyAt_at S.same _ _ _ (fun p hp => S.bet amount p (hi p hp))
  all_goals (unfold playerBet; split <;> rfl)

theorem evolves_resetHasActed {R : PokerPlayer → PokerPlayer → Prop} (S : StepRel R)
    (g : PokerGame) : Evolves R g (resetHasActed g) := by
  refine ⟨?_, rfl, rfl, rfl, rfl⟩
  apply forall2_map
  intro p
  split
  · exact S.acted p false
  · exact S.same p

theorem evolves_applyAction {R : PokerPlayer → PokerPlayer → Prop} (S : StepRel R)
    {g g1 : PokerGame} {i : Nat} {cur : PokerPlayer} {playerID : String}
    {action : ActionType} {amount : Int}
    (h : applyAction g i cur playerID action amount = Except.ok g1)
    (hf : action ≠ ActionType.Fold)
    (hi : ∀ p, g.Players.get? i = some p → p.IsAllIn = false) : Evolves R g g1 := by
  unfold applyAction at h
  split at h
  · split at h
    · cases h
    · cases h; exact Evolves.same S g
  · split at h
    · cases h
    · cases h; exact evolves_playerBet S _ _ _ hi
  · split at h
    · cases h
    · split at h
      · cases h
      · cases h
        refine Evolves.chain S (evolves_playerBet S g i amount hi)
          (Evolves.chain S ?_ (evolves_resetHasActed S _))
        exact evolves_fields S rfl rfl rfl rfl rfl
  · split at h
    · cases h
    · split at h
      · cases h
      · cases h
        refine Evolves.chain S (evolves_playerBet S g i (amount - cur.CurrentBet) hi)
          (Evolves.chain S ?_ (evolves_resetHasActed S _))
        exact evolves_fields S rfl rfl rfl rfl rfl
  · exact absurd rfl hf
  · simp only at h
    split at h
    · cases h; exact evolves_playerBet S _ _ _ hi
    · split at h
      · cases h
        refine Evolves.chain S (evolves_playerBet S g i cur.Chips hi)
          (Evolves.chain S ?_ (evolves_resetHasActed S _))
        exact evolves_fields S rfl rfl rfl rfl rfl
      · cases h; exact evolves_playerBet S _ _ _ hi
  · cases h; exact Evolves.same S g

theorem applyAction_CurrentIndex {g g1 : PokerGame} {i : Nat} {cur : PokerPlayer}
    {playerID : String} {action : ActionType} {amount : Int}
    (h : applyAction g i cur playerID action amount = Except.ok g1) :
    g1.CurrentIndex = g.CurrentIndex := by
  have hpb : ∀ (g : PokerGame) (i : Nat) (a : Int), (playerBet g i a).CurrentIndex
      = g.CurrentIndex := by
    intro g i a
    unfold playerBet
    split <;> rfl
  unfold applyAction at h
  split at h
  · split at h
    · cases h
    · cases h; rfl
  · split at h
    · cases h
    · cases h; exact hpb _ _ _
  · split at h
    · cases h
    · split at h
      · cases h
      · cases h; exact hpb _ _ _
  · split at h
    · cases h
    · split at h
      · cases h
      · cases h; exact hpb _ _ _
  · cases h; rfl
  · simp only at h
    split at h
    · cases h; exact hpb _ _ _
    · split at h
      · cases h; exact hpb _ _ _
      · cases h; exact hpb _ _ _
  · cases h; rfl
theorem dealCommunity_fields (n : Nat) (g g1 : PokerGame) (h : dealCommunity n g = some g1) :
    g1.Players = g.Players ∧ g1.DealerIndex = g.DealerIndex ∧
      g1.NumActivePlayers = g.NumActivePlayers ∧ g1.BigBlind = g.BigBlind ∧
      g1.SmallBlind = g.SmallBlind ∧ g1.CurrentIndex = g.CurrentIndex := by
  induction n generalizing g with
  | zero =>
    simp only [dealCommunity] at h
    cases h
    exact ⟨rfl, rfl, rfl, rfl, rfl, rfl⟩
  | succ k ih =>
    simp only [dealCommunity] at h
    split at h
    · cases h
    · have := ih _ h
      exact this

theorem forall2_awardOne {R : PokerPlayer → PokerPlayer → Prop} (hr : ∀ p, R p p)
    (ha : ∀ p x, R p { p with Chips := p.Chips + x }) (ps : List PokerPlayer) (w : Winner) :
    List.Forall₂ R ps (awardOne ps w) := by
  induction ps with
  | nil => exact List.Forall₂.nil
  | cons p t ih =>
    simp only [awardOne]
    split
    · exact List.Forall₂.cons (ha p _) (List.forall₂_same.mpr (fun x _ => hr x))
    · exact List.Forall₂.cons (hr p) ih

theorem forall2_awardAll {R : PokerPlayer → PokerPlayer → Prop} (hr : ∀ p, R p p)
    (ht : ∀ p q r, R p q → R q r → R p r)
    (ha : ∀ p x, R p { p with Chips := p.Chips + x }) (ws : List Winner)
    (ps : List PokerPlayer) : List.Forall₂ R ps (ws.foldl awardOne ps) := by
  induction ws generalizing ps with
  | nil => exact List.forall₂_same.mpr (fun x _ => hr x)
  | cons w t ih =>
    simp only [List.foldl]
    exact forall2_chain ht (forall2_awardOne hr ha ps w) (ih _)

theorem determineWinners_fields (g g1 : PokerGame) (h : determineWinners g = some g1) :
    g1.Players = g.Players ∧ g1.DealerIndex = g.DealerIndex ∧
      g1.NumActivePlayers = g.NumActivePlayers ∧ g1.BigBlind = g.BigBlind ∧
      g1.SmallBlind = g.SmallBlind ∧ g1.CurrentIndex = g.CurrentIndex := by
  unfold determineWinners at h
  simp only at h
  split at h
  · cases h; exact ⟨rfl, rfl, rfl, rfl, rfl, rfl⟩
  · split at h
    · cases h
    · split at h
      · cases h
      · cases h; exact ⟨rfl, rfl, rfl, rfl, rfl, rfl⟩

theorem endHand_evolves {R : PokerPlayer → PokerPlayer → Prop} (hr : ∀ p, R p p)
    (ht : ∀ p q r, R p q → R q r → R p r)
    (ha : ∀ p x, R p { p with Chips := p.Chips + x }) (g g1 : PokerGame)
    (h : endHand g = some g1) : Evolves R g g1 ∧ g1.CurrentIndex = g.CurrentIndex := by
  unfold endHand at h
  split at h
  · cases h
  · rename_i g2 hg2
    cases h
    obtain ⟨e1, e2, e3, e4, e5, e6⟩ := determineWinners_fields _ _ hg2
    refine ⟨⟨?_, e2, e3, e4, e5⟩, e6⟩
    have hall := forall2_awardAll hr ht ha g2.Winners g2.Players
    have e1a : g.Players = g2.Players := e1.symm
    rw [e1a]
    exact hall

theorem endBettingRound_evolves {R : PokerPlayer → PokerPlayer → Prop} (S : StepRel R)
    (g g1 : PokerGame) (h : endBettingRound g = some g1) :
    (Evolves R g g1 ∧ (g1.CurrentIndex = g.DealerIndex ∨
        ∃ p, g1.Players.get? g1.CurrentIndex = some p ∧ canAct p = true)) ∨
      ∃ g2, Evolves R g g2 ∧ g2.CurrentIndex = g.CurrentIndex ∧ endHand g2 = some g1 := by
  have hk : Evolves R g (createSidePots
      { g with Players := g.Players.map (fun p => { p with CurrentBet := 0, HasActed := false }),
               CurrentBet := 0 }) :=
    ⟨forall2_map _ _ S.street, rfl, rfl, rfl, rfl⟩
  have hnext : ∀ (ga gb : PokerGame), Evolves R g ga → ga.DealerIndex = g.DealerIndex →
      setNextPlayer ga = some gb →
      Evolves R g gb ∧ (gb.CurrentIndex = g.DealerIndex ∨
        ∃ p, gb.Players.get? gb.CurrentIndex = some p ∧ canAct p = true) := by
    intro ga gb hev hd hs
    unfold setNextPlayer at hs
    split at hs
    · cases hs
    · rename_i k hk1
      cases hs
      refine ⟨Evolves.chain S hev (evolves_fields S rfl rfl rfl rfl rfl), ?_⟩
      rcases getNextActivePlayer_sound _ _ _ hk1 with h1 | h1
      · exact Or.inl (h1.trans hd)
      · exact Or.inr h1
  have hdeal : ∀ (n : Nat) (ga gb : PokerGame) (b : BettingRound),
      dealCommunity n (createSidePots
        { g with Players := g.Players.map
                   (fun p => { p with CurrentBet := 0, HasActed := false }),
                 CurrentBet := 0 }) = some ga →
      setNextPlayer { ga with BettingRound := b } = some gb →
      Evolves R g gb ∧ (gb.CurrentIndex = g.DealerIndex ∨
        ∃ p, gb.Players.get? gb.CurrentIndex = some p ∧ canAct p = true) := by
    intro n ga gb b hd hs
    obtain ⟨e1, e2, e3, e4, e5, _⟩ := dealCommunity_fields _ _ _ hd
    refine hnext { ga with BettingRound := b } gb ?_ e2 hs
    exact Evolves.chain S hk (evolves_fields S e1 e2 e3 e4 e5)
  unfold endBettingRound at h
  simp only at h
  split at h
  · exact Or.inr ⟨_, hk, rfl, h⟩
  · split at h
    · split at h
      · cases h
      · rename_i g3 hg3
        exact Or.inl (hdeal _ _ _ _ hg3 h)
    · split at h
      · cases h
      · rename_i g3 hg3
        exact Or.inl (hdeal _ _ _ _ hg3 h)
    · split at h
      · cases h
      · rename_i g3 hg3
        exact Or.inl (hdeal _ _ _ _ hg3 h)
    · exact Or.inr ⟨_, hk, rfl, h⟩
    · exact Or.inl (hnext _ _ hk rfl h)

theorem finishAction_evolves {R : PokerPlayer → PokerPlayer → Prop} (S : StepRel R)
    (g g1 : PokerGame) (i : Nat) (h : finishAction g i = some g1) :
    (Evolves R g g1 ∧ NextOk g g1) ∨
      ∃ g2, Evolves R g g2 ∧ g2.CurrentIndex = g.CurrentIndex ∧ endHand g2 = some g1 := by
  have hk : Evolves R g
      { g with Players := modifyAt g.Players i (fun p => { p with HasActed := true }) } :=
    ⟨forall2_modifyAt S.same _ _ _ (fun p => S.acted p true), rfl, rfl, rfl, rfl⟩
  unfold finishAction at h
  simp only at h
  split at h
  · rcases endBettingRound_evolves S _ _ h with ⟨h1, h2⟩ | ⟨g2, h2, h3, h4⟩
    · refine Or.inl ⟨Evolves.chain S hk h1, ?_⟩
      rcases h2 with h2 | h2
      · exact Or.inr (Or.inl h2)
      · exact Or.inr (Or.inr h2)
    · exact Or.inr ⟨g2, Evolves.chain S hk h2, h3, h4⟩
  · split at h
    · cases h
    · rename_i k hk1
      cases h
      refine Or.inl ⟨Evolves.chain S hk (evolves_fields S rfl rfl rfl rfl rfl), ?_⟩
      rcases getNextActivePlayer_sound _ _ _ hk1 with h1 | h1
      · exact Or.inl h1
      · exact Or.inr (Or.inr h1)

theorem processAction_parts (g g1 : PokerGame) (playerID : String) (action : ActionType)
    (amount : Int) (h : ProcessAction g playerID action amount = Outcome.ok g1) :
    ∃ cur mid, g.Players.get? g.CurrentIndex = some cur ∧ cur.ID = playerID ∧
      cur.IsFolded = false ∧ cur.IsAllIn = false ∧
      applyAction g g.CurrentIndex cur playerID action amount = Except.ok mid ∧
      finishAction mid g.CurrentIndex = some g1 := by
  unfold ProcessAction at h
  split at h
  · cases h
  · rename_i cur hcur
    split at h
    · cases h
    · rename_i hid
      split at h
      · cases h
      · rename_i hfa
        split at h
        · cases h
        · rename_i mid hmid
          split at h
          · cases h
          · rename_i g2 hg2
            cases h
            simp only [Bool.or_eq_true, not_or, Bool.not_eq_true] at hfa
            exact ⟨cur, mid, hcur, by simpa using hid, hfa.1, hfa.2, hmid, hg2⟩
theorem resetHasActed_get (g : PokerGame) (j : Nat) :
    (resetHasActed g).Players.get? j = (g.Players.get? j).map reopenPlayer := by
  unfold resetHasActed
  simp only [List.get?_eq_getElem?, List.getElem?_map]
  rfl

theorem playerBet_get_ne (g : PokerGame) (i j : Nat) (a : Int) (h : j ≠ i) :
    (playerBet g i a).Players.get? j = g.Players.get? j := by
  rw [playerBet_Players]
  exact get?_modifyAt_ne _ _ _ _ h

theorem playerBet_fields (g : PokerGame) (i : Nat) (a : Int) :
    (playerBet g i a).BettingRound = g.BettingRound ∧
      (playerBet g i a).HandComplete = g.HandComplete ∧
      (playerBet g i a).CommunityCards = g.CommunityCards ∧
      (playerBet g i a).MinRaise = g.MinRaise ∧
      (playerBet g i a).Deck = g.Deck ∧
      (playerBet g i a).Winners = g.Winners := by
  unfold playerBet
  split <;> exact ⟨rfl, rfl, rfl, rfl, rfl, rfl⟩

theorem applyAction_fields {g mid : PokerGame} {i : Nat} {cur : PokerPlayer}
    {playerID : String} {action : ActionType} {amount : Int}
    (h : applyAction g i cur playerID action amount = Except.ok mid) :
    mid.BettingRound = g.BettingRound ∧ mid.HandComplete = g.HandComplete ∧
      mid.CommunityCards = g.CommunityCards ∧ mid.Deck = g.Deck ∧
      mid.Winners = g.Winners := by
  have hb := fun a => playerBet_fields g i a
  unfold applyAction at h
  split at h
  · split at h
    · cases h
    · cases h; exact ⟨rfl, rfl, rfl, rfl, rfl⟩
  · split at h
    · cases h
    · cases h
      exact ⟨(hb _).1, (hb _).2.1, (hb _).2.2.1, (hb _).2.2.2.2.1, (hb _).2.2.2.2.2⟩
  · split at h
    · cases h
    · split at h
      · cases h
      · cases h
        exact ⟨(hb _).1, (hb _).2.1, (hb _).2.2.1, (hb _).2.2.2.2.1, (hb _).2.2.2.2.2⟩
  · split at h
    · cases h
    · split at h
      · cases h
      · cases h
        exact ⟨(hb _).1, (hb _).2.1, (hb _).2.2.1, (hb _).2.2.2.2.1, (hb _).2.2.2.2.2⟩
  · cases h; exact ⟨rfl, rfl, rfl, rfl, rfl⟩
  · simp only at h
    split at h
    · cases h
      exact ⟨(hb _).1, (hb _).2.1, (hb _).2.2.1, (hb _).2.2.2.2.1, (hb _).2.2.2.2.2⟩
    · split at h
      · cases h
        exact ⟨(hb _).1, (hb _).2.1, (hb _).2.2.1, (hb _).2.2.2.2.1, (hb _).2.2.2.2.2⟩
      · cases h
        exact ⟨(hb _).1, (hb _).2.1, (hb _).2.2.1, (hb _).2.2.2.2.1, (hb _).2.2.2.2.2⟩
  · cases h; exact ⟨rfl, rfl, rfl, rfl, rfl⟩

theorem applyAction_others_reopen {g mid : PokerGame} {i : Nat} {cur : PokerPlayer}
    {playerID : String} {action : ActionType} {amount : Int}
    (h : applyAction g i cur playerID action amount = Except.ok mid)
    (ha : action = ActionType.Bet ∨ action = ActionType.Raise) (j : Nat) (hj : j ≠ i) :
    mid.Players.get? j = (g.Players.get? j).map reopenPlayer := by
  rcases ha with rfl | rfl
  · simp only [applyAction] at h
    split at h
    · cases h
    · split at h
      · cases h
      · cases h
        rw [resetHasActed_get]
        exact congrArg _ (playerBet_get_ne g i j _ hj)
  · simp only [applyAction] at h
    split at h
    · cases h
    · split at h
      · cases h
      · cases h
        rw [resetHasActed_get]
        exact congrArg _ (playerBet_get_ne g i j _ hj)

theorem applyAction_others {g mid : PokerGame} {i : Nat} {cur : PokerPlayer}
    {playerID : String} {action : ActionType} {amount : Int}
    (h : applyAction g i cur playerID action amount = Except.ok mid) (j : Nat) (hj : j ≠ i) :
    mid.Players.get? j = g.Players.get? j ∨
      mid.Players.get? j = (g.Players.get? j).map reopenPlayer := by
  have hre : ∀ (a : Int) (g2 : PokerGame), g2.Players = (playerBet g i a).Players →
      (resetHasActed g2).Players.get? j = (g.Players.get? j).map reopenPlayer := by
    intro a g2 hg2
    rw [resetHasActed_get, hg2]
    exact congrArg _ (playerBet_get_ne g i j _ hj)
  unfold applyAction at h
  split at h
  · split at h
    · cases h
    · cases h; exact Or.inl rfl
  · split at h
    · cases h
    · cases h; exact Or.inl (playerBet_get_ne g i j _ hj)
  · split at h
    · cases h
    · split at h
      · cases h
      · cases h; exact Or.inr (hre _ _ rfl)
  · split at h
    · cases h
    · split at h
      · cases h
      · cases h; exact Or.inr (hre _ _ rfl)
  · cases h; exact Or.inl (get?_modifyAt_ne _ _ _ _ hj)
  · simp only at h
    split at h
    · cases h; exact Or.inl (playerBet_get_ne g i j _ hj)
    · split at h
      · cases h; exact Or.inr (hre _ _ rfl)
      · cases h; exact Or.inl (playerBet_get_ne g i j _ hj)
  · cases h; exact Or.inl rfl

theorem endHand_fields (g g1 : PokerGame) (h : endHand g = some g1) :
    g1.BettingRound = g.BettingRound ∧ g1.CommunityCards = g.CommunityCards ∧
      g1.Deck = g.Deck ∧ g1.Pot = g.Pot := by
  unfold endHand at h
  split at h
  · cases h
  · rename_i g2 hg2
    cases h
    unfold determineWinners at hg2
    simp only at hg2
    split at hg2
    · cases hg2; exact ⟨rfl, rfl, rfl, rfl⟩
    · split at hg2
      · cases hg2
      · split at hg2
        · cases hg2
        · cases hg2; exact ⟨rfl, rfl, rfl, rfl⟩

theorem dealCommunity_round (n : Nat) (g g1 : PokerGame) (h : dealCommunity n g = some g1) :
    g1.BettingRound = g.BettingRound ∧ g1.HandComplete = g.HandComplete := by
  induction n generalizing g with
  | zero =>
    simp only [dealCommunity] at h
    cases h
    exact ⟨rfl, rfl⟩
  | succ k ih =>
    simp only [dealCommunity] at h
    split at h
    · cases h
    · have := ih _ h
      exact this

theorem endBettingRound_round (g g1 : PokerGame) (h : endBettingRound g = some g1) :
    g1.HandComplete = true ∨ g1.BettingRound ≠ g.BettingRound ∨
      g.BettingRound = BettingRound.Showdown := by
  have hset : ∀ (ga gb : PokerGame), setNextPlayer ga = some gb →
      gb.BettingRound = ga.BettingRound := by
    intro ga gb hs
    unfold setNextPlayer at hs
    split at hs
    · cases hs
    · cases hs; rfl
  unfold endBettingRound at h
  simp only at h
  split at h
  · exact Or.inl (endHand_complete _ _ h)
  · split at h
    · rename_i hr
      split at h
      · cases h
      · have h1 := hset _ _ h
        simp only [createSidePots] at hr
        refine Or.inr (Or.inl ?_)
        rw [h1, hr]
        simp
    · rename_i hr
      split at h
      · cases h
      · have h1 := hset _ _ h
        simp only [createSidePots] at hr
        refine Or.inr (Or.inl ?_)
        rw [h1, hr]
        simp
    · rename_i hr
      split at h
      · cases h
      · have h1 := hset _ _ h
        simp only [createSidePots] at hr
        refine Or.inr (Or.inl ?_)
        rw [h1, hr]
        simp
    · exact Or.inl (endHand_complete _ _ h)
    · rename_i hr
      simp only [createSidePots] at hr
      exact Or.inr (Or.inr hr)

theorem finishAction_open (g g1 : PokerGame) (i : Nat) (h : finishAction g i = some g1)
    (hrun : g1.HandComplete = false) (hsame : g1.BettingRound = g.BettingRound)
    (hns : g.BettingRound ≠ BettingRound.Showdown) :
    g1.Players = modifyAt g.Players i (fun p => { p with HasActed := true }) ∧
      isBettingRoundComplete
        { g with Players := modifyAt g.Players i (fun p => { p with HasActed := true }) }
        = false := by
  unfold finishAction at h
  simp only at h
  split at h
  · exfalso
    rcases endBettingRound_round _ _ h with h1 | h1 | h1
    · rw [hrun] at h1; cases h1
    · exact h1 hsame
    · exact hns h1
  · rename_i hc
    split at h
    · cases h
    · cases h
      exact ⟨rfl, by simpa using hc⟩
theorem stepRel_true : StepRel (fun _ _ => True) :=
  ⟨fun _ => trivial, fun _ _ _ _ _ => trivial, fun _ _ _ => trivial, fun _ _ => trivial,
    fun _ => trivial⟩

theorem applyAction_keeps_seat {g mid : PokerGame} {i : Nat} {cur : PokerPlayer}
    {playerID : String} {action : ActionType} {amount : Int}
    (h : applyAction g i cur playerID action amount = Except.ok mid)
    (hi : ∀ p, g.Players.get? i = some p → p.IsAllIn = false) (j : Nat)
    (p : PokerPlayer) (hp : g.Players.get? j = some p) :
    ∃ q, mid.Players.get? j = some q := by
  by_cases hf : action = ActionType.Fold
  · subst hf
    simp only [applyAction] at h
    cases h
    by_cases hj : j = i
    · subst hj
      exact ⟨_, get?_modifyAt_eq _ _ _ _ hp⟩
    · exact ⟨p, by rw [get?_modifyAt_ne _ _ _ _ hj]; exact hp⟩
  · have hev := evolves_applyAction stepRel_true h hf hi
    obtain ⟨q, hq, _⟩ := forall2_get hev.1 j p hp
    exact ⟨q, hq⟩

/-- C19: after an accepted Bet or Raise that leaves the betting round in
progress (the hand not complete and the street the same), `HasActed` is true
for the aggressor; every other player who was neither folded nor all-in is
the same record with `HasActed` false; every other player who was folded or
all-in is unchanged. -/
theorem bet_or_raise_reopens_action (g g1 : PokerGame) (playerID : String)
    (action : ActionType) (amount : Int)
    (hact : action = ActionType.Bet ∨ action = ActionType.Raise)
    (hok : ProcessAction g playerID action amount = Outcome.ok g1)
    (hrun : g1.HandComplete = false) (hsame : g1.BettingRound = g.BettingRound)
    (hns : g.BettingRound ≠ BettingRound.Showdown) :
    (g1.Players.get? g.CurrentIndex).map (fun p => p.HasActed) = some true ∧
    ∀ j q, j ≠ g.CurrentIndex → g.Players.get? j = some q →
      ∃ q1, g1.Players.get? j = some q1 ∧
        (if q.IsFolded = false ∧ q.IsAllIn = false then q1 = { q with HasActed := false }
         else q1 = q) := by
  obtain ⟨cur, mid, hcur, _, _, hnotall, happly, hfin⟩ := processAction_parts _ _ _ _ _ hok
  have hi : ∀ p, g.Players.get? g.CurrentIndex = some p → p.IsAllIn = false := by
    intro p hp
    rw [hcur] at hp
    cases hp
    exact hnotall
  obtain ⟨hr, _⟩ := applyAction_fields happly
  obtain ⟨hpl, _⟩ := finishAction_open mid g1 g.CurrentIndex hfin hrun (hsame.trans hr.symm)
    (by rw [hr]; exact hns)
  constructor
  · obtain ⟨x, hx⟩ := applyAction_keeps_seat happly hi g.CurrentIndex cur hcur
    rw [hpl, get?_modifyAt_eq _ _ _ _ hx]
    rfl
  · intro j q hj hq
    rw [hpl, get?_modifyAt_ne _ _ _ _ hj, applyAction_others_reopen happly hact j hj, hq]
    refine ⟨reopenPlayer q, rfl, ?_⟩
    unfold reopenPlayer
    by_cases hc : q.IsFolded = false ∧ q.IsAllIn = false
    · rw [if_pos hc, if_pos (by simp [hc.1, hc.2])]
    · rw [if_neg hc]
      rw [if_neg]
      intro hc2
      apply hc
      simpa using hc2

/-- Witness for C19: on the flop of the heads-up hand a bets 100; b, who can
act, has `HasActed` false afterwards. -/
theorem bet_or_raise_reopens_action_witness :
    ProcessAction headsUpFlop "a" ActionType.Bet 100 = Outcome.ok headsUpBet ∧
      headsUpBet.HandComplete = false ∧ headsUpBet.BettingRound = headsUpFlop.BettingRound ∧
      headsUpBet.Players.map (fun p => (p.ID, p.HasActed)) = [("a", true), ("b", false)] ∧
      (headsUpBet.Players.get? headsUpFlop.CurrentIndex).map (fun p => p.HasActed)
        = some true :=
  have hok : ProcessAction headsUpFlop "a" ActionType.Bet 100 = Outcome.ok headsUpBet := by
    decide
  ⟨hok, by decide, by decide, by rfl,
    (bet_or_raise_reopens_action headsUpFlop headsUpBet "a" ActionType.Bet 100 (Or.inl rfl)
      hok (by decide) (by decide) (by decide)).1⟩

/-! ## Side pots and the errors of StartNewHand -/

/-- C22: the code breaks the claim on the example of the claim: three seats
with stacks 100, 200 and 500, blinds 10 and 20, everybody all-in before the
flop. The betting round ends, the flop is dealt, the pot holds 800 and
`SidePots` is empty, where the claim lists the pots 300, 200 and 300.
`createSidePots` returns the table as it is, for every table; the main pot
that `CalculateMainPot` computes for these players is the claimed 300. -/
theorem side_pots_never_built :
    runActions (StartNewHand mainPotTable zeroRand)
        [("p2", ActionType.AllIn, 0), ("p3", ActionType.AllIn, 0),
         ("p1", ActionType.AllIn, 0)] = Outcome.ok allInThree ∧
      allInThree.Players.map (fun p => (p.ID, p.TotalBetInHand, p.IsAllIn))
        = [("p1", 100, true), ("p2", 200, true), ("p3", 500, true)] ∧
      allInThree.BettingRound = BettingRound.Flop ∧ allInThree.HandComplete = false ∧
      allInThree.Pot = 800 ∧ allInThree.SidePots = [] ∧
      CalculateMainPot allInThree.Players = 300 ∧
      (∀ g : PokerGame, createSidePots g = g) :=
  ⟨by decide, by rfl, by decide, by decide, by decide, by decide, by decide, fun _ => rfl⟩

/-- C25: the code breaks the claim after the heads-up hand in which a lost
all 500 chips to b: `StartNewHand` returns the error "not enough players with
chips" and leaves a changed table behind: the hand number went from 1 to 2,
`HandComplete` from true to false, the pot from 1000 to 0, the winners and
the five community cards are gone, b has lost the hole cards and the total
bet, a is no longer active and the deck is another one. The first error,
for fewer than two seats, leaves the table as it was. -/
theorem startNewHand_error_changes_state :
    bustedShowdown.Players.map (fun p => (p.ID, p.Chips)) = [("a", 0), ("b", 1500)] ∧
      StartNewHand bustedShowdown zeroRand
        = Outcome.err "not enough players with chips" afterFailedStart ∧
      afterFailedStart ≠ bustedShowdown ∧
      bustedShowdown.HandNumber = 1 ∧ afterFailedStart.HandNumber = 2 ∧
      bustedShowdown.HandComplete = true ∧ afterFailedStart.HandComplete = false ∧
      bustedShowdown.Pot = 1000 ∧ afterFailedStart.Pot = 0 ∧
      bustedShowdown.Winners.map (fun w => (w.PlayerID, w.Amount)) = [("b", 1000)] ∧
      afterFailedStart.Winners = [] ∧
      bustedShowdown.CommunityCards.length = 5 ∧ afterFailedStart.CommunityCards = [] ∧
      bustedShowdown.Players.map
          (fun p => (p.IsActive, p.TotalBetInHand, p.HoleCards.length))
        = [(true, 500, 2), (true, 500, 2)] ∧
      afterFailedStart.Players.map
          (fun p => (p.IsActive, p.TotalBetInHand, p.HoleCards.length))
        = [(false, 500, 2), (true, 0, 0)] ∧
      afterFailedStart.DealerIndex = bustedShowdown.DealerIndex ∧
      StartNewHand (seatPlayers 10 20 [("a", 1000)]) zeroRand
        = Outcome.err "need at least 2 players to start" (seatPlayers 10 20 [("a", 1000)]) :=
  ⟨by rfl, by decide, by decide, by decide, by decide, by decide, by decide, by decide,
    by decide, by rfl, by decide, by decide, by decide, by rfl, by rfl, by decide, by decide⟩

/-! ## Lemmas on the deck -/

theorem count_set (l : List Card) (i : Nat) (a b c : Card) (h : l.get? i = some a) :
    (l.set i b).count c + (if a = c then 1 else 0) = l.count c + (if b = c then 1 else 0) := by
  induction l generalizing i with
  | nil => simp at h
  | cons x t ih =>
    cases i with
    | zero =>
      have hx : x = a := by simpa using h
      subst hx
      simp only [List.set_cons_zero, List.count_cons, beq_iff_eq]
      omega
    | succ k =>
      have h1 : t.get? k = some a := by simpa using h
      have h2 := ih k h1
      simp only [List.set_cons_succ, List.count_cons, beq_iff_eq]
      omega

theorem get?_set_swap (l : List Card) (i j : Nat) (a b : Card) (hi : l.get? i = some a)
    (hj : l.get? j = some b) : (l.set i b).get? j = some b := by
  by_cases hij : i = j
  · subst hij
    have hlt : i < l.length := by
      rcases Nat.lt_or_ge i l.length with h | h
      · exact h
      · rw [List.get?_eq_none.mpr h] at hi; cases hi
    simp [List.getElem?_set, hlt]
  · simp only [List.get?_eq_getElem?] at hj ⊢
    rw [List.getElem?_set_ne hij]
    exact hj

theorem swapAt_perm (l : List Card) (i j : Nat) : (swapAt l i j).Perm l := by
  unfold swapAt
  split
  · rename_i a b hi hj
    rw [List.perm_iff_count]
    intro c
    have h1 := count_set l i a b c hi
    have h2 := count_set (l.set i b) j b a c (get?_set_swap l i j a b hi hj)
    omega
  · exact List.Perm.refl l

theorem shuffleLoop_perm (r : Nat → Nat) (i : Nat) (l : List Card) :
    (shuffleLoop r i l).Perm l := by
  induction i generalizing l with
  | zero => exact List.Perm.refl l
  | succ k ih => exact (ih _).trans (swapAt_perm l _ _)

theorem shuffle_perm (d : Deck) (r : Nat → Nat) : (d.Shuffle r).cards.Perm d.cards :=
  shuffleLoop_perm r _ d.cards

/-- C23: `NewDeck` is the 52 cards in canonical order (card number `n` has
suit `n / 13` and rank `n % 13 + 2`) with the cursor at 0, and every pair of
a suit and a rank occurs exactly once in it; whatever values the random
generator returns (the model reduces the value at loop index `i` to
`0 .. i`, as `rand.Intn(i + 1)` does), `Shuffle` leaves any deck a
permutation of its cards with the cursor at 0, so the shuffled new deck has
52 cards and again holds every pair of a suit and a rank exactly once. -/
theorem deck_is_permutation_of_52_cards :
    NewDeck.cards
        = (List.range 52).map (fun n => ({ Suit := n / 13, Rank := n % 13 + 2 } : Card)) ∧
      NewDeck.used = 0 ∧
      (∀ s : Fin 4, ∀ k : Fin 13, NewDeck.cards.count ⟨s.val, k.val + 2⟩ = 1) ∧
      (∀ (d : Deck) (r : Nat → Nat), (d.Shuffle r).cards.Perm d.cards ∧
        (d.Shuffle r).used = 0) ∧
      ∀ r : Nat → Nat, (NewDeck.Shuffle r).cards.length = 52 ∧
        (NewDeck.Shuffle r).cards.Nodup ∧
        ∀ s : Fin 4, ∀ k : Fin 13, (NewDeck.Shuffle r).cards.count ⟨s.val, k.val + 2⟩ = 1 := by
  have hc : ∀ s : Fin 4, ∀ k : Fin 13, NewDeck.cards.count ⟨s.val, k.val + 2⟩ = 1 := by
    decide
  refine ⟨by decide, rfl, hc, fun d r => ⟨shuffle_perm d r, rfl⟩, fun r => ⟨?_, ?_, ?_⟩⟩
  · rw [(shuffle_perm NewDeck r).length_eq]
    decide
  · exact (shuffle_perm NewDeck r).nodup_iff.mpr (by decide)
  · intro s k
    rw [(shuffle_perm NewDeck r).count_eq]
    exact hc s k

theorem playerBet_table (g : PokerGame) (i : Nat) (a : Int) :
    (playerBet g i a).DealerIndex = g.DealerIndex ∧
      (playerBet g i a).NumActivePlayers = g.NumActivePlayers ∧
      (playerBet g i a).BigBlind = g.BigBlind ∧ (playerBet g i a).SmallBlind = g.SmallBlind ∧
      (playerBet g i a).CurrentIndex = g.CurrentIndex := by
  unfold playerBet
  split <;> exact ⟨rfl, rfl, rfl, rfl, rfl⟩

theorem canAct_modifyAt_ne (ps : List PokerPlayer) (i j : Nat)
    (f : PokerPlayer → PokerPlayer) (h : j ≠ i) (ha : AbleAt ps j) :
    AbleAt (modifyAt ps i f) j := by
  obtain ⟨p, hp, hc⟩ := ha
  exact ⟨p, by rw [get?_modifyAt_ne _ _ _ _ h]; exact hp, hc⟩

theorem postBlinds_parts (g g1 : PokerGame) (h : postBlinds g = some g1) :
    ∃ sb sbP bb bbP, getSmallBlindIndex g = some sb ∧ g.Players.get? sb = some sbP ∧
      getBigBlindIndex (sbPosted g sb sbP) = some bb ∧
      (sbPosted g sb sbP).Players.get? bb = some bbP ∧
      g1 = bbPosted (sbPosted g sb sbP) bb bbP := by
  unfold postBlinds at h
  split at h
  · cases h
  · rename_i sb hsb
    split at h
    · cases h
    · rename_i sbP hsbP
      simp only at h
      split at h
      · cases h
      · rename_i bb hbb
        split at h
        · cases h
        · rename_i bbP hbbP
          cases h
          exact ⟨sb, sbP, bb, bbP, hsb, hsbP, hbb, hbbP, rfl⟩

theorem beginHand_parts (g g1 : PokerGame) (h : beginHand g = some g1) :
    ∃ d gb gh bb2 cur, getNextActivePlayer g.Players g.DealerIndex = some d ∧
      postBlinds { g with DealerIndex := d } = some gb ∧ dealHoleCards gb = some gh ∧
      getBigBlindIndex gh = some bb2 ∧ getNextActivePlayer gh.Players bb2 = some cur ∧
      g1 = { gh with CurrentIndex := cur } := by
  unfold beginHand at h
  split at h
  · cases h
  · rename_i ga hga
    unfold moveDealerButton at hga
    split at hga
    · cases hga
    · rename_i d hd
      cases hga
      split at h
      · cases h
      · rename_i gb hgb
        split at h
        · cases h
        · rename_i gh hgh
          split at h
          · cases h
          · rename_i bb2 hbb2
            split at h
            · cases h
            · rename_i cur hcur
              cases h
              exact ⟨d, gb, gh, bb2, cur, hd, hgb, hgh, hbb2, hcur, rfl⟩

/-! ## Lemmas on whole calls -/

theorem processAction_forall2 {R : PokerPlayer → PokerPlayer → Prop} (S : StepRel R)
    (hfold : ∀ p, R p { p with IsFolded := true })
    (ha : ∀ p x, R p { p with Chips := p.Chips + x }) (g g1 : PokerGame)
    (playerID : String) (action : ActionType) (amount : Int)
    (h : ProcessAction g playerID action amount = Outcome.ok g1) :
    List.Forall₂ R g.Players g1.Players ∧ g1.DealerIndex = g.DealerIndex ∧
      g1.BigBlind = g.BigBlind ∧ g1.SmallBlind = g.SmallBlind := by
  obtain ⟨cur, mid, hcur, hid, hnf, hna, happ, hfin⟩ := processAction_parts _ _ _ _ _ h
  have hmid : List.Forall₂ R g.Players mid.Players ∧ mid.DealerIndex = g.DealerIndex ∧
      mid.BigBlind = g.BigBlind ∧ mid.SmallBlind = g.SmallBlind := by
    by_cases hf : action = ActionType.Fold
    · subst hf
      simp only [applyAction] at happ
      cases happ
      exact ⟨forall2_modifyAt S.same _ _ _ hfold, rfl, rfl, rfl⟩
    · have e := evolves_applyAction S happ hf
        (fun p hp => by rw [hcur] at hp; cases hp; exact hna)
      exact ⟨e.1, e.2.1, e.2.2.2.1, e.2.2.2.2⟩
  obtain ⟨m1, m2, m3, m4⟩ := hmid
  rcases finishAction_evolves S mid g1 _ hfin with ⟨e, _⟩ | ⟨g2, e, _, he⟩
  · exact ⟨forall2_chain S.chain m1 e.1, e.2.1.trans m2, e.2.2.2.1.trans m3,
      e.2.2.2.2.trans m4⟩
  · obtain ⟨e2, _⟩ := endHand_evolves S.same S.chain ha g2 g1 he
    exact ⟨forall2_chain S.chain m1 (forall2_chain S.chain e.1 e2.1),
      (e2.2.1.trans e.2.1).trans m2, (e2.2.2.2.1.trans e.2.2.2.1).trans m3,
      (e2.2.2.2.2.trans e.2.2.2.2).trans m4⟩

theorem processAction_forall2_running {R : PokerPlayer → PokerPlayer → Prop} (S : StepRel R)
    (hfold : ∀ p, R p { p with IsFolded := true }) (g g1 : PokerGame)
    (playerID : String) (action : ActionType) (amount : Int)
    (h : ProcessAction g playerID action amount = Outcome.ok g1)
    (hrun : g1.HandComplete = false) :
    List.Forall₂ R g.Players g1.Players := by
  obtain ⟨cur, mid, hcur, hid, hnf, hna, happ, hfin⟩ := processAction_parts _ _ _ _ _ h
  have hmid : List.Forall₂ R g.Players mid.Players := by
    by_cases hf : action = ActionType.Fold
    · subst hf
      simp only [applyAction] at happ
      cases happ
      exact forall2_modifyAt S.same _ _ _ hfold
    · exact (evolves_applyAction S happ hf
        (fun p hp => by rw [hcur] at hp; cases hp; exact hna)).1
  rcases finishAction_evolves S mid g1 _ hfin with ⟨e, _⟩ | ⟨g2, e, _, he⟩
  · exact forall2_chain S.chain hmid e.1
  · rw [endHand_complete _ _ he] at hrun
    cases hrun

theorem filter_two (P : PokerPlayer → Bool) (l : List PokerPlayer)
    (h : 2 ≤ (l.filter P).length) :
    ∃ i j a b, i ≠ j ∧ l.get? i = some a ∧ P a = true ∧ l.get? j = some b ∧ P b = true := by
  induction l with
  | nil => simp at h
  | cons x t ih =>
    by_cases hx : P x = true
    · rw [List.filter_cons_of_pos hx] at h
      have h1 : 1 ≤ (t.filter P).length := by
        simp only [List.length_cons] at h
        omega
      obtain ⟨b, hb⟩ := List.exists_mem_of_length_pos h1
      obtain ⟨hbt, hPb⟩ := List.mem_filter.mp hb
      obtain ⟨n, hn⟩ := List.get?_of_mem hbt
      exact ⟨0, n + 1, x, b, by omega, rfl, hx, hn, hPb⟩
    · rw [List.filter_cons_of_neg hx] at h
      obtain ⟨i, j, a, b, hij, h1, h2, h3, h4⟩ := ih h
      exact ⟨i + 1, j + 1, a, b, by omega, h1, h2, h3, h4⟩

theorem canAct_resetPlayer (p : PokerPlayer) :
    canAct (resetPlayer p) = decide (p.Chips > 0) := by
  unfold resetPlayer canAct
  by_cases h : p.Chips > 0
  · simp [h]
  · simp [h]

theorem twoAble_reset (g0 : PokerGame) (r : Nat → Nat)
    (h : ¬ (resetForNewHand g0 r).NumActivePlayers < 2) :
    TwoAble (resetForNewHand g0 r).Players := by
  have h2 : 2 ≤ (g0.Players.filter (fun p => decide (p.Chips > 0))).length := by
    have h3 : ¬ (((g0.Players.filter (fun p => decide (p.Chips > 0))).length : Int) < 2) := h
    omega
  obtain ⟨i, j, a, b, hij, h1, h2, h3, h4⟩ := filter_two _ _ h2
  refine ⟨i, j, hij, ⟨resetPlayer a, ?_, ?_⟩, ⟨resetPlayer b, ?_, ?_⟩⟩
  · show (g0.Players.map resetPlayer).get? i = some (resetPlayer a)
    rw [List.get?_eq_getElem?, List.getElem?_map, ← List.get?_eq_getElem?, h1]
    rfl
  · rw [canAct_resetPlayer]; exact h2
  · show (g0.Players.map resetPlayer).get? j = some (resetPlayer b)
    rw [List.get?_eq_getElem?, List.getElem?_map, ← List.get?_eq_getElem?, h3]
    rfl
  · rw [canAct_resetPlayer]; exact h4

theorem startNewHand_parts (g0 g : PokerGame) (r : Nat → Nat)
    (h : StartNewHand g0 r = Outcome.ok g) :
    TwoAble (resetForNewHand g0 r).Players ∧ beginHand (resetForNewHand g0 r) = some g := by
  unfold StartNewHand at h
  split at h
  · cases h
  · simp only at h
    split at h
    · cases h
    · rename_i hn
      refine ⟨twoAble_reset g0 r hn, ?_⟩
      split at h
      · cases h
      · rename_i g2 hg2
        cases h
        exact hg2

theorem twoAble_other {ps : List PokerPlayer} (h : TwoAble ps) (frm : Nat) :
    ∃ j q, j ≠ frm ∧ ps.get? j = some q ∧ canAct q = true := by
  obtain ⟨i, j, hij, ⟨a, ha, hca⟩, ⟨b, hb, hcb⟩⟩ := h
  by_cases hi : i = frm
  · exact ⟨j, b, fun hj => hij (hi.trans hj.symm), hb, hcb⟩
  · exact ⟨i, a, hi, ha, hca⟩

theorem next_able_of_able {ps : List PokerPlayer} {frm k : Nat}
    (h : getNextActivePlayer ps frm = some k) (hf : AbleAt ps frm) : AbleAt ps k := by
  rcases getNextActivePlayer_sound _ _ _ h with h1 | h1
  · rw [h1]; exact hf
  · exact h1

/-! ## Lemmas on the start of a hand -/

theorem dealRound_forall2 {R : PokerPlayer → PokerPlayer → Prop} (hr : ∀ p, R p p)
    (hdeal : ∀ p c, R p { p with HoleCards := p.HoleCards ++ [c] })
    (ps : List PokerPlayer) (d : Deck) (ps1 : List PokerPlayer)
    (d1 : Deck) (h : dealRound ps d = some (ps1, d1)) : List.Forall₂ R ps ps1 := by
  induction ps generalizing d ps1 d1 with
  | nil =>
    simp only [dealRound] at h
    cases h
    exact List.Forall₂.nil
  | cons p t ih =>
    simp only [dealRound] at h
    split at h
    · split at h
      · cases h
      · split at h
        · cases h
        · rename_i t1 d2 ht
          cases h
          exact List.Forall₂.cons (hdeal p _) (ih _ _ _ ht)
    · split at h
      · cases h
      · rename_i t1 d2 ht
        cases h
        exact List.Forall₂.cons (hr p) (ih _ _ _ ht)

theorem dealHoleCards_forall2 {R : PokerPlayer → PokerPlayer → Prop} (hr : ∀ p, R p p)
    (ht : ∀ p q r, R p q → R q r → R p r)
    (hdeal : ∀ p c, R p { p with HoleCards := p.HoleCards ++ [c] })
    (g g1 : PokerGame) (h : dealHoleCards g = some g1) :
    List.Forall₂ R g.Players g1.Players := by
  unfold dealHoleCards at h
  split at h
  · cases h
  · rename_i ps1 d1 h1
    split at h
    · cases h
    · rename_i ps2 d2 h2
      cases h
      exact forall2_chain ht (dealRound_forall2 hr hdeal _ _ _ _ h1)
        (dealRound_forall2 hr hdeal _ _ _ _ h2)

theorem dealHoleCards_fields (g g1 : PokerGame) (h : dealHoleCards g = some g1) :
    g1 = { g with Players := g1.Players, Deck := g1.Deck } := by
  unfold dealHoleCards at h
  split at h
  · cases h
  · split at h
    · cases h
    · cases h
      rfl

theorem getBigBlindIndex_able {g : PokerGame} {bb : Nat} (h : getBigBlindIndex g = some bb)
    (hd : AbleAt g.Players g.DealerIndex) : AbleAt g.Players bb := by
  unfold getBigBlindIndex getSmallBlindIndex at h
  split at h
  · cases h
  · rename_i sb hsb
    exact next_able_of_able h (next_able_of_able hsb hd)

theorem getBigBlindIndex_sound {g : PokerGame} {bb : Nat} (h : getBigBlindIndex g = some bb) :
    bb = g.DealerIndex ∨ AbleAt g.Players bb := by
  unfold getBigBlindIndex getSmallBlindIndex at h
  split at h
  · cases h
  · rename_i sb hsb
    rcases getNextActivePlayer_sound _ _ _ h with h1 | h1
    · rw [h1]
      exact getNextActivePlayer_sound _ _ _ hsb
    · exact Or.inr h1

theorem able_not_allIn {ps : List PokerPlayer} {i : Nat} (h : AbleAt ps i) (p : PokerPlayer)
    (hp : ps.get? i = some p) : p.IsAllIn = false := by
  obtain ⟨q, hq, hc⟩ := h
  rw [hq] at hp
  cases hp
  unfold canAct at hc
  simp only [Bool.and_eq_true, Bool.not_eq_true'] at hc
  exact hc.2

theorem ableAt_playerBet {g : PokerGame} {i j : Nat} (a : Int) (h : j ≠ i)
    (hj : AbleAt g.Players j) : AbleAt (playerBet g i a).Players j := by
  obtain ⟨p, hp, hc⟩ := hj
  exact ⟨p, by rw [playerBet_get_ne g i j a h]; exact hp, hc⟩

theorem forall2_playerBet {R : PokerPlayer → PokerPlayer → Prop} (hr : ∀ p, R p p)
    (hbet : ∀ a p, p.IsAllIn = false → R p (betPlayer a p))
    (g : PokerGame) (i : Nat) (amount : Int)
    (hi : ∀ p, g.Players.get? i = some p → p.IsAllIn = false) :
    List.Forall₂ R g.Players (playerBet g i amount).Players := by
  rw [playerBet_Players]
  exact forall2_modifyAt_at hr _ _ _ (fun p hp => hbet amount p (hi p hp))

theorem postBlinds_forall2 {R : PokerPlayer → PokerPlayer → Prop} (hr : ∀ p, R p p)
    (ht : ∀ p q r, R p q → R q r → R p r)
    (hbet : ∀ a p, p.IsAllIn = false → R p (betPlayer a p))
    (g g1 : PokerGame) (h : postBlinds g = some g1) (hd : AbleAt g.Players g.DealerIndex)
    (h2 : TwoAble g.Players) :
    List.Forall₂ R g.Players g1.Players := by
  obtain ⟨sb, sbP, bb, bbP, hsb, hsbP, hbb, hbbP, rfl⟩ := postBlinds_parts g g1 h
  obtain ⟨hne, hsbA⟩ := getNextActivePlayer_finds _ _ _ hsb (twoAble_other h2 _)
  have e1 : List.Forall₂ R g.Players (sbPosted g sb sbP).Players :=
    forall2_playerBet hr hbet g sb _ (fun p hp => able_not_allIn hsbA p hp)
  have hd1 : AbleAt (sbPosted g sb sbP).Players (sbPosted g sb sbP).DealerIndex := by
    have hdi : (sbPosted g sb sbP).DealerIndex = g.DealerIndex := (playerBet_table g sb _).1
    rw [hdi]
    exact ableAt_playerBet _ (fun hx => hne hx.symm) hd
  have hbbA := getBigBlindIndex_able hbb hd1
  have e2 : List.Forall₂ R (sbPosted g sb sbP).Players
      (playerBet (sbPosted g sb sbP) bb
        (if (sbPosted g sb sbP).BigBlind > bbP.Chips then bbP.Chips
          else (sbPosted g sb sbP).BigBlind)).Players :=
    forall2_playerBet hr hbet _ bb _ (fun p hp => able_not_allIn hbbA p hp)
  exact forall2_chain ht e1 e2

theorem postBlinds_fields (g g1 : PokerGame) (h : postBlinds g = some g1) :
    g1.CurrentBet = g.BigBlind ∧ g1.MinRaise = g.MinRaise ∧ g1.BigBlind = g.BigBlind ∧
      g1.SmallBlind = g.SmallBlind ∧ g1.NumActivePlayers = g.NumActivePlayers ∧
      g1.BettingRound = g.BettingRound ∧ g1.CommunityCards = g.CommunityCards ∧
      g1.HandComplete = g.HandComplete ∧ g1.DealerIndex = g.DealerIndex ∧
      g1.Deck = g.Deck := by
  obtain ⟨sb, sbP, bb, bbP, hsb, hsbP, hbb, hbbP, rfl⟩ := postBlinds_parts g g1 h
  obtain ⟨a1, a2, a3, a4, a5⟩ := playerBet_table g sb
    (if g.SmallBlind > sbP.Chips then sbP.Chips else g.SmallBlind)
  obtain ⟨b1, b2, b3, b4, b5, b6⟩ := playerBet_fields g sb
    (if g.SmallBlind > sbP.Chips then sbP.Chips else g.SmallBlind)
  obtain ⟨c1, c2, c3, c4, c5⟩ := playerBet_table (sbPosted g sb sbP) bb
    (if (sbPosted g sb sbP).BigBlind > bbP.Chips then bbP.Chips
      else (sbPosted g sb sbP).BigBlind)
  obtain ⟨d1, d2, d3, d4, d5, d6⟩ := playerBet_fields (sbPosted g sb sbP) bb
    (if (sbPosted g sb sbP).BigBlind > bbP.Chips then bbP.Chips
      else (sbPosted g sb sbP).BigBlind)
  exact ⟨c3.trans a3, d4.trans b4, c3.trans a3, c4.trans a4, c2.trans a2, d1.trans b1,
    d3.trans b3, d2.trans b2, c1.trans a1, d5.trans b5⟩

theorem beginHand_forall2 {R : PokerPlayer → PokerPlayer → Prop} (hr : ∀ p, R p p)
    (ht : ∀ p q r, R p q → R q r → R p r)
    (hbet : ∀ a p, p.IsAllIn = false → R p (betPlayer a p))
    (hdeal : ∀ p c, R p { p with HoleCards := p.HoleCards ++ [c] })
    (gr g : PokerGame) (h : beginHand gr = some g) (h2 : TwoAble gr.Players) :
    List.Forall₂ R gr.Players g.Players ∧ AbleAt gr.Players g.DealerIndex ∧
      g.DealerIndex ≠ gr.DealerIndex := by
  obtain ⟨d, gb, gh, bb2, cur, hd, hgb, hgh, hbb2, hcur, rfl⟩ := beginHand_parts gr g h
  obtain ⟨hne, hdA⟩ := getNextActivePlayer_finds _ _ _ hd (twoAble_other h2 _)
  have e1 : List.Forall₂ R gr.Players gb.Players :=
    postBlinds_forall2 hr ht hbet { gr with DealerIndex := d } gb hgb hdA h2
  have e2 := dealHoleCards_forall2 hr ht hdeal gb gh hgh
  have hdi : gh.DealerIndex = d := by
    rw [dealHoleCards_fields gb gh hgh]
    exact (postBlinds_fields _ _ hgb).2.2.2.2.2.2.2.2.1
  exact ⟨forall2_chain ht e1 e2, by rw [hdi]; exact hdA, by rw [hdi]; exact hne⟩

theorem beginHand_fields (gr g : PokerGame) (h : beginHand gr = some g) :
    g.CurrentBet = gr.BigBlind ∧ g.MinRaise = gr.MinRaise ∧ g.BigBlind = gr.BigBlind ∧
      g.SmallBlind = gr.SmallBlind ∧ g.NumActivePlayers = gr.NumActivePlayers ∧
      g.BettingRound = gr.BettingRound ∧ g.CommunityCards = gr.CommunityCards ∧
      g.HandComplete = gr.HandComplete ∧
      (g.CurrentIndex = g.DealerIndex ∨ AbleAt g.Players g.CurrentIndex) := by
  obtain ⟨d, gb, gh, bb2, cur, hd, hgb, hgh, hbb2, hcur, rfl⟩ := beginHand_parts gr g h
  obtain ⟨a1, a2, a3, a4, a5, a6, a7, a8, a9, a10⟩ := postBlinds_fields _ _ hgb
  have hf := dealHoleCards_fields gb gh hgh
  have hcurA : cur = gh.DealerIndex ∨ AbleAt gh.Players cur := by
    rcases getNextActivePlayer_sound _ _ _ hcur with h1 | h1
    · rw [h1]
      exact getBigBlindIndex_sound hbb2
    · exact Or.inr h1
  refine ⟨?_, ?_, ?_, ?_, ?_, ?_, ?_, ?_, hcurA⟩
  · show gh.CurrentBet = gr.BigBlind
    rw [hf]; exact a1
  · show gh.MinRaise = gr.MinRaise
    rw [hf]; exact a2
  · show gh.BigBlind = gr.BigBlind
    rw [hf]; exact a3
  · show gh.SmallBlind = gr.SmallBlind
    rw [hf]; exact a4
  · show gh.NumActivePlayers = gr.NumActivePlayers
    rw [hf]; exact a5
  · show gh.BettingRound = gr.BettingRound
    rw [hf]; exact a6
  · show gh.CommunityCards = gr.CommunityCards
    rw [hf]; exact a7
  · show gh.HandComplete = gr.HandComplete
    rw [hf]; exact a8

/-! ## Runs and reachable states -/

theorem reached_run (g0 : PokerGame) (r : Nat → Nat)
    (acts : List (String × ActionType × Int)) (o : Outcome) (g : PokerGame)
    (ho : ∀ s, o = Outcome.ok s → Reached g0 r s) (h : runActions o acts = Outcome.ok g) :
    Reached g0 r g := by
  induction acts generalizing o with
  | nil =>
    have h1 : o = Outcome.ok g := by
      cases o with
      | ok s => simpa [runActions] using h
      | err msg s => simp [runActions] at h
      | panic => simp [runActions] at h
    exact ho g h1
  | cons x t ih =>
    obtain ⟨playerID, action, amount⟩ := x
    cases o with
    | ok s =>
      simp only [runActions] at h
      exact ih _ (fun s1 hs1 => Reached.step playerID action amount (ho s rfl) hs1) h
    | err msg s =>
      simp only [runActions] at h
      cases h
    | panic =>
      simp only [runActions] at h
      cases h

theorem reached_of_run (g0 g : PokerGame) (r : Nat → Nat)
    (acts : List (String × ActionType × Int))
    (h : runActions (StartNewHand g0 r) acts = Outcome.ok g) : Reached g0 r g :=
  reached_run g0 r acts _ g (fun _ hs => Reached.start hs) h

theorem reached_was_running (g g1 : PokerGame) (playerID : String) (action : ActionType)
    (amount : Int) (h : ProcessAction g playerID action amount = Outcome.ok g1)
    (hrun : g1.HandComplete = false) : g.HandComplete = false := by
  rcases processAction_cases _ _ _ _ _ h with ⟨_, k2, _, _⟩ | ⟨g2, _, h3⟩
  · rw [← k2]; exact hrun
  · rw [endHand_complete _ _ h3] at hrun
    cases hrun

theorem stepRel_keepsBroke : StepRel KeepsBroke where
  same := fun _ h => h
  chain := fun _ _ _ h1 h2 h => h2 (h1 h)
  bet := by
    intro a p hp _ hq
    unfold betPlayer betAmount at hq ⊢
    by_cases ha : a ≥ p.Chips
    · simp only [ha, if_true]
      omega
    · simp only [ha, if_false] at hq
      rw [hp] at hq
      cases hq
  acted := fun _ _ h => h
  street := fun _ h => h

theorem allInBroke_reset (p : PokerPlayer) (h : 0 ≤ p.Chips) : AllInBroke (resetPlayer p) := by
  unfold resetPlayer AllInBroke
  by_cases hc : p.Chips > 0
  · simp only [hc, if_true]
    intro hx
    cases hx
  · simp only [hc, if_false]
    intro _
    show p.Chips = 0
    omega

/-- C18, amended: in every state of a hand in progress (reached from a
successful `StartNewHand` on a table whose stacks are not negative, by
accepted actions, with `HandComplete` false), every player with `IsAllIn`
true has no chips. Nothing is claimed of `HasActed`, which the end of every
street resets for everybody, and nothing of the states after the award,
where an all-in winner holds chips again. -/
theorem all_in_players_have_no_chips (g0 g : PokerGame) (r : Nat → Nat)
    (hpos : ∀ p ∈ g0.Players, 0 ≤ p.Chips) (h : Reached g0 r g)
    (hrun : g.HandComplete = false) :
    ∀ p ∈ g.Players, p.IsAllIn = true → p.Chips = 0 := by
  induction h with
  | start hs =>
    rename_i gs
    obtain ⟨h2, hb⟩ := startNewHand_parts _ _ _ hs
    obtain ⟨hf, _, _⟩ := beginHand_forall2 stepRel_keepsBroke.same
      stepRel_keepsBroke.chain stepRel_keepsBroke.bet (fun _ _ hx => hx) _ _ hb h2
    intro p hp
    obtain ⟨n, hn⟩ := List.get?_of_mem hp
    obtain ⟨q, hq, hqp⟩ := forall2_get_right hf n p hn
    have hq1 : q ∈ g0.Players.map resetPlayer := List.get?_mem hq
    obtain ⟨q0, hq0, rfl⟩ := List.mem_map.mp hq1
    exact hqp (allInBroke_reset q0 (hpos q0 hq0))
  | step playerID action amount hr hp ih =>
    rename_i gp gn
    have hprev := ih (reached_was_running _ _ _ _ _ hp hrun)
    have hf := processAction_forall2_running stepRel_keepsBroke (fun _ hx => hx)
      _ _ _ _ _ hp hrun
    intro p hpm
    obtain ⟨n, hn⟩ := List.get?_of_mem hpm
    obtain ⟨q, hq, hqp⟩ := forall2_get_right hf n p hn
    exact hqp (hprev q (List.get?_mem hq))

/-- Witness for C18 amended: the flop of the hand in which a moved all-in
for 500 and b called. -/
theorem all_in_players_have_no_chips_witness :
    (∀ p ∈ coveredTable.Players, 0 ≤ p.Chips) ∧ Reached coveredTable zeroRand coveredFlop ∧
      coveredFlop.HandComplete = false ∧
      coveredFlop.Players.map (fun p => (p.ID, p.IsAllIn, p.Chips))
        = [("a", true, 0), ("b", false, 500)] ∧
      ∀ p ∈ coveredFlop.Players, p.IsAllIn = true → p.Chips = 0 :=
  have hpos : ∀ p ∈ coveredTable.Players, 0 ≤ p.Chips := by decide
  have hr : Reached coveredTable zeroRand coveredFlop :=
    reached_of_run _ _ _ [("a", ActionType.AllIn, 0), ("b", ActionType.Call, 0)] (by decide)
  ⟨hpos, hr, by decide, by rfl,
    all_in_players_have_no_chips coveredTable coveredFlop zeroRand hpos hr (by decide)⟩

/-! ## The table invariant -/

theorem stepRel_coreRel : StepRel CoreRel where
  same := fun _ => ⟨rfl, rfl, rfl⟩
  chain := fun _ _ _ h1 h2 => ⟨h2.1.trans h1.1, h2.2.1.trans h1.2.1, h2.2.2.trans h1.2.2⟩
  bet := fun _ _ _ => ⟨rfl, rfl, rfl⟩
  acted := fun _ _ => ⟨rfl, rfl, rfl⟩
  street := fun _ => ⟨rfl, rfl, rfl⟩

theorem contenders_forall2 {ps qs : List PokerPlayer} (h : List.Forall₂ CoreRel ps qs) :
    (contenders qs).length = (contenders ps).length := by
  induction h with
  | nil => rfl
  | cons hpq _ ih =>
    rename_i p q ps1 qs1
    obtain ⟨_, h2, h3⟩ := hpq
    unfold contenders at ih ⊢
    simp only [List.filter_cons, h2, h3]
    split
    · simp only [List.length_cons, ih]
    · exact ih

theorem seatedAt_forall2 {ps qs : List PokerPlayer} (h : List.Forall₂ CoreRel ps qs)
    {i : Nat} (hi : SeatedAt ps i) : SeatedAt qs i := by
  obtain ⟨p, hp, ha⟩ := hi
  obtain ⟨q, hq, hr⟩ := forall2_get h i p hp
  exact ⟨q, hq, hr.2.1.trans ha⟩

theorem seatedAt_of_able {ps : List PokerPlayer} {i : Nat} (h : AbleAt ps i) :
    SeatedAt ps i := by
  obtain ⟨p, hp, hc⟩ := h
  refine ⟨p, hp, ?_⟩
  unfold canAct at hc
  simp only [Bool.and_eq_true, Bool.not_eq_true'] at hc
  exact hc.1.1

theorem contenders_fold (ps : List PokerPlayer) (i : Nat) (cur : PokerPlayer)
    (h : ps.get? i = some cur) (ha : cur.IsActive = true) (hf : cur.IsFolded = false) :
    (contenders (modifyAt ps i (fun p => { p with IsFolded := true }))).length + 1
      = (contenders ps).length := by
  induction ps generalizing i with
  | nil => simp at h
  | cons x t ih =>
    cases i with
    | zero =>
      have hx : x = cur := by simpa using h
      subst hx
      unfold contenders
      simp only [modifyAt, List.filter_cons, ha, hf]
      simp
    | succ k =>
      have h1 : t.get? k = some cur := by simpa using h
      have h2 := ih k h1
      unfold contenders at h2 ⊢
      simp only [modifyAt, List.filter_cons]
      split
      · simp only [List.length_cons]
        omega
      · exact h2

theorem contenders_reset (l : List PokerPlayer) :
    (contenders (l.map resetPlayer)).length
      = (l.filter (fun p => decide (p.Chips > 0))).length := by
  induction l with
  | nil => rfl
  | cons x t ih =>
    unfold contenders at ih ⊢
    simp only [List.map_cons, List.filter_cons]
    by_cases hx : x.Chips > 0
    · have h1 : ((resetPlayer x).IsActive && !(resetPlayer x).IsFolded) = true := by
        unfold resetPlayer
        simp [hx]
      simp only [h1, hx, decide_True, if_true, List.length_cons, ih]
    · have h1 : ((resetPlayer x).IsActive && !(resetPlayer x).IsFolded) = false := by
        unfold resetPlayer
        simp [hx]
      simp only [h1, hx, decide_False, if_false, ih]
      simp [ih]

theorem tableOk_start (g0 g : PokerGame) (r : Nat → Nat)
    (h : StartNewHand g0 r = Outcome.ok g) : TableOk g := by
  obtain ⟨h2, hb⟩ := startNewHand_parts _ _ _ h
  obtain ⟨hf, hd, _⟩ := beginHand_forall2 stepRel_coreRel.same stepRel_coreRel.chain
    stepRel_coreRel.bet (fun _ _ => ⟨rfl, rfl, rfl⟩) _ _ hb h2
  obtain ⟨_, _, _, _, hn, _, _, _, hcur⟩ := beginHand_fields _ _ hb
  have hdS : SeatedAt g.Players g.DealerIndex := seatedAt_forall2 hf (seatedAt_of_able hd)
  have hcount : g.NumActivePlayers = ((contenders g.Players).length : Int) := by
    rw [hn, contenders_forall2 hf]
    show (((g0.Players.filter (fun p => decide (p.Chips > 0))).length : Nat) : Int)
      = (((contenders (g0.Players.map resetPlayer)).length : Nat) : Int)
    rw [contenders_reset]
  refine ⟨hcount, ?_, hdS, Or.inl ?_⟩
  · rcases hcur with h1 | h1
    · rw [h1]; exact hdS
    · exact seatedAt_of_able h1
  · unfold StartNewHand at h
    split at h
    · cases h
    · simp only at h
      split at h
      · cases h
      · rename_i hlt
        rw [hn]
        omega

theorem coreRel_award (p : PokerPlayer) (x : Int) :
    CoreRel p { p with Chips := p.Chips + x } := ⟨rfl, rfl, rfl⟩

theorem finishAction_core (g g1 : PokerGame) (i : Nat) (h : finishAction g i = some g1) :
    Evolves CoreRel g g1 ∧ NextOk g g1 := by
  rcases finishAction_evolves stepRel_coreRel g g1 i h with ⟨e, hnx⟩ | ⟨g2, e, hc2, he⟩
  · exact ⟨e, hnx⟩
  · obtain ⟨e2, hc⟩ := endHand_evolves stepRel_coreRel.same stepRel_coreRel.chain
      coreRel_award g2 g1 he
    exact ⟨Evolves.chain stepRel_coreRel e e2, Or.inl (hc.trans hc2)⟩

theorem finishAction_last (g g1 : PokerGame) (i : Nat) (h : finishAction g i = some g1)
    (hn : g.NumActivePlayers = 1) (hc : (contenders g.Players).length = 1) :
    g1.CurrentIndex = g.CurrentIndex ∧ g1.HandComplete = true := by
  unfold finishAction at h
  simp only at h
  have hcomp : isBettingRoundComplete
      { g with Players := modifyAt g.Players i (fun p => { p with HasActed := true }) }
        = true := by
    unfold isBettingRoundComplete
    simp only [hn, if_true]
  rw [hcomp] at h
  simp only [if_true] at h
  unfold endBettingRound at h
  simp only at h
  have hf : List.Forall₂ CoreRel g.Players
      ((modifyAt g.Players i (fun p => { p with HasActed := true })).map
        (fun p => { p with CurrentBet := 0, HasActed := false })) :=
    forall2_chain stepRel_coreRel.chain
      (forall2_modifyAt stepRel_coreRel.same _ _ _ (fun p => stepRel_coreRel.acted p true))
      (forall2_map _ _ (fun p => stepRel_coreRel.street p))
  have hend : shouldEndHand (createSidePots
      { g with
        Players := (modifyAt g.Players i (fun p => { p with HasActed := true })).map
          (fun p => { p with CurrentBet := 0, HasActed := false }),
        CurrentBet := 0 }) = true := by
    have hl := contenders_forall2 hf
    unfold contenders at hl hc
    unfold shouldEndHand createSidePots
    simp only [decide_eq_true_eq]
    omega
  rw [hend] at h
  simp only [if_true] at h
  obtain ⟨_, hci⟩ := endHand_evolves stepRel_coreRel.same stepRel_coreRel.chain
    coreRel_award _ g1 h
  exact ⟨hci, endHand_complete _ _ h⟩

theorem tableOk_mid (g mid : PokerGame) (cur : PokerPlayer) (playerID : String)
    (action : ActionType) (amount : Int) (hk : TableOk g)
    (hcur : g.Players.get? g.CurrentIndex = some cur) (hnf : cur.IsFolded = false)
    (hna : cur.IsAllIn = false)
    (happ : applyAction g g.CurrentIndex cur playerID action amount = Except.ok mid) :
    List.Forall₂ (fun p q => q.IsActive = p.IsActive) g.Players mid.Players ∧
      mid.DealerIndex = g.DealerIndex ∧
      mid.NumActivePlayers = ((contenders mid.Players).length : Int) ∧
      (2 ≤ mid.NumActivePlayers ∨
        (mid.NumActivePlayers = 1 ∧
          ∃ p, mid.Players.get? g.CurrentIndex = some p ∧ p.IsFolded = true)) := by
  have hcurA : cur.IsActive = true := by
    obtain ⟨p, hp, ha⟩ := hk.acting
    rw [hcur] at hp
    cases hp
    exact ha
  have hn2 : 2 ≤ g.NumActivePlayers := by
    rcases hk.alive with h1 | ⟨p, hp, hpf⟩
    · exact h1
    · rw [hcur] at hp
      cases hp
      rw [hnf] at hpf
      cases hpf
  by_cases hf : action = ActionType.Fold
  · subst hf
    simp only [applyAction] at happ
    cases happ
    have hc := contenders_fold g.Players g.CurrentIndex cur hcur hcurA hnf
    have hcnt := hk.count
    have hfa : List.Forall₂ (fun p q => q.IsActive = p.IsActive) g.Players
        (modifyAt g.Players g.CurrentIndex (fun p => { p with IsFolded := true })) := by
      refine forall2_modifyAt ?_ _ _ _ ?_ <;> intro _ <;> rfl
    refine ⟨hfa, rfl, ?_, ?_⟩
    · show g.NumActivePlayers - 1 = (((contenders (modifyAt g.Players g.CurrentIndex
        (fun p => { p with IsFolded := true }))).length : Nat) : Int)
      omega
    · show 2 ≤ g.NumActivePlayers - 1 ∨ (g.NumActivePlayers - 1 = 1 ∧ _)
      by_cases h3 : 3 ≤ g.NumActivePlayers
      · exact Or.inl (by omega)
      · exact Or.inr ⟨by omega, _, get?_modifyAt_eq _ _ _ _ hcur, rfl⟩
  · have e := evolves_applyAction stepRel_coreRel happ hf
      (fun p hp => by rw [hcur] at hp; cases hp; exact hna)
    refine ⟨?_, e.2.1, ?_, Or.inl ?_⟩
    · exact List.Forall₂.imp (fun _ _ hr => hr.2.1) e.1
    · rw [e.2.2.1, contenders_forall2 e.1]
      exact hk.count
    · rw [e.2.2.1]
      exact hn2

theorem tableOk_step (g g1 : PokerGame) (playerID : String) (action : ActionType)
    (amount : Int) (h : ProcessAction g playerID action amount = Outcome.ok g1)
    (hk : TableOk g) : TableOk g1 := by
  obtain ⟨cur, mid, hcur, hid, hnf, hna, happ, hfin⟩ := processAction_parts _ _ _ _ _ h
  have hci : mid.CurrentIndex = g.CurrentIndex := applyAction_CurrentIndex happ
  obtain ⟨m1, m2, m3, m4⟩ := tableOk_mid g mid cur playerID action amount hk hcur hnf hna happ
  have hseat : ∀ {i : Nat}, SeatedAt g.Players i → SeatedAt mid.Players i := by
    intro i hi
    obtain ⟨p, hp, ha⟩ := hi
    obtain ⟨q, hq, hr⟩ := forall2_get m1 i p hp
    exact ⟨q, hq, hr.trans ha⟩
  obtain ⟨e, hnx⟩ := finishAction_core mid g1 _ hfin
  have hcount : g1.NumActivePlayers = ((contenders g1.Players).length : Int) := by
    rw [e.2.2.1, contenders_forall2 e.1]
    exact m3
  have hdealer : SeatedAt g1.Players g1.DealerIndex := by
    rw [e.2.1, m2]
    exact seatedAt_forall2 e.1 (hseat hk.dealer)
  have hsame : SeatedAt g1.Players g.CurrentIndex :=
    seatedAt_forall2 e.1 (hseat hk.acting)
  have hacting : SeatedAt g1.Players g1.CurrentIndex := by
    rcases hnx with h1 | h1 | h1
    · rw [h1, hci]
      exact hsame
    · rw [h1, ← e.2.1]
      exact hdealer
    · exact seatedAt_of_able h1
  refine ⟨hcount, hacting, hdealer, ?_⟩
  rcases m4 with h1 | ⟨h1, p, hp, hpf⟩
  · left
    rw [e.2.2.1]
    exact h1
  · right
    have hc1 : (contenders mid.Players).length = 1 := by
      have := m3
      omega
    obtain ⟨hci1, _⟩ := finishAction_last mid g1 _ hfin h1 hc1
    obtain ⟨q, hq, hr⟩ := forall2_get e.1 _ p hp
    refine ⟨q, ?_, hr.2.2.trans hpf⟩
    rw [hci1, hci]
    exact hq

theorem reached_tableOk (g0 g : PokerGame) (r : Nat → Nat) (h : Reached g0 r g) :
    TableOk g := by
  induction h with
  | start hs => exact tableOk_start _ _ _ hs
  | step playerID action amount hr hp ih => exact tableOk_step _ _ _ _ _ hp ih

/-! ## Lemmas on the cards drawn -/

theorem draw_spec (d d1 : Deck) (c : Card) (h : d.Draw = some (c, d1)) :
    Drew 1 d d1 [c] := by
  unfold Deck.Draw at h
  split at h
  · cases h
  · rename_i hlt
    split at h
    · rename_i c1 hc1
      cases h
      have hlt1 : d.used < d.cards.length := by omega
      refine ⟨rfl, rfl, ?_, rfl⟩
      rw [List.get?_eq_getElem?, List.getElem?_eq_getElem hlt1] at hc1
      cases hc1
      have hdrop : d.cards.drop d.used = d.cards[d.used] :: d.cards.drop (d.used + 1) :=
        List.drop_eq_getElem_cons hlt1
      rw [hdrop]
      rfl
    · cases h

theorem draw_total (d : Deck) (h : d.used < d.cards.length) : ∃ c d1, d.Draw = some (c, d1) := by
  unfold Deck.Draw
  have h1 : ¬ d.used ≥ d.cards.length := by omega
  simp only [h1, if_false]
  rw [List.get?_eq_getElem?, List.getElem?_eq_getElem h]
  exact ⟨_, _, rfl⟩

theorem drew_zero (d : Deck) : Drew 0 d d [] :=
  ⟨rfl, rfl, by simp, rfl⟩

theorem drew_chain {m n : Nat} {d d1 d2 : Deck} {cs cs1 : List Card}
    (h1 : Drew m d d1 cs) (h2 : Drew n d1 d2 cs1) : Drew (m + n) d d2 (cs ++ cs1) := by
  obtain ⟨a1, a2, a3, a4⟩ := h1
  obtain ⟨b1, b2, b3, b4⟩ := h2
  refine ⟨b1.trans a1, by omega, ?_, by rw [List.length_append, a4, b4]⟩
  rw [a3, b3, a1, a2, List.take_add, List.drop_drop]

theorem dealCommunity_spec (n : Nat) (g g1 : PokerGame) (h : dealCommunity n g = some g1) :
    ∃ cs, Drew n g.Deck g1.Deck cs ∧ g1.CommunityCards = g.CommunityCards ++ cs := by
  induction n generalizing g with
  | zero =>
    simp only [dealCommunity] at h
    cases h
    exact ⟨[], drew_zero _, by simp⟩
  | succ k ih =>
    simp only [dealCommunity] at h
    split at h
    · cases h
    · rename_i c d hd
      obtain ⟨cs, h1, h2⟩ := ih _ h
      have h0 := draw_spec _ _ _ hd
      have h3 := drew_chain h0 h1
      rw [Nat.add_comm] at h3
      exact ⟨[c] ++ cs, h3, by rw [h2]; simp⟩

theorem dealCommunity_total (n : Nat) (g : PokerGame)
    (h : g.Deck.used + n ≤ g.Deck.cards.length) : ∃ g1, dealCommunity n g = some g1 := by
  induction n generalizing g with
  | zero => exact ⟨g, rfl⟩
  | succ k ih =>
    obtain ⟨c, d1, hd⟩ := draw_total g.Deck (by omega)
    obtain ⟨e1, e2, _, _⟩ := draw_spec _ _ _ hd
    simp only [dealCommunity, hd]
    apply ih
    show d1.used + k ≤ d1.cards.length
    rw [e1, e2]
    omega

theorem dealtIn_cons (p : PokerPlayer) (t : List PokerPlayer) :
    dealtIn (p :: t) = if p.IsActive then p :: dealtIn t else dealtIn t := by
  unfold dealtIn
  rw [List.filter_cons]

theorem holeCardsOf_cons (p : PokerPlayer) (t : List PokerPlayer) :
    holeCardsOf (p :: t) = if p.IsActive then p.HoleCards ++ holeCardsOf t else holeCardsOf t := by
  unfold holeCardsOf
  rw [dealtIn_cons]
  split
  · simp [List.flatMap_cons]
  · rfl

theorem dealRound_spec (ps : List PokerPlayer) (d : Deck) (ps1 : List PokerPlayer)
    (d1 : Deck) (h : dealRound ps d = some (ps1, d1)) :
    ∃ cs, Drew (dealtIn ps).length d d1 cs ∧ (dealtIn ps1).length = (dealtIn ps).length ∧
      (holeCardsOf ps1).Perm (holeCardsOf ps ++ cs) := by
  induction ps generalizing d ps1 d1 with
  | nil =>
    simp only [dealRound] at h
    cases h
    exact ⟨[], drew_zero _, rfl, by simp [holeCardsOf, dealtIn]⟩
  | cons p t ih =>
    simp only [dealRound] at h
    split at h
    · rename_i hact
      split at h
      · cases h
      · rename_i c dm hdm
        split at h
        · cases h
        · rename_i t1 d2 ht
          cases h
          obtain ⟨cs, h1, h2, h3⟩ := ih _ _ _ ht
          have h0 := draw_spec _ _ _ hdm
          have h4 := drew_chain h0 h1
          rw [Nat.add_comm] at h4
          refine ⟨[c] ++ cs, ?_, ?_, ?_⟩
          · rw [dealtIn_cons, if_pos hact]
            exact h4
          · rw [dealtIn_cons, dealtIn_cons, if_pos hact, if_pos hact]
            simp only [List.length_cons, h2]
          · rw [holeCardsOf_cons, holeCardsOf_cons, if_pos hact, if_pos hact]
            have h5 : (p.HoleCards ++ [c] ++ holeCardsOf t1).Perm
                (p.HoleCards ++ [c] ++ (holeCardsOf t ++ cs)) := List.Perm.append_left _ h3
            refine h5.trans ?_
            simp only [List.append_assoc]
            refine List.Perm.append_left _ ?_
            show (c :: (holeCardsOf t ++ cs)).Perm (holeCardsOf t ++ c :: cs)
            exact List.perm_middle.symm
    · rename_i hact
      split at h
      · cases h
      · rename_i t1 d2 ht
        cases h
        obtain ⟨cs, h1, h2, h3⟩ := ih _ _ _ ht
        refine ⟨cs, ?_, ?_, ?_⟩
        · rw [dealtIn_cons, if_neg hact]
          exact h1
        · rw [dealtIn_cons, dealtIn_cons, if_neg hact, if_neg hact]
          exact h2
        · rw [holeCardsOf_cons, holeCardsOf_cons, if_neg hact, if_neg hact]
          exact h3

theorem dealRound_total (ps : List PokerPlayer) (d : Deck)
    (h : d.used + (dealtIn ps).length ≤ d.cards.length) :
    ∃ ps1 d1, dealRound ps d = some (ps1, d1) := by
  induction ps generalizing d with
  | nil => exact ⟨[], d, rfl⟩
  | cons p t ih =>
    rw [dealtIn_cons] at h
    simp only [dealRound]
    by_cases hact : p.IsActive = true
    · rw [if_pos hact] at h ⊢
      simp only [List.length_cons] at h
      obtain ⟨c, dm, hd⟩ := draw_total d (by omega)
      obtain ⟨e1, e2, _, _⟩ := draw_spec _ _ _ hd
      obtain ⟨t1, d2, ht⟩ := ih dm (by rw [e1, e2]; omega)
      simp only [hd, ht]
      exact ⟨_, _, rfl⟩
    · rw [if_neg hact] at h ⊢
      obtain ⟨t1, d2, ht⟩ := ih d h
      simp only [ht]
      exact ⟨_, _, rfl⟩

/-- The cards a step adds to the board: the next `n` cards of the deck, with
`n` the number of cards between the two streets. -/
theorem endBettingRound_deck (g g1 : PokerGame) (h : endBettingRound g = some g1) :
    ∃ n cs, Drew n g.Deck g1.Deck cs ∧ g1.CommunityCards = g.CommunityCards ++ cs ∧
      streetCards g1.BettingRound = streetCards g.BettingRound + n := by
  have hset : ∀ (ga gb : PokerGame), setNextPlayer ga = some gb →
      gb.BettingRound = ga.BettingRound ∧ gb.Deck = ga.Deck ∧
        gb.CommunityCards = ga.CommunityCards := by
    intro ga gb hs
    unfold setNextPlayer at hs
    split at hs
    · cases hs
    · cases hs; exact ⟨rfl, rfl, rfl⟩
  have hend : ∀ (ga gb : PokerGame), endHand ga = some gb → ga.Deck = g.Deck →
      ga.CommunityCards = g.CommunityCards → ga.BettingRound = g.BettingRound →
      ∃ n cs, Drew n g.Deck gb.Deck cs ∧ gb.CommunityCards = g.CommunityCards ++ cs ∧
        streetCards gb.BettingRound = streetCards g.BettingRound + n := by
    intro ga gb he h1 h2 h3
    obtain ⟨e1, e2, e3, _⟩ := endHand_fields _ _ he
    refine ⟨0, [], ?_, by rw [e2, h2]; simp, by rw [e1, h3]; rfl⟩
    rw [e3, h1]
    exact drew_zero _
  have hdeal : ∀ (n : Nat) (ga gb gc : PokerGame) (rd : BettingRound),
      dealCommunity n ga = some gb → setNextPlayer { gb with BettingRound := rd } = some gc →
      ga.Deck = g.Deck → ga.CommunityCards = g.CommunityCards →
      streetCards rd = streetCards g.BettingRound + n →
      ∃ n cs, Drew n g.Deck gc.Deck cs ∧ gc.CommunityCards = g.CommunityCards ++ cs ∧
        streetCards gc.BettingRound = streetCards g.BettingRound + n := by
    intro n ga gb gc rd hd hs h1 h2 h3
    obtain ⟨cs, d1, d2⟩ := dealCommunity_spec n ga gb hd
    obtain ⟨s1, s2, s3⟩ := hset _ _ hs
    refine ⟨n, cs, ?_, ?_, ?_⟩
    · rw [s2, ← h1]
      exact d1
    · rw [s3, ← h2]
      exact d2
    · rw [s1]
      exact h3
  unfold endBettingRound at h
  simp only at h
  split at h
  · exact hend _ _ h rfl rfl rfl
  · split at h
    · rename_i hr
      simp only [createSidePots] at hr
      split at h
      · cases h
      · rename_i g3 hg3
        exact hdeal 3 _ _ _ _ hg3 h rfl rfl (by rw [hr]; rfl)
    · rename_i hr
      simp only [createSidePots] at hr
      split at h
      · cases h
      · rename_i g3 hg3
        exact hdeal 1 _ _ _ _ hg3 h rfl rfl (by rw [hr]; rfl)
    · rename_i hr
      simp only [createSidePots] at hr
      split at h
      · cases h
      · rename_i g3 hg3
        exact hdeal 1 _ _ _ _ hg3 h rfl rfl (by rw [hr]; rfl)
    · exact hend _ _ h rfl rfl rfl
    · obtain ⟨s1, s2, s3⟩ := hset _ _ h
      refine ⟨0, [], ?_, by rw [s3]; simp [createSidePots], by rw [s1]; rfl⟩
      rw [s2]
      exact drew_zero _

theorem finishAction_deck (g g1 : PokerGame) (i : Nat) (h : finishAction g i = some g1) :
    ∃ n cs, Drew n g.Deck g1.Deck cs ∧ g1.CommunityCards = g.CommunityCards ++ cs ∧
      streetCards g1.BettingRound = streetCards g.BettingRound + n := by
  unfold finishAction at h
  simp only at h
  split at h
  · exact endBettingRound_deck
      { g with Players := modifyAt g.Players i (fun p => { p with HasActed := true }) } g1 h
  · split at h
    · cases h
    · cases h
      exact ⟨0, [], drew_zero _, by simp, rfl⟩

theorem processAction_deck (g g1 : PokerGame) (playerID : String) (action : ActionType)
    (amount : Int) (h : ProcessAction g playerID action amount = Outcome.ok g1) :
    ∃ n cs, Drew n g.Deck g1.Deck cs ∧ g1.CommunityCards = g.CommunityCards ++ cs ∧
      streetCards g1.BettingRound = streetCards g.BettingRound + n := by
  obtain ⟨cur, mid, hcur, hid, hnf, hna, happ, hfin⟩ := processAction_parts _ _ _ _ _ h
  obtain ⟨a1, _, a3, a4, _⟩ := applyAction_fields happ
  obtain ⟨n, cs, h1, h2, h3⟩ := finishAction_deck _ _ _ hfin
  rw [a4] at h1
  rw [a3] at h2
  rw [a1] at h3
  exact ⟨n, cs, h1, h2, h3⟩

theorem stepRel_dealtRel : StepRel DealtRel where
  same := fun _ => ⟨rfl, rfl, rfl⟩
  chain := fun _ _ _ h1 h2 => ⟨h2.1.trans h1.1, h2.2.1.trans h1.2.1, h2.2.2.trans h1.2.2⟩
  bet := fun _ _ _ => ⟨rfl, rfl, rfl⟩
  acted := fun _ _ => ⟨rfl, rfl, rfl⟩
  street := fun _ => ⟨rfl, rfl, rfl⟩

theorem dealt_forall2 {ps qs : List PokerPlayer} (h : List.Forall₂ DealtRel ps qs) :
    (dealtIn qs).length = (dealtIn ps).length ∧ holeCardsOf qs = holeCardsOf ps := by
  induction h with
  | nil => exact ⟨rfl, rfl⟩
  | cons hpq _ ih =>
    rename_i p q ps1 qs1
    obtain ⟨_, h2, h3⟩ := hpq
    rw [dealtIn_cons, dealtIn_cons, holeCardsOf_cons, holeCardsOf_cons, h2, h3]
    split
    · exact ⟨by simp only [List.length_cons, ih.1], by rw [ih.2]⟩
    · exact ih

theorem processAction_dealt (g g1 : PokerGame) (playerID : String) (action : ActionType)
    (amount : Int) (h : ProcessAction g playerID action amount = Outcome.ok g1) :
    List.Forall₂ DealtRel g.Players g1.Players :=
  (processAction_forall2 stepRel_dealtRel (fun _ => ⟨rfl, rfl, rfl⟩)
    (fun _ _ => ⟨rfl, rfl, rfl⟩) _ _ _ _ _ h).1

theorem deckOk_step (g g1 : PokerGame) (playerID : String) (action : ActionType)
    (amount : Int) (h : ProcessAction g playerID action amount = Outcome.ok g1)
    (hk : DeckOk g) : DeckOk g1 := by
  obtain ⟨n, cs, ⟨d1, d2, d3, d4⟩, hcc, hst⟩ := processAction_deck _ _ _ _ _ h
  obtain ⟨p1, p2⟩ := dealt_forall2 (processAction_dealt _ _ _ _ _ h)
  refine ⟨by rw [d1]; exact hk.cards, ?_, ?_, ?_⟩
  · rw [d2, hk.used, p1, hcc, List.length_append, d4]
    omega
  · rw [hcc, List.length_append, d4, hk.street, hst]
  · unfold handCards
    rw [p2, hcc, d1, d2, List.take_add, ← d3, ← List.append_assoc]
    exact List.Perm.append_right _ hk.dealt

theorem holeCardsOf_reset (l : List PokerPlayer) : holeCardsOf (l.map resetPlayer) = [] := by
  induction l with
  | nil => rfl
  | cons x t ih =>
    rw [List.map_cons, holeCardsOf_cons, ih]
    unfold resetPlayer
    by_cases hx : x.Chips > 0
    · simp [hx]
    · simp [hx]

theorem dealHoleCards_spec (g g1 : PokerGame) (h : dealHoleCards g = some g1) :
    ∃ cs, Drew (2 * (dealtIn g.Players).length) g.Deck g1.Deck cs ∧
      (dealtIn g1.Players).length = (dealtIn g.Players).length ∧
      (holeCardsOf g1.Players).Perm (holeCardsOf g.Players ++ cs) := by
  unfold dealHoleCards at h
  split at h
  · cases h
  · rename_i ps1 d1 h1
    split at h
    · cases h
    · rename_i ps2 d2 h2
      cases h
      obtain ⟨cs1, a1, a2, a3⟩ := dealRound_spec _ _ _ _ h1
      obtain ⟨cs2, b1, b2, b3⟩ := dealRound_spec _ _ _ _ h2
      rw [a2] at b1
      have hd := drew_chain a1 b1
      refine ⟨cs1 ++ cs2, ?_, b2.trans a2, ?_⟩
      · rw [Nat.two_mul]
        exact hd
      · refine b3.trans ?_
        rw [← List.append_assoc]
        exact List.Perm.append_right _ a3

theorem deckOk_start (g0 g : PokerGame) (r : Nat → Nat)
    (h : StartNewHand g0 r = Outcome.ok g) : DeckOk g := by
  obtain ⟨h2, hb⟩ := startNewHand_parts _ _ _ h
  obtain ⟨d, gb, gh, bb2, cur, hd, hgb, hgh, hbb2, hcur, rfl⟩ := beginHand_parts _ _ hb
  obtain ⟨_, hdA⟩ := getNextActivePlayer_finds _ _ _ hd (twoAble_other h2 _)
  have e1 : List.Forall₂ DealtRel (resetForNewHand g0 r).Players gb.Players :=
    postBlinds_forall2 stepRel_dealtRel.same stepRel_dealtRel.chain stepRel_dealtRel.bet
      { resetForNewHand g0 r with DealerIndex := d } gb hgb hdA h2
  obtain ⟨p1, p2⟩ := dealt_forall2 e1
  obtain ⟨_, _, _, _, _, f6, f7, _, _, f10⟩ := postBlinds_fields _ _ hgb
  have hdeck : gb.Deck = NewDeck.Shuffle r := f10
  have hcc : gb.CommunityCards = [] := f7
  have hround : gb.BettingRound = BettingRound.PreFlop := f6
  have hhole : holeCardsOf gb.Players = [] := by
    rw [p2]
    exact holeCardsOf_reset _
  obtain ⟨cs, ⟨c1, c2, c3, c4⟩, hN, hperm⟩ := dealHoleCards_spec _ _ hgh
  have hf := dealHoleCards_fields gb gh hgh
  have hcc1 : gh.CommunityCards = [] := by rw [hf]; exact hcc
  have hround1 : gh.BettingRound = BettingRound.PreFlop := by rw [hf]; exact hround
  have hused : gb.Deck.used = 0 := by rw [hdeck]; rfl
  refine ⟨?_, ?_, ?_, ?_⟩
  · show gh.Deck.cards.Perm NewDeck.cards
    rw [c1, hdeck]
    exact shuffle_perm NewDeck r
  · show gh.Deck.used = 2 * (dealtIn gh.Players).length + gh.CommunityCards.length
    rw [c2, hused, hN, hcc1]
    simp
  · show gh.CommunityCards.length = streetCards gh.BettingRound
    rw [hcc1, hround1]
    rfl
  · show (holeCardsOf gh.Players ++ gh.CommunityCards).Perm (gh.Deck.cards.take gh.Deck.used)
    rw [hcc1, List.append_nil, c1, c2, hused]
    rw [hhole, List.nil_append, c3, hused] at hperm
    simpa using hperm

theorem reached_deckOk (g0 g : PokerGame) (r : Nat → Nat) (h : Reached g0 r g) :
    DeckOk g := by
  induction h with
  | start hs => exact deckOk_start _ _ _ hs
  | step playerID action amount hr hp ih => exact deckOk_step _ _ _ _ _ hp ih

/-! ## The calls return -/

theorem evaluateBestHand_total (cards : List Card) : ∃ b, EvaluateBestHand cards = some b := by
  unfold EvaluateBestHand
  split
  · exact ⟨_, rfl⟩
  · exact bestLoop_total _ _ (fun c hc => ((generateCombinations_mem cards c 5).mp hc).2)

theorem playerHands_total (community : List Card) (l : List PokerPlayer) :
    ∃ phs, playerHands community l = some phs := by
  induction l with
  | nil => exact ⟨[], rfl⟩
  | cons p t ih =>
    obtain ⟨b, hb⟩ := evaluateBestHand_total (p.HoleCards ++ community)
    obtain ⟨rest, hrest⟩ := ih
    simp only [playerHands, hb, hrest]
    exact ⟨_, rfl⟩

theorem bestFold_ge (phs : List (PokerPlayer × HandResult)) (b : Nat) :
    b ≤ phs.foldl (fun best ph => if ph.2.Rank > best then ph.2.Rank else best) b ∧
      ∀ ph ∈ phs, ph.2.Rank ≤
        phs.foldl (fun best ph => if ph.2.Rank > best then ph.2.Rank else best) b := by
  induction phs generalizing b with
  | nil => exact ⟨Nat.le_refl b, fun _ h => by cases h⟩
  | cons x t ih =>
    simp only [List.foldl_cons]
    obtain ⟨h1, h2⟩ := ih (if x.2.Rank > b then x.2.Rank else b)
    have hb : b ≤ (if x.2.Rank > b then x.2.Rank else b) := by
      split
      · rename_i hx
        exact Nat.le_of_lt hx
      · exact Nat.le_refl b
    have hx : x.2.Rank ≤ (if x.2.Rank > b then x.2.Rank else b) := by
      split
      · exact Nat.le_refl _
      · rename_i hx
        exact Nat.le_of_not_lt hx
    refine ⟨Nat.le_trans hb h1, ?_⟩
    intro ph hph
    rcases List.mem_cons.mp hph with rfl | hm
    · exact Nat.le_trans hx h1
    · exact h2 ph hm

theorem bestFold_attained (phs : List (PokerPlayer × HandResult)) (b : Nat) :
    phs.foldl (fun best ph => if ph.2.Rank > best then ph.2.Rank else best) b = b ∨
      ∃ ph ∈ phs, ph.2.Rank =
        phs.foldl (fun best ph => if ph.2.Rank > best then ph.2.Rank else best) b := by
  induction phs generalizing b with
  | nil => exact Or.inl rfl
  | cons x t ih =>
    simp only [List.foldl_cons]
    rcases ih (if x.2.Rank > b then x.2.Rank else b) with h | ⟨ph, hph, h⟩
    · rw [h]
      split
      · exact Or.inr ⟨x, List.mem_cons_self _ _, rfl⟩
      · exact Or.inl rfl
    · exact Or.inr ⟨ph, List.mem_cons_of_mem _ hph, h⟩

theorem winners_nonempty (phs : List (PokerPlayer × HandResult)) (h : phs ≠ []) :
    (phs.filter (fun ph => ph.2.Rank == bestRankOf phs)).length ≠ 0 := by
  have hex : ∃ ph ∈ phs, ph.2.Rank = bestRankOf phs := by
    unfold bestRankOf
    rcases bestFold_attained phs HighCard with h0 | h1
    · obtain ⟨x, hx⟩ := List.exists_mem_of_ne_nil phs h
      refine ⟨x, hx, ?_⟩
      have hle := (bestFold_ge phs HighCard).2 x hx
      rw [h0] at hle ⊢
      exact Nat.le_antisymm hle (Nat.zero_le _)
    · exact h1
  obtain ⟨ph, hph, he⟩ := hex
  have hm : ph ∈ phs.filter (fun ph => ph.2.Rank == bestRankOf phs) :=
    List.mem_filter.mpr ⟨hph, by simp [he]⟩
  intro hl
  rw [List.length_eq_zero] at hl
  rw [hl] at hm
  cases hm

theorem determineWinners_total (g : PokerGame) (hc : contenders g.Players ≠ []) :
    ∃ g1, determineWinners g = some g1 := by
  unfold determineWinners
  simp only
  split
  · exact ⟨_, rfl⟩
  · obtain ⟨phs, hphs⟩ := playerHands_total g.CommunityCards
      (g.Players.filter (fun p => p.IsActive && !p.IsFolded))
    have hne : phs ≠ [] := by
      intro he
      have hf := playerHands_fst _ _ _ hphs
      rw [he] at hf
      exact hc hf.symm
    simp only [hphs, winners_nonempty phs hne, if_false]
    exact ⟨_, rfl⟩

theorem endHand_total (g : PokerGame) (hc : contenders g.Players ≠ []) :
    ∃ g1, endHand g = some g1 := by
  obtain ⟨g2, h2⟩ := determineWinners_total { g with HandComplete := true } hc
  unfold endHand
  simp only [h2]
  exact ⟨_, rfl⟩

theorem setNextPlayer_total (g : PokerGame) (hd : g.DealerIndex < g.Players.length) :
    ∃ g1, setNextPlayer g = some g1 := by
  obtain ⟨k, hk⟩ := getNextActivePlayer_total g.Players g.DealerIndex hd
  unfold setNextPlayer
  simp only [hk]
  exact ⟨_, rfl⟩

theorem contenders_ne_nil {ps qs : List PokerPlayer} (h : List.Forall₂ CoreRel ps qs)
    (hc : contenders ps ≠ []) : contenders qs ≠ [] := by
  intro hq
  have hl := contenders_forall2 h
  rw [hq] at hl
  exact hc (List.length_eq_zero.mp hl.symm)

theorem endBettingRound_total (g : PokerGame)
    (hdeck : g.Deck.used + 3 ≤ g.Deck.cards.length)
    (hd : g.DealerIndex < g.Players.length) (hc : contenders g.Players ≠ []) :
    ∃ g1, endBettingRound g = some g1 := by
  have hf : List.Forall₂ CoreRel g.Players
      (g.Players.map (fun p => { p with CurrentBet := 0, HasActed := false })) :=
    forall2_map _ _ (fun p => stepRel_coreRel.street p)
  have hc1 := contenders_ne_nil hf hc
  have hlen : (g.Players.map (fun p => { p with CurrentBet := 0, HasActed := false })).length
      = g.Players.length := List.length_map _ _
  have hdealt : ∀ (n : Nat) (rd : BettingRound), n ≤ 3 →
      ∃ g1, (match dealCommunity n (createSidePots
          { g with
            Players := g.Players.map (fun p => { p with CurrentBet := 0, HasActed := false }),
            CurrentBet := 0 }) with
        | none => none
        | some g3 => setNextPlayer { g3 with BettingRound := rd }) = some g1 := by
    intro n rd hn
    obtain ⟨g3, hg3⟩ := dealCommunity_total n (createSidePots
      { g with
        Players := g.Players.map (fun p => { p with CurrentBet := 0, HasActed := false }),
        CurrentBet := 0 }) (by
          show g.Deck.used + n ≤ g.Deck.cards.length
          omega)
    obtain ⟨e1, e2, _⟩ := dealCommunity_fields _ _ _ hg3
    simp only [hg3]
    apply setNextPlayer_total
    show g3.DealerIndex < g3.Players.length
    rw [e1, e2]
    show g.DealerIndex < (List.map _ g.Players).length
    rw [List.length_map]
    exact hd
  unfold endBettingRound
  simp only
  split
  · exact endHand_total _ hc1
  · split
    · exact hdealt 3 _ (by omega)
    · exact hdealt 1 _ (by omega)
    · exact hdealt 1 _ (by omega)
    · exact endHand_total _ hc1
    · apply setNextPlayer_total
      show g.DealerIndex < (List.map _ g.Players).length
      rw [List.length_map]
      exact hd

theorem finishAction_total (g : PokerGame) (i : Nat)
    (hdeck : g.Deck.used + 3 ≤ g.Deck.cards.length)
    (hd : g.DealerIndex < g.Players.length) (hcur : g.CurrentIndex < g.Players.length)
    (hc : contenders g.Players ≠ []) :
    ∃ g1, finishAction g i = some g1 := by
  have hf : List.Forall₂ CoreRel g.Players
      (modifyAt g.Players i (fun p => { p with HasActed := true })) :=
    forall2_modifyAt stepRel_coreRel.same _ _ _ (fun p => stepRel_coreRel.acted p true)
  have hlen := hf.length_eq
  unfold finishAction
  simp only
  split
  · apply endBettingRound_total
    · exact hdeck
    · show g.DealerIndex < (modifyAt g.Players i _).length
      rw [← hlen]
      exact hd
    · exact contenders_ne_nil hf hc
  · obtain ⟨k, hk⟩ := getNextActivePlayer_total
      (modifyAt g.Players i (fun p => { p with HasActed := true })) g.CurrentIndex
      (by rw [← hlen]; exact hcur)
    simp only [hk]
    exact ⟨_, rfl⟩

theorem get?_lt {ps : List PokerPlayer} {i : Nat} {p : PokerPlayer} (h : ps.get? i = some p) :
    i < ps.length := by
  rcases Nat.lt_or_ge i ps.length with h1 | h1
  · exact h1
  · rw [List.get?_eq_none.mpr h1] at h
    cases h

theorem processAction_returns (g : PokerGame) (hk : TableOk g)
    (hdeck : g.Deck.used + 3 ≤ g.Deck.cards.length)
    (playerID : String) (action : ActionType) (amount : Int) :
    ProcessAction g playerID action amount ≠ Outcome.panic := by
  obtain ⟨cur, hcur, hcurA⟩ := hk.acting
  unfold ProcessAction
  rw [hcur]
  simp only
  split
  · intro h; cases h
  · split
    · intro h; cases h
    · rename_i hblocked
      have hnf : cur.IsFolded = false := by
        cases hx : cur.IsFolded
        · rfl
        · rw [hx] at hblocked
          simp at hblocked
      have hna : cur.IsAllIn = false := by
        cases hx : cur.IsAllIn
        · rfl
        · rw [hx] at hblocked
          simp at hblocked
      split
      · intro h; cases h
      · rename_i mid happ
        obtain ⟨m1, m2, m3, m4⟩ :=
          tableOk_mid g mid cur playerID action amount hk hcur hnf hna happ
        obtain ⟨_, _, _, a4, _⟩ := applyAction_fields happ
        have hlen := m1.length_eq
        have hc : contenders mid.Players ≠ [] := by
          intro he
          rw [he] at m3
          simp only [List.length_nil] at m3
          rcases m4 with h1 | ⟨h1, _⟩
          · rw [m3] at h1
            omega
          · rw [m3] at h1
            omega
        obtain ⟨dp, hdp, _⟩ := hk.dealer
        obtain ⟨g1, hg1⟩ := finishAction_total mid g.CurrentIndex
          (by rw [a4]; exact hdeck)
          (by rw [m2, ← hlen]; exact get?_lt hdp)
          (by rw [applyAction_CurrentIndex happ, ← hlen]; exact get?_lt hcur) hc
        rw [hg1]
        intro h
        cases h

theorem reached_length (g0 g : PokerGame) (r : Nat → Nat) (h : Reached g0 r g) :
    g.Players.length = g0.Players.length := by
  induction h with
  | start hs =>
    obtain ⟨h2, hb⟩ := startNewHand_parts _ _ _ hs
    obtain ⟨hf, _, _⟩ := beginHand_forall2 stepRel_true.same stepRel_true.chain
      stepRel_true.bet (fun _ _ => trivial) _ _ hb h2
    rw [← hf.length_eq]
    exact List.length_map _ _
  | step playerID action amount hr hp ih =>
    rw [← (processAction_dealt _ _ _ _ _ hp).length_eq]
    exact ih

theorem streetCards_le (rd : BettingRound) : streetCards rd ≤ 5 := by
  cases rd <;> decide

theorem newDeck_length : NewDeck.cards.length = 52 := by decide

theorem newDeck_nodup : NewDeck.cards.Nodup := by decide

/-- C24: in every state of a hand on a table of at most six seats (reached
from a successful `StartNewHand` by accepted actions, also after the hand is
complete) the deck is a permutation of the 52 cards, the cursor stands at
twice the number of players dealt in plus the number of community cards,
which is at most 5, so at most 17 cards were drawn; the cards of the hand
(hole cards of the players dealt in, then the board) are the cards before
the cursor and pairwise distinct; a draw returns the card at the cursor and
moves the cursor by one; and no `ProcessAction` call panics. -/
theorem draws_stay_within_deck (g0 g : PokerGame) (r : Nat → Nat)
    (hseats : g0.Players.length ≤ 6) (h : Reached g0 r g) :
    g.Deck.cards.Perm NewDeck.cards ∧ g.Deck.cards.length = 52 ∧
      (dealtIn g.Players).length ≤ 6 ∧ g.CommunityCards.length ≤ 5 ∧
      g.Deck.used = 2 * (dealtIn g.Players).length + g.CommunityCards.length ∧
      g.Deck.used ≤ 17 ∧
      (handCards g).Perm (g.Deck.cards.take g.Deck.used) ∧ (handCards g).Nodup ∧
      (∃ c, g.Deck.cards.get? g.Deck.used = some c ∧
        g.Deck.Draw = some (c, { g.Deck with used := g.Deck.used + 1 })) ∧
      ∀ (playerID : String) (action : ActionType) (amount : Int),
        ProcessAction g playerID action amount ≠ Outcome.panic := by
  have hd := reached_deckOk g0 g r h
  have hk := reached_tableOk g0 g r h
  have hlen : g.Deck.cards.length = 52 := by
    rw [hd.cards.length_eq]
    exact newDeck_length
  have hN : (dealtIn g.Players).length ≤ 6 := by
    have h1 : (dealtIn g.Players).length ≤ g.Players.length := List.length_filter_le _ _
    rw [reached_length g0 g r h] at h1
    omega
  have hcc : g.CommunityCards.length ≤ 5 := by
    rw [hd.street]
    exact streetCards_le _
  have hu := hd.used
  have hu17 : g.Deck.used ≤ 17 := by omega
  have hnodup : (handCards g).Nodup :=
    hd.dealt.nodup_iff.mpr
      ((hd.cards.nodup_iff.mpr newDeck_nodup).sublist (List.take_sublist _ _))
  have hlt : g.Deck.used < g.Deck.cards.length := by omega
  refine ⟨hd.cards, hlen, hN, hcc, hu, hu17, hd.dealt, hnodup, ?_, ?_⟩
  · refine ⟨g.Deck.cards[g.Deck.used], ?_, ?_⟩
    · rw [List.get?_eq_getElem?, List.getElem?_eq_getElem hlt]
    · unfold Deck.Draw
      have h1 : ¬ g.Deck.used ≥ g.Deck.cards.length := by omega
      simp only [h1, if_false]
      rw [List.get?_eq_getElem?, List.getElem?_eq_getElem hlt]
  · intro playerID action amount
    exact processAction_returns g hk (by omega) playerID action amount

/-- Witness for C24: the heads-up hand at the start of the flop, with seven
cards drawn. -/
theorem draws_stay_within_deck_witness :
    headsUpTable.Players.length ≤ 6 ∧ Reached headsUpTable zeroRand headsUpFlop ∧
      headsUpFlop.Deck.used = 7 ∧ (handCards headsUpFlop).length = 7 ∧
      (handCards headsUpFlop).Nodup :=
  have hs : headsUpTable.Players.length ≤ 6 := by decide
  have hr : Reached headsUpTable zeroRand headsUpFlop :=
    reached_of_run _ _ _ [("a", ActionType.Call, 0), ("b", ActionType.Check, 0)] (by decide)
  ⟨hs, hr, by decide, by decide,
    (draws_stay_within_deck headsUpTable headsUpFlop zeroRand hs hr).2.2.2.2.2.2.2.1⟩

/-! ## The fold that leaves one player -/

theorem processAction_fold (g : PokerGame) (cur : PokerPlayer) (amount : Int)
    (hcur : g.Players.get? g.CurrentIndex = some cur)
    (hcf : cur.IsFolded = false) (hca : cur.IsAllIn = false) :
    ProcessAction g cur.ID ActionType.Fold amount =
      (match finishAction (foldedState g) g.CurrentIndex with
      | none => Outcome.panic
      | some g2 => Outcome.ok g2) := by
  unfold ProcessAction
  rw [hcur]
  simp only [ne_eq, not_true_eq_false, if_false, hcf, hca, Bool.or_self, Bool.false_eq_true,
    applyAction]
  rfl

theorem finishAction_one_left (g : PokerGame) (i : Nat) (hn : g.NumActivePlayers = 1)
    (hc : (contenders g.Players).length = 1) :
    finishAction g i = endHand (streetReset g i) := by
  unfold finishAction
  simp only
  have hcomp : isBettingRoundComplete
      { g with Players := modifyAt g.Players i (fun p => { p with HasActed := true }) }
        = true := by
    unfold isBettingRoundComplete
    simp only [hn, if_true]
  rw [hcomp]
  simp only [if_true]
  unfold endBettingRound
  simp only
  have hf : List.Forall₂ CoreRel g.Players
      ((modifyAt g.Players i (fun p => { p with HasActed := true })).map
        (fun p => { p with CurrentBet := 0, HasActed := false })) :=
    forall2_chain stepRel_coreRel.chain
      (forall2_modifyAt stepRel_coreRel.same _ _ _ (fun p => stepRel_coreRel.acted p true))
      (forall2_map _ _ (fun p => stepRel_coreRel.street p))
  have hend : shouldEndHand (createSidePots
      { g with
        Players := (modifyAt g.Players i (fun p => { p with HasActed := true })).map
          (fun p => { p with CurrentBet := 0, HasActed := false }),
        CurrentBet := 0 }) = true := by
    have hl := contenders_forall2 hf
    unfold contenders at hl hc
    unfold shouldEndHand createSidePots
    simp only [decide_eq_true_eq]
    omega
  rw [hend]
  simp only [if_true]
  rfl

theorem endHand_one_left (g : PokerGame) (w : PokerPlayer) (hc : contenders g.Players = [w]) :
    endHand g = some
      { g with
        HandComplete := true,
        Winners := [{ PlayerID := w.ID, Amount := g.Pot, HandRank := HighCard, BestHand := [] }],
        Players := awardOne g.Players
          { PlayerID := w.ID, Amount := g.Pot, HandRank := HighCard, BestHand := [] } } := by
  unfold contenders at hc
  unfold endHand determineWinners
  simp only [hc]
  rfl

theorem filter_single (P : PokerPlayer → Bool) (l : List PokerPlayer) (j : Nat)
    (w : PokerPlayer) (hw : l.get? j = some w) (hP : P w = true)
    (h1 : (l.filter P).length = 1) : l.filter P = [w] := by
  have hm : w ∈ l.filter P := List.mem_filter.mpr ⟨List.get?_mem hw, hP⟩
  obtain ⟨x, hx⟩ := List.length_eq_one.mp h1
  rw [hx] at hm ⊢
  rw [List.mem_singleton.mp hm]

theorem awardOne_get (ps : List PokerPlayer) (W : Winner) (j : Nat) (p : PokerPlayer)
    (hn : (ps.map (fun q => q.ID)).Nodup) (hj : ps.get? j = some p)
    (hid : p.ID = W.PlayerID) (k : Nat) :
    (awardOne ps W).get? k = (ps.get? k).map
      (fun q => if k = j then { q with Chips := q.Chips + W.Amount } else q) := by
  induction ps generalizing j k with
  | nil => simp at hj
  | cons x t ih =>
    rw [List.map_cons, List.nodup_cons] at hn
    cases j with
    | zero =>
      have hx : x = p := by simpa using hj
      subst hx
      rw [awardOne, if_pos hid]
      cases k with
      | zero => simp
      | succ k1 =>
        simp only [List.get?_cons_succ]
        cases t.get? k1 <;> simp
    | succ j1 =>
      have hj1 : t.get? j1 = some p := by simpa using hj
      have hne : x.ID ≠ W.PlayerID := by
        intro he
        apply hn.1
        rw [he, ← hid]
        exact List.mem_map.mpr ⟨p, List.get?_mem hj1, rfl⟩
      rw [awardOne, if_neg hne]
      cases k with
      | zero => simp
      | succ k1 =>
        simp only [List.get?_cons_succ]
        rw [ih j1 hn.2 hj1 k1]
        cases t.get? k1 <;> simp

theorem ids_forall2 {R : PokerPlayer → PokerPlayer → Prop} (hR : ∀ p q, R p q → q.ID = p.ID)
    {ps qs : List PokerPlayer} (h : List.Forall₂ R ps qs) :
    qs.map (fun q => q.ID) = ps.map (fun q => q.ID) := by
  induction h with
  | nil => rfl
  | cons hpq _ ih =>
    simp only [List.map_cons, ih, hR _ _ hpq]

theorem streetReset_get (g : PokerGame) (i j : Nat) (hj : j ≠ i) :
    (streetReset g i).Players.get? j
      = (g.Players.get? j).map (fun p => { p with CurrentBet := 0, HasActed := false }) := by
  unfold streetReset
  simp only
  rw [List.get?_eq_getElem?, List.getElem?_map, ← List.get?_eq_getElem?,
    get?_modifyAt_ne _ _ _ _ hj]

theorem streetReset_forall2 {R : PokerPlayer → PokerPlayer → Prop} (hr : ∀ p, R p p)
    (ht : ∀ p q r, R p q → R q r → R p r) (hacted : ∀ p b, R p { p with HasActed := b })
    (hstreet : ∀ p, R p { p with CurrentBet := 0, HasActed := false })
    (g : PokerGame) (i : Nat) : List.Forall₂ R g.Players (streetReset g i).Players :=
  forall2_chain ht (forall2_modifyAt hr _ _ _ (fun p => hacted p true))
    (forall2_map _ _ hstreet)

/-- C12, amended: in a hand where exactly two players have not folded (a state reached
from a successful `StartNewHand` by accepted actions, on a table whose
players have different ids), when the acting player `cur`, who is not
all-in, folds, the call is accepted, the hand is complete, `Winners` is the
single entry naming the other player `w` with the whole pot and no cards,
the community cards and the deck are as before (nothing is dealt), and the
chips of `w` grow by the pot while nobody else's chips change. -/
theorem fold_leaves_one_survivor (g0 g : PokerGame) (r : Nat → Nat) (h : Reached g0 r g)
    (hids : (g.Players.map (fun p => p.ID)).Nodup)
    (cur w : PokerPlayer) (j : Nat)
    (hcur : g.Players.get? g.CurrentIndex = some cur)
    (hcf : cur.IsFolded = false) (hca : cur.IsAllIn = false)
    (hj : j ≠ g.CurrentIndex) (hw : g.Players.get? j = some w)
    (hwa : w.IsActive = true) (hwf : w.IsFolded = false)
    (htwo : (contenders g.Players).length = 2) (amount : Int) :
    ∃ g1, ProcessAction g cur.ID ActionType.Fold amount = Outcome.ok g1 ∧
      g1.HandComplete = true ∧
      g1.Winners
        = [{ PlayerID := w.ID, Amount := g.Pot, HandRank := HighCard, BestHand := [] }] ∧
      g1.CommunityCards = g.CommunityCards ∧ g1.Deck = g.Deck ∧ g1.Pot = g.Pot ∧
      ∀ k p, g.Players.get? k = some p → ∃ q, g1.Players.get? k = some q ∧ q.ID = p.ID ∧
        q.Chips = (if k = j then p.Chips + g.Pot else p.Chips) := by
  have hk := reached_tableOk g0 g r h
  have hcurA : cur.IsActive = true := by
    obtain ⟨p, hp, ha⟩ := hk.acting
    rw [hcur] at hp
    cases hp
    exact ha
  have hN : g.NumActivePlayers = 2 := by
    rw [hk.count, htwo]
    rfl
  have hc1 : (contenders (foldedState g).Players).length = 1 := by
    have := contenders_fold g.Players g.CurrentIndex cur hcur hcurA hcf
    show (contenders (modifyAt g.Players g.CurrentIndex
      (fun p => { p with IsFolded := true }))).length = 1
    omega
  have hfin := finishAction_one_left (foldedState g) g.CurrentIndex
    (by show g.NumActivePlayers - 1 = 1; omega) hc1
  have hw1 : (foldedState g).Players.get? j = some w := by
    show (modifyAt g.Players g.CurrentIndex _).get? j = some w
    rw [get?_modifyAt_ne _ _ _ _ hj, hw]
  have hw2 : (streetReset (foldedState g) g.CurrentIndex).Players.get? j
      = some { w with CurrentBet := 0, HasActed := false } := by
    rw [streetReset_get _ _ _ hj, hw1]
    rfl
  have hf12 : List.Forall₂ CoreRel (foldedState g).Players
      (streetReset (foldedState g) g.CurrentIndex).Players :=
    streetReset_forall2 stepRel_coreRel.same stepRel_coreRel.chain stepRel_coreRel.acted
      stepRel_coreRel.street _ _
  have hcont : contenders (streetReset (foldedState g) g.CurrentIndex).Players
      = [{ w with CurrentBet := 0, HasActed := false }] := by
    unfold contenders
    refine filter_single _ _ j _ hw2 (by simp [hwa, hwf]) ?_
    have hl := contenders_forall2 hf12
    unfold contenders at hl hc1
    rw [hl, hc1]
  have hend := endHand_one_left _ _ hcont
  have hpa := processAction_fold g cur amount hcur hcf hca
  rw [hfin, hend] at hpa
  have hC : List.Forall₂ (fun p q => q.ID = p.ID ∧ q.Chips = p.Chips) g.Players
      (streetReset (foldedState g) g.CurrentIndex).Players := by
    refine forall2_chain (fun _ _ _ h1 h2 => ⟨h2.1.trans h1.1, h2.2.trans h1.2⟩) ?_
      (streetReset_forall2 (fun _ => ⟨rfl, rfl⟩)
        (fun _ _ _ h1 h2 => ⟨h2.1.trans h1.1, h2.2.trans h1.2⟩) (fun _ _ => ⟨rfl, rfl⟩)
        (fun _ => ⟨rfl, rfl⟩) _ _)
    show List.Forall₂ _ g.Players (modifyAt g.Players g.CurrentIndex _)
    refine forall2_modifyAt ?_ _ _ _ ?_ <;> intro _ <;> exact ⟨rfl, rfl⟩
  have hn2 : ((streetReset (foldedState g) g.CurrentIndex).Players.map
      (fun q => q.ID)).Nodup := by
    rw [ids_forall2 (fun _ _ hr => hr.1) hC]
    exact hids
  refine ⟨_, hpa, rfl, rfl, rfl, rfl, rfl, ?_⟩
  intro k p hp
  obtain ⟨q, hq, hq1, hq2⟩ := forall2_get hC k p hp
  have hget := awardOne_get (streetReset (foldedState g) g.CurrentIndex).Players
    { PlayerID := w.ID, Amount := g.Pot, HandRank := HighCard, BestHand := [] } j _ hn2 hw2
    rfl k
  rw [hq] at hget
  by_cases hkj : k = j
  · refine ⟨_, hget, ?_, ?_⟩
    · simp only [hkj, if_true]
      exact hq1
    · simp only [hkj, if_true]
      rw [← hq2]
  · refine ⟨_, hget, ?_, ?_⟩
    · simp only [hkj, if_false]
      exact hq1
    · simp only [hkj, if_false]
      exact hq2

/-- Witness for C12: heads-up after the blinds, a folds and b is paid the
pot of 30. -/
theorem fold_leaves_one_survivor_witness :
    Reached headsUpTable zeroRand headsUpStart ∧
      (contenders headsUpStart.Players).length = 2 ∧ headsUpStart.Pot = 30 ∧
      ∃ g1, ProcessAction headsUpStart "a" ActionType.Fold 0 = Outcome.ok g1 ∧
        g1.HandComplete = true ∧
        g1.Winners = [{ PlayerID := "b", Amount := 30, HandRank := HighCard, BestHand := [] }] ∧
        g1.CommunityCards = headsUpStart.CommunityCards ∧ g1.Deck = headsUpStart.Deck ∧
        g1.Pot = headsUpStart.Pot ∧
        ∀ k p, headsUpStart.Players.get? k = some p → ∃ q, g1.Players.get? k = some q ∧
          q.ID = p.ID ∧ q.Chips = (if k = 1 then p.Chips + headsUpStart.Pot else p.Chips) :=
  have hr : Reached headsUpTable zeroRand headsUpStart := Reached.start (by decide)
  ⟨hr, by decide, by decide,
    fold_leaves_one_survivor headsUpTable headsUpStart zeroRand hr (by decide)
      headsUpActing headsUpWaiting 1 (by decide) (by decide) (by decide) (by decide)
      (by decide) (by decide) (by decide) (by decide) 0⟩

/-! ## The option of the big blind -/

theorem isBettingRoundComplete_open (g : PokerGame) (hn : g.NumActivePlayers ≠ 1) (j : Nat)
    (q : PokerPlayer) (hq : g.Players.get? j = some q) (hc : canAct q = true)
    (ha : q.HasActed = false) : isBettingRoundComplete g = false := by
  unfold isBettingRoundComplete
  simp only [hn, if_false]
  rw [Bool.eq_false_iff]
  intro hall
  have hm := List.all_eq_true.mp hall q (List.get?_mem hq)
  unfold canAct at hc
  rw [hc] at hm
  simp only [if_true, ha, Bool.false_and] at hm
  cases hm

theorem processAction_check (g : PokerGame) (cur : PokerPlayer) (amount : Int)
    (hcur : g.Players.get? g.CurrentIndex = some cur)
    (hcf : cur.IsFolded = false) (hca : cur.IsAllIn = false)
    (hbet : ¬ g.CurrentBet > cur.CurrentBet) :
    ProcessAction g cur.ID ActionType.Check amount =
      (match finishAction g g.CurrentIndex with
      | none => Outcome.panic
      | some g2 => Outcome.ok g2) := by
  unfold ProcessAction
  rw [hcur]
  simp only [ne_eq, not_true_eq_false, if_false, hcf, hca, Bool.or_self, Bool.false_eq_true,
    applyAction, hbet]

theorem blindSeats_of_parts (g : PokerGame) (sb bb : Nat) (sbP : PokerPlayer)
    (hsb : getSmallBlindIndex g = some sb) (hsbP : g.Players.get? sb = some sbP)
    (hbb : getBigBlindIndex (sbPosted g sb sbP) = some bb) :
    blindSeats g = some (sb, bb) := by
  unfold sbPosted at hbb
  unfold blindSeats
  simp only [hsb, hsbP, hbb]

theorem hasActed_reset (p : PokerPlayer) (h : (resetPlayer p).IsActive = true) :
    (resetPlayer p).HasActed = false := by
  unfold resetPlayer at h ⊢
  by_cases hc : p.Chips > 0
  · simp only [hc, if_true]
  · simp only [hc, if_false] at h
    cases h

theorem waitRel_bet (a : Int) (p : PokerPlayer) : WaitRel p (betPlayer a p) := ⟨rfl, rfl⟩

theorem startNewHand_blinds (g0 g : PokerGame) (r : Nat → Nat)
    (h : StartNewHand g0 r = Outcome.ok g) :
    g.CurrentBet = g.BigBlind ∧ g.MinRaise = g.BigBlind ∧ g.BigBlind = g0.BigBlind ∧
      g.BettingRound = BettingRound.PreFlop ∧
      (∀ p ∈ g.Players, p.IsActive = true → p.HasActed = false) ∧
      ∃ gd sb bb p, moveDealerButton (resetForNewHand g0 r) = some gd ∧
        blindSeats gd = some (sb, bb) ∧ g.Players.get? bb = some p ∧ p.IsActive = true ∧
        p.HasActed = false := by
  obtain ⟨h2, hb⟩ := startNewHand_parts _ _ _ h
  obtain ⟨f1, f2, f3, _, _, f6, _, _, _⟩ := beginHand_fields _ _ hb
  have hW : List.Forall₂ WaitRel (resetForNewHand g0 r).Players g.Players :=
    (beginHand_forall2 (fun _ => ⟨rfl, rfl⟩)
      (fun _ _ _ h1 h2 => ⟨h2.1.trans h1.1, h2.2.trans h1.2⟩)
      (fun a p _ => waitRel_bet a p) (fun _ _ => ⟨rfl, rfl⟩) _ _ hb h2).1
  have hall : ∀ (n : Nat) (p : PokerPlayer), g.Players.get? n = some p →
      p.IsActive = true → p.HasActed = false := by
    intro n p hn hpa
    obtain ⟨q, hq, hqp⟩ := forall2_get_right hW n p hn
    have hq1 : q ∈ g0.Players.map resetPlayer := List.get?_mem hq
    obtain ⟨q0, _, rfl⟩ := List.mem_map.mp hq1
    rw [hqp.1]
    exact hasActed_reset q0 (by rw [← hqp.2]; exact hpa)
  refine ⟨f1.trans f3.symm, f2.trans f3.symm, f3, f6, ?_, ?_⟩
  · intro p hp
    obtain ⟨n, hn⟩ := List.get?_of_mem hp
    exact hall n p hn
  · obtain ⟨d, gb, gh, bb2, cur, hd, hgb, hgh, hbb2, hcur, rfl⟩ := beginHand_parts _ _ hb
    obtain ⟨sb, sbP, bb, bbP, hsb, hsbP, hbb, hbbP, rfl⟩ := postBlinds_parts _ _ hgb
    obtain ⟨hne, hdA⟩ := getNextActivePlayer_finds _ _ _ hd (twoAble_other h2 _)
    obtain ⟨hne2, hsbA⟩ := getNextActivePlayer_finds _ _ _ hsb (twoAble_other h2 _)
    have hd1 : AbleAt (sbPosted { resetForNewHand g0 r with DealerIndex := d } sb sbP).Players
        (sbPosted { resetForNewHand g0 r with DealerIndex := d } sb sbP).DealerIndex := by
      have hdi : (sbPosted { resetForNewHand g0 r with DealerIndex := d } sb sbP).DealerIndex
          = d := (playerBet_table _ sb _).1
      rw [hdi]
      exact ableAt_playerBet _ (fun hx => hne2 hx.symm) hdA
    have hbbA := getBigBlindIndex_able hbb hd1
    obtain ⟨q1, hq1, hq1c⟩ := hbbA
    have hW1 : List.Forall₂ WaitRel (resetForNewHand g0 r).Players
        (sbPosted { resetForNewHand g0 r with DealerIndex := d } sb sbP).Players :=
      forall2_playerBet (fun _ => ⟨rfl, rfl⟩) (fun a p _ => waitRel_bet a p)
        { resetForNewHand g0 r with DealerIndex := d } sb _
        (fun p hp => able_not_allIn hsbA p hp)
    obtain ⟨q0, hq0, hq01⟩ := forall2_get_right hW1 bb q1 hq1
    obtain ⟨p, hp, hq0p⟩ := forall2_get hW bb q0 hq0
    have hq1A : q1.IsActive = true := by
      unfold canAct at hq1c
      simp only [Bool.and_eq_true, Bool.not_eq_true'] at hq1c
      exact hq1c.1.1
    have hpA : p.IsActive = true := by rw [hq0p.2, ← hq01.2]; exact hq1A
    refine ⟨{ resetForNewHand g0 r with DealerIndex := d }, sb, bb, p, ?_, ?_, hp, hpA,
      hall bb p hp hpA⟩
    · unfold moveDealerButton
      simp only [hd]
    · exact blindSeats_of_parts _ sb bb sbP hsb hsbP hbb

theorem round_open_while_seat_waits (g g1 : PokerGame) (playerID : String)
    (action : ActionType) (amount : Int)
    (h : ProcessAction g playerID action amount = Outcome.ok g1)
    (j : Nat) (q : PokerPlayer) (hj : j ≠ g.CurrentIndex) (hq : g.Players.get? j = some q)
    (hc : canAct q = true) (ha : q.HasActed = false) (h2 : 2 ≤ g1.NumActivePlayers) :
    g1.BettingRound = g.BettingRound ∧ g1.HandComplete = g.HandComplete ∧
      g1.CommunityCards = g.CommunityCards ∧
      ∃ q1, g1.Players.get? j = some q1 ∧ canAct q1 = true ∧ q1.HasActed = false := by
  obtain ⟨cur, mid, hcur, hid, hnf, hna, happ, hfin⟩ := processAction_parts _ _ _ _ _ h
  obtain ⟨a1, a2, a3, _, _⟩ := applyAction_fields happ
  have hmidj : ∃ q1, mid.Players.get? j = some q1 ∧ canAct q1 = true ∧ q1.HasActed = false := by
    rcases applyAction_others happ j hj with h1 | h1
    · exact ⟨q, by rw [h1, hq], hc, ha⟩
    · rw [hq] at h1
      refine ⟨reopenPlayer q, h1, ?_, ?_⟩
      · unfold reopenPlayer
        split
        · exact hc
        · exact hc
      · unfold reopenPlayer
        split
        · rfl
        · exact ha
  obtain ⟨q1, hq1, hq1c, hq1a⟩ := hmidj
  have hN : g1.NumActivePlayers = mid.NumActivePlayers :=
    (finishAction_core mid g1 _ hfin).1.2.2.1
  have hopen : isBettingRoundComplete
      { mid with
        Players := modifyAt mid.Players g.CurrentIndex (fun p => { p with HasActed := true }) }
        = false := by
    refine isBettingRoundComplete_open _ ?_ j q1 ?_ hq1c hq1a
    · show mid.NumActivePlayers ≠ 1
      omega
    · show (modifyAt mid.Players g.CurrentIndex _).get? j = some q1
      rw [get?_modifyAt_ne _ _ _ _ hj, hq1]
  unfold finishAction at hfin
  simp only at hfin
  rw [hopen] at hfin
  simp only [Bool.false_eq_true, if_false] at hfin
  split at hfin
  · cases hfin
  · cases hfin
    refine ⟨a1, a2, a3, q1, ?_, hq1c, hq1a⟩
    show (modifyAt mid.Players g.CurrentIndex _).get? j = some q1
    rw [get?_modifyAt_ne _ _ _ _ hj, hq1]

theorem check_returns (g0 g : PokerGame) (r : Nat → Nat) (hseats : g0.Players.length ≤ 6)
    (h : Reached g0 r g) (cur : PokerPlayer) (amount : Int)
    (hcur : g.Players.get? g.CurrentIndex = some cur)
    (hcf : cur.IsFolded = false) (hca : cur.IsAllIn = false)
    (hbet : g.CurrentBet ≤ cur.CurrentBet) :
    ∃ g1, ProcessAction g cur.ID ActionType.Check amount = Outcome.ok g1 := by
  have hd := reached_deckOk g0 g r h
  have hk := reached_tableOk g0 g r h
  have hlen : g.Deck.cards.length = 52 := by
    rw [hd.cards.length_eq]
    exact newDeck_length
  have hN : (dealtIn g.Players).length ≤ 6 := by
    have h1 : (dealtIn g.Players).length ≤ g.Players.length := List.length_filter_le _ _
    rw [reached_length g0 g r h] at h1
    omega
  have hcc : g.CommunityCards.length ≤ 5 := by
    rw [hd.street]
    exact streetCards_le _
  have hu := hd.used
  obtain ⟨dp, hdp, _⟩ := hk.dealer
  obtain ⟨ap, hap, hapA⟩ := hk.acting
  rw [hcur] at hap
  cases hap
  have hc : contenders g.Players ≠ [] := by
    intro he
    have hm : cur ∈ contenders g.Players :=
      List.mem_filter.mpr ⟨List.get?_mem hcur, by simp [hapA, hcf]⟩
    rw [he] at hm
    cases hm
  obtain ⟨g1, hg1⟩ := finishAction_total g g.CurrentIndex (by omega) (get?_lt hdp)
    (get?_lt hcur) hc
  refine ⟨g1, ?_⟩
  rw [processAction_check g cur amount hcur hcf hca (by omega), hg1]

/-- C20: after a successful `StartNewHand` (on a table of at most six seats)
the current bet and the minimum raise are the big blind and the player at
the seat `postBlinds` charges the big blind has `HasActed` false; whenever an
accepted action leaves two or more players in and another seat holds a
player able to act who has not acted (as the big blind before the flop), the
betting round is not closed: street, board and completion flag stay and that
player is still waiting; and in every state of the hand a `Check` of the
acting player is accepted (the call returns a state) when the table's
current bet does not exceed that player's street bet. On two seats with
blinds 10 and 20 and stacks of 1000 the first player calls, the big blind
checks, and the state is on the flop with three community cards, a pot of
40 and the hand not complete. -/
theorem big_blind_option (g0 g : PokerGame) (r : Nat → Nat) (hseats : g0.Players.length ≤ 6)
    (hs : StartNewHand g0 r = Outcome.ok g) :
    (g.CurrentBet = g.BigBlind ∧ g.MinRaise = g.BigBlind ∧
      g.BettingRound = BettingRound.PreFlop ∧
      ∃ gd sb bb p, moveDealerButton (resetForNewHand g0 r) = some gd ∧
        blindSeats gd = some (sb, bb) ∧ g.Players.get? bb = some p ∧ p.IsActive = true ∧
        p.HasActed = false) ∧
    (∀ (gx g1 : PokerGame) (playerID : String) (action : ActionType) (amount : Int)
        (j : Nat) (q : PokerPlayer),
      ProcessAction gx playerID action amount = Outcome.ok g1 → j ≠ gx.CurrentIndex →
      gx.Players.get? j = some q → canAct q = true → q.HasActed = false →
      2 ≤ g1.NumActivePlayers →
      g1.BettingRound = gx.BettingRound ∧ g1.HandComplete = gx.HandComplete ∧
        g1.CommunityCards = gx.CommunityCards ∧
        ∃ q1, g1.Players.get? j = some q1 ∧ canAct q1 = true ∧ q1.HasActed = false) ∧
    (∀ (gx : PokerGame) (cur : PokerPlayer) (amount : Int), Reached g0 r gx →
      gx.Players.get? gx.CurrentIndex = some cur → cur.IsFolded = false →
      cur.IsAllIn = false → gx.CurrentBet ≤ cur.CurrentBet →
      ∃ g1, ProcessAction gx cur.ID ActionType.Check amount = Outcome.ok g1) ∧
    (headsUpStart.Players.map (fun p => (p.ID, p.CurrentBet, p.HasActed))
        = [("a", 10, false), ("b", 20, false)] ∧
      headsUpStart.CurrentIndex = 0 ∧
      runActions (StartNewHand headsUpTable zeroRand)
        [("a", ActionType.Call, 0), ("b", ActionType.Check, 0)] = Outcome.ok headsUpFlop ∧
      headsUpFlop.BettingRound = BettingRound.Flop ∧
      headsUpFlop.CommunityCards.length = 3 ∧ headsUpFlop.Pot = 40 ∧
      headsUpFlop.HandComplete = false) := by
  obtain ⟨b1, b2, _, b4, _, b6⟩ := startNewHand_blinds g0 g r hs
  refine ⟨⟨b1, b2, b4, b6⟩, ?_, ?_, ⟨by rfl, by decide, by decide, by decide, by decide,
    by decide, by decide⟩⟩
  · intro gx g1 playerID action amount j q hp hj hq hc ha h2
    exact round_open_while_seat_waits gx g1 playerID action amount hp j q hj hq hc ha h2
  · intro gx cur amount hr hcur hcf hca hbet
    exact check_returns g0 gx r hseats hr cur amount hcur hcf hca hbet

/-- Witness for C20: the heads-up hand; after the call of a the big blind b,
who has not acted, is still to act before the flop, and the check of b is
accepted. -/
theorem big_blind_option_witness :
    headsUpTable.Players.length ≤ 6 ∧
      StartNewHand headsUpTable zeroRand = Outcome.ok headsUpStart ∧
      headsUpStart.CurrentBet = 20 ∧ headsUpStart.MinRaise = 20 ∧
      ProcessAction headsUpStart "a" ActionType.Call 0 = Outcome.ok headsUpCalled ∧
      headsUpCalled.BettingRound = BettingRound.PreFlop ∧
      headsUpCalled.CommunityCards = [] ∧
      headsUpCalled.Players.get? headsUpCalled.CurrentIndex = some headsUpWaiting ∧
      (∃ g1, ProcessAction headsUpCalled "b" ActionType.Check 0 = Outcome.ok g1) :=
  have hseats : headsUpTable.Players.length ≤ 6 := by decide
  have hs : StartNewHand headsUpTable zeroRand = Outcome.ok headsUpStart := by decide
  have hcall : ProcessAction headsUpStart "a" ActionType.Call 0 = Outcome.ok headsUpCalled := by
    decide
  have hcur : headsUpCalled.Players.get? headsUpCalled.CurrentIndex = some headsUpWaiting := by
    decide
  have h := big_blind_option headsUpTable headsUpStart zeroRand hseats hs
  ⟨hseats, hs, by decide, by decide, hcall, by decide, by decide, hcur,
    h.2.2.1 headsUpCalled headsUpWaiting 0
      (Reached.step "a" ActionType.Call 0 (Reached.start hs) hcall) hcur (by decide)
      (by decide) (by decide)⟩

/-! ## The turn order with two players -/

theorem onlySeats_able {ps : List PokerPlayer} {i j k : Nat} (h : OnlySeats ps i j)
    (hk : AbleAt ps k) : k = i ∨ k = j := by
  obtain ⟨p, hp, ha⟩ := seatedAt_of_able hk
  exact h k p hp ha

theorem onlySeats_swap {ps : List PokerPlayer} {i j : Nat} (h : OnlySeats ps i j) :
    OnlySeats ps j i := fun k p hp ha => (h k p hp ha).symm

theorem onlySeats_forall2 {ps qs : List PokerPlayer} {i j : Nat}
    (h : List.Forall₂ ActiveRel ps qs) (ho : OnlySeats ps i j) : OnlySeats qs i j := by
  intro k q hq ha
  obtain ⟨p, hp, hr⟩ := forall2_get_right h k q hq
  exact ho k p hp (by rw [← hr]; exact ha)

/-- With only the seats `x` and `y` in the hand and `y` able to act, the
turn passes from `x` to `y`. -/
theorem next_other {ps : List PokerPlayer} {x y k : Nat} (ho : OnlySeats ps x y)
    (hxy : x ≠ y) (hy : AbleAt ps y) (h : getNextActivePlayer ps x = some k) : k = y := by
  obtain ⟨hne, hk⟩ := getNextActivePlayer_finds _ _ _ h
    (by obtain ⟨q, hq, hc⟩ := hy; exact ⟨y, q, fun he => hxy he.symm, hq, hc⟩)
  rcases onlySeats_able ho hk with h1 | h1
  · exact absurd h1 hne
  · exact h1

/-- With only the seats `x` and `y` in the hand and `x` able to act, two
passes of the turn from `x` come back to `x`. -/
theorem next_next_self {ps : List PokerPlayer} {x y k c : Nat} (ho : OnlySeats ps x y)
    (hxy : x ≠ y) (hx : AbleAt ps x) (h1 : getNextActivePlayer ps x = some k)
    (h2 : getNextActivePlayer ps k = some c) : c = x := by
  have hk : k = x ∨ k = y := by
    rcases getNextActivePlayer_sound _ _ _ h1 with h3 | h3
    · exact Or.inl h3
    · exact onlySeats_able ho h3
  rcases hk with hk | hk
  · rw [hk] at h2
    rw [h1] at h2
    cases h2
    exact hk
  · rw [hk] at h2
    exact next_other (onlySeats_swap ho) (fun he => hxy he.symm) hx h2

theorem stepRel_activeRel : StepRel ActiveRel where
  same := fun _ => rfl
  chain := fun _ _ _ h1 h2 => h2.trans h1
  bet := fun _ _ _ => rfl
  acted := fun _ _ => rfl
  street := fun _ => rfl

theorem headsUp_core (gr gb gh : PokerGame) (x y bb2 cur : Nat)
    (ho : OnlySeats gr.Players x y) (hxy : x ≠ y) (hx : AbleAt gr.Players x)
    (hy : AbleAt gr.Players y)
    (hgb : postBlinds { gr with DealerIndex := x } = some gb)
    (hgh : dealHoleCards gb = some gh) (hbb2 : getBigBlindIndex gh = some bb2)
    (hcur : getNextActivePlayer gh.Players bb2 = some cur) :
    blindSeats { gr with DealerIndex := x } = some (y, x) ∧ gh.DealerIndex = x ∧
      OnlySeats gh.Players x y ∧ (AbleAt gh.Players y → cur = y) := by
  have h2 : TwoAble gr.Players := ⟨x, y, hxy, hx, hy⟩
  obtain ⟨sb, sbP, bb, bbP, hsb, hsbP, hbb, hbbP, hgbe⟩ := postBlinds_parts _ _ hgb
  have hsby : sb = y := next_other ho hxy hy hsb
  subst hsby
  have hA1 : List.Forall₂ ActiveRel gr.Players
      (sbPosted { gr with DealerIndex := x } sb sbP).Players :=
    forall2_playerBet stepRel_activeRel.same stepRel_activeRel.bet
      { gr with DealerIndex := x } sb _ (fun p hp => able_not_allIn hy p hp)
  have ho1 := onlySeats_forall2 hA1 ho
  have hdi : (sbPosted { gr with DealerIndex := x } sb sbP).DealerIndex = x :=
    (playerBet_table _ sb _).1
  have hx1 : AbleAt (sbPosted { gr with DealerIndex := x } sb sbP).Players x :=
    ableAt_playerBet _ hxy hx
  have hbbx : bb = x := by
    have hbb1 := hbb
    unfold getBigBlindIndex getSmallBlindIndex at hbb1
    split at hbb1
    · cases hbb1
    · rename_i s1 hs1
      rw [hdi] at hs1
      exact next_next_self ho1 hxy hx1 hs1 hbb1
  rw [hbbx] at hbb
  have hAb : List.Forall₂ ActiveRel gr.Players gb.Players :=
    postBlinds_forall2 stepRel_activeRel.same stepRel_activeRel.chain stepRel_activeRel.bet
      { gr with DealerIndex := x } gb hgb hx h2
  have hAh : List.Forall₂ ActiveRel gb.Players gh.Players :=
    dealHoleCards_forall2 stepRel_activeRel.same stepRel_activeRel.chain (fun _ _ => rfl)
      gb gh hgh
  have hoh := onlySeats_forall2 hAh (onlySeats_forall2 hAb ho)
  have hdh : gh.DealerIndex = x := by
    rw [dealHoleCards_fields gb gh hgh]
    exact (postBlinds_fields _ _ hgb).2.2.2.2.2.2.2.2.1
  refine ⟨blindSeats_of_parts _ sb x sbP hsb hsbP hbb, hdh, hoh, ?_⟩
  intro hyh
  unfold getBigBlindIndex getSmallBlindIndex at hbb2
  split at hbb2
  · cases hbb2
  · rename_i s2 hs2
    rw [hdh] at hs2
    have hs2y : s2 = sb := next_other hoh hxy hyh hs2
    rw [hs2y] at hbb2
    exact next_next_self (onlySeats_swap hoh) (fun he => hxy he.symm) hyh hbb2 hcur

theorem endBettingRound_next (g g1 : PokerGame) (h : endBettingRound g = some g1)
    (hr : g1.BettingRound ≠ g.BettingRound) :
    getNextActivePlayer g1.Players g1.DealerIndex = some g1.CurrentIndex := by
  have hset : ∀ (ga gb : PokerGame), setNextPlayer ga = some gb →
      getNextActivePlayer gb.Players gb.DealerIndex = some gb.CurrentIndex := by
    intro ga gb hs
    unfold setNextPlayer at hs
    split at hs
    · cases hs
    · rename_i k hk
      cases hs
      exact hk
  unfold endBettingRound at h
  simp only at h
  split at h
  · exact absurd (endHand_fields _ _ h).1 hr
  · split at h
    · split at h
      · cases h
      · exact hset _ _ h
    · split at h
      · cases h
      · exact hset _ _ h
    · split at h
      · cases h
      · exact hset _ _ h
    · exact absurd (endHand_fields _ _ h).1 hr
    · exact hset _ _ h

theorem street_start_next (g g1 : PokerGame) (playerID : String) (action : ActionType)
    (amount : Int) (h : ProcessAction g playerID action amount = Outcome.ok g1)
    (hr : g1.BettingRound ≠ g.BettingRound) :
    getNextActivePlayer g1.Players g1.DealerIndex = some g1.CurrentIndex := by
  obtain ⟨cur, mid, hcur, hid, hnf, hna, happ, hfin⟩ := processAction_parts _ _ _ _ _ h
  obtain ⟨a1, _, _, _, _⟩ := applyAction_fields happ
  unfold finishAction at hfin
  simp only at hfin
  split at hfin
  · exact endBettingRound_next _ g1 hfin (fun he => hr (he.trans a1))
  · split at hfin
    · cases hfin
    · cases hfin
      exact absurd a1 hr

theorem reached_active (g0 g gx : PokerGame) (r : Nat → Nat)
    (hs : StartNewHand g0 r = Outcome.ok g) (h : Reached g0 r gx) :
    List.Forall₂ ActiveRel g.Players gx.Players ∧ gx.DealerIndex = g.DealerIndex := by
  induction h with
  | start hs1 =>
    rw [hs] at hs1
    cases hs1
    exact ⟨(Evolves.same stepRel_activeRel g).1, rfl⟩
  | step playerID action amount hr hp ih =>
    obtain ⟨f1, f2, _, _⟩ := processAction_forall2 stepRel_activeRel (fun _ => rfl)
      (fun _ _ => rfl) _ _ _ _ _ hp
    exact ⟨forall2_chain stepRel_activeRel.chain ih.1 f1, f2.trans ih.2⟩

theorem ableAt_reset (g0 : PokerGame) (r : Nat → Nat) (i : Nat) (p : PokerPlayer)
    (hi : g0.Players.get? i = some p) (hc : p.Chips > 0) :
    AbleAt (resetForNewHand g0 r).Players i := by
  refine ⟨resetPlayer p, ?_, ?_⟩
  · show (g0.Players.map resetPlayer).get? i = some (resetPlayer p)
    rw [List.get?_eq_getElem?, List.getElem?_map, ← List.get?_eq_getElem?, hi]
    rfl
  · rw [canAct_resetPlayer]
    exact decide_eq_true hc

theorem onlySeats_reset (g0 : PokerGame) (r : Nat → Nat) (i j : Nat)
    (honly : ∀ k p, g0.Players.get? k = some p → p.Chips > 0 → k = i ∨ k = j) :
    OnlySeats (resetForNewHand g0 r).Players i j := by
  intro k q hq ha
  have hq1 : (g0.Players.map resetPlayer).get? k = some q := hq
  rw [List.get?_eq_getElem?, List.getElem?_map, ← List.get?_eq_getElem?] at hq1
  cases hp : g0.Players.get? k with
  | none =>
    rw [hp] at hq1
    cases hq1
  | some p =>
    rw [hp] at hq1
    have hqe : resetPlayer p = q := by simpa using hq1
    refine honly k p hp ?_
    by_contra hc
    rw [← hqe] at ha
    unfold resetPlayer at ha
    simp only [hc, if_false] at ha
    cases ha

/-- C21, as stated, fails on the heads-up table with blinds 10 and 20: after
`StartNewHand` the dealer is seat 1, the small blind is charged to seat 0
and the big blind to the dealer, and seat 0, not the dealer, is the first to
act before the flop (and again on the flop). -/
theorem heads_up_dealer_posts_big_blind :
    StartNewHand headsUpTable zeroRand = Outcome.ok headsUpStart ∧
      headsUpStart.DealerIndex = 1 ∧
      moveDealerButton (resetForNewHand headsUpTable zeroRand)
        = some { resetForNewHand headsUpTable zeroRand with DealerIndex := 1 } ∧
      blindSeats { resetForNewHand headsUpTable zeroRand with DealerIndex := 1 }
        = some (0, 1) ∧
      headsUpStart.Players.map (fun p => (p.ID, p.CurrentBet)) = [("a", 10), ("b", 20)] ∧
      headsUpStart.CurrentIndex = 0 ∧
      headsUpFlop.BettingRound = BettingRound.Flop ∧ headsUpFlop.DealerIndex = 1 ∧
      headsUpFlop.CurrentIndex = 0 :=
  ⟨by decide, by decide, by decide, by decide, by rfl, by decide, by decide, by decide,
    by decide⟩

/-- C21, amended: in every hand started with exactly two players that have
chips (seats `i` and `j`), the dealer is one of the two and is charged the
big blind, the other one is charged the small blind; the non-dealer is the
first to act before the flop when able to act (not put all-in by the blind),
and at the start of every later street the button has not moved and the
non-dealer, when able to act, is the first to act, so that the dealer acts
last after the flop. -/
theorem heads_up_non_dealer_acts_first (g0 g : PokerGame) (r : Nat → Nat) (i j : Nat)
    (pi pj : PokerPlayer) (hs : StartNewHand g0 r = Outcome.ok g) (hij : i ≠ j)
    (hi : g0.Players.get? i = some pi) (hic : pi.Chips > 0)
    (hj : g0.Players.get? j = some pj) (hjc : pj.Chips > 0)
    (honly : ∀ k p, g0.Players.get? k = some p → p.Chips > 0 → k = i ∨ k = j) :
    ∃ sb, ((g.DealerIndex = i ∧ sb = j) ∨ (g.DealerIndex = j ∧ sb = i)) ∧
      moveDealerButton (resetForNewHand g0 r)
        = some { resetForNewHand g0 r with DealerIndex := g.DealerIndex } ∧
      blindSeats { resetForNewHand g0 r with DealerIndex := g.DealerIndex }
        = some (sb, g.DealerIndex) ∧
      (AbleAt g.Players sb → g.CurrentIndex = sb) ∧
      ∀ (gx g1 : PokerGame) (playerID : String) (action : ActionType) (amount : Int),
        Reached g0 r gx → ProcessAction gx playerID action amount = Outcome.ok g1 →
        g1.BettingRound ≠ gx.BettingRound → AbleAt g1.Players sb →
        g1.DealerIndex = g.DealerIndex ∧ g1.CurrentIndex = sb := by
  obtain ⟨h2, hb⟩ := startNewHand_parts _ _ _ hs
  obtain ⟨d, gb, gh, bb2, cur, hd, hgb, hgh, hbb2, hcur, rfl⟩ := beginHand_parts _ _ hb
  have hAi := ableAt_reset g0 r i pi hi hic
  have hAj := ableAt_reset g0 r j pj hj hjc
  have ho := onlySeats_reset g0 r i j honly
  obtain ⟨_, hdA⟩ := getNextActivePlayer_finds _ _ _ hd (twoAble_other h2 _)
  have hmove : moveDealerButton (resetForNewHand g0 r)
      = some { resetForNewHand g0 r with DealerIndex := d } := by
    unfold moveDealerButton
    simp only [hd]
  -- the claim for the dealer `x` and the other seat `y`
  have key : ∀ x y : Nat, d = x → x ≠ y → OnlySeats (resetForNewHand g0 r).Players x y →
      AbleAt (resetForNewHand g0 r).Players x → AbleAt (resetForNewHand g0 r).Players y →
      gh.DealerIndex = x ∧
      blindSeats { resetForNewHand g0 r with DealerIndex := x } = some (y, x) ∧
      (AbleAt gh.Players y → cur = y) ∧
      ∀ (gx g1 : PokerGame) (playerID : String) (action : ActionType) (amount : Int),
        Reached g0 r gx → ProcessAction gx playerID action amount = Outcome.ok g1 →
        g1.BettingRound ≠ gx.BettingRound → AbleAt g1.Players y →
        g1.DealerIndex = x ∧ g1.CurrentIndex = y := by
    intro x y hdx hxy hoxy hx hy
    subst hdx
    obtain ⟨c1, c2, c3, c4⟩ := headsUp_core _ gb gh d y bb2 cur hoxy hxy hx hy hgb hgh hbb2 hcur
    refine ⟨c2, c1, c4, ?_⟩
    intro gx g1 playerID action amount hrx hp hround hy1
    have hr1 : Reached g0 r g1 := Reached.step playerID action amount hrx hp
    obtain ⟨f1, f2⟩ := reached_active g0 { gh with CurrentIndex := cur } g1 r hs hr1
    have hdi : g1.DealerIndex = d := f2.trans c2
    have ho1 : OnlySeats g1.Players d y := onlySeats_forall2 f1 c3
    have hnext := street_start_next gx g1 playerID action amount hp hround
    rw [hdi] at hnext
    exact ⟨hdi, next_other ho1 hxy hy1 hnext⟩
  rcases onlySeats_able ho hdA with hdi | hdj
  · obtain ⟨k1, k2, k3, k4⟩ := key i j hdi hij ho hAi hAj
    refine ⟨j, Or.inl ⟨k1, rfl⟩, ?_, ?_, k3, ?_⟩
    · show moveDealerButton _ = some { resetForNewHand g0 r with DealerIndex := gh.DealerIndex }
      rw [k1, ← hdi]
      exact hmove
    · show blindSeats { resetForNewHand g0 r with DealerIndex := gh.DealerIndex }
        = some (j, gh.DealerIndex)
      rw [k1]
      exact k2
    · intro gx g1 playerID action amount hrx hp hround hy1
      obtain ⟨e1, e2⟩ := k4 gx g1 playerID action amount hrx hp hround hy1
      exact ⟨e1.trans k1.symm, e2⟩
  · obtain ⟨k1, k2, k3, k4⟩ := key j i hdj (fun he => hij he.symm) (onlySeats_swap ho) hAj hAi
    refine ⟨i, Or.inr ⟨k1, rfl⟩, ?_, ?_, k3, ?_⟩
    · show moveDealerButton _ = some { resetForNewHand g0 r with DealerIndex := gh.DealerIndex }
      rw [k1, ← hdj]
      exact hmove
    · show blindSeats { resetForNewHand g0 r with DealerIndex := gh.DealerIndex }
        = some (i, gh.DealerIndex)
      rw [k1]
      exact k2
    · intro gx g1 playerID action amount hrx hp hround hy1
      obtain ⟨e1, e2⟩ := k4 gx g1 playerID action amount hrx hp hround hy1
      exact ⟨e1.trans k1.symm, e2⟩

/-- Witness for C21 amended: the heads-up table with stacks of 1000. -/
theorem heads_up_non_dealer_acts_first_witness :
    StartNewHand headsUpTable zeroRand = Outcome.ok headsUpStart ∧
      headsUpTable.Players = [headsUpSeatA, headsUpSeatB] ∧
      ∃ sb, ((headsUpStart.DealerIndex = 0 ∧ sb = 1) ∨
          (headsUpStart.DealerIndex = 1 ∧ sb = 0)) ∧
        moveDealerButton (resetForNewHand headsUpTable zeroRand)
          = some { resetForNewHand headsUpTable zeroRand with
                   DealerIndex := headsUpStart.DealerIndex } ∧
        blindSeats { resetForNewHand headsUpTable zeroRand with
                     DealerIndex := headsUpStart.DealerIndex }
          = some (sb, headsUpStart.DealerIndex) ∧
        (AbleAt headsUpStart.Players sb → headsUpStart.CurrentIndex = sb) ∧
        ∀ (gx g1 : PokerGame) (playerID : String) (action : ActionType) (amount : Int),
          Reached headsUpTable zeroRand gx →
          ProcessAction gx playerID action amount = Outcome.ok g1 →
          g1.BettingRound ≠ gx.BettingRound → AbleAt g1.Players sb →
          g1.DealerIndex = headsUpStart.DealerIndex ∧ g1.CurrentIndex = sb :=
  have hs : StartNewHand headsUpTable zeroRand = Outcome.ok headsUpStart := by decide
  have hps : headsUpTable.Players = [headsUpSeatA, headsUpSeatB] := by decide
  ⟨hs, hps,
    heads_up_non_dealer_acts_first headsUpTable headsUpStart zeroRand 0 1 headsUpSeatA
      headsUpSeatB hs (by decide) (by decide) (by decide) (by decide) (by decide)
      (fun k p hk _ => by
        have hlt := get?_lt hk
        have hl : headsUpTable.Players.length = 2 := by decide
        omega)⟩

/-! ## The lexicographic order on rank lists -/

theorem keyLt_irrefl (a : List Nat) : keyLt a a = false := by
  induction a with
  | nil => rfl
  | cons x t ih => simp [keyLt, ih]

theorem keyLt_cons (x y : Nat) (s t : List Nat) :
    keyLt (x :: s) (y :: t) = true ↔ x < y ∨ (x = y ∧ keyLt s t = true) := by
  simp only [keyLt]
  by_cases h1 : x < y
  · simp [h1]
  · by_cases h2 : y < x
    · have h3 : x ≠ y := by omega
      simp [h1, h2, h3]
    · have h3 : x = y := by omega
      simp [h1, h2, h3]

theorem keyLt_trans {a b c : List Nat} (h1 : keyLt a b = true) (h2 : keyLt b c = true) :
    keyLt a c = true := by
  induction a generalizing b c with
  | nil =>
    cases b with
    | nil => simp [keyLt] at h1
    | cons y t =>
      cases c with
      | nil => simp [keyLt] at h2
      | cons z u => rfl
  | cons x s ih =>
    cases b with
    | nil => simp [keyLt] at h1
    | cons y t =>
      cases c with
      | nil => simp [keyLt] at h2
      | cons z u =>
        rw [keyLt_cons] at h1 h2 ⊢
        rcases h1 with h1 | ⟨h1, h1t⟩
        · rcases h2 with h2 | ⟨h2, _⟩
          · exact Or.inl (by omega)
          · exact Or.inl (by omega)
        · rcases h2 with h2 | ⟨h2, h2t⟩
          · exact Or.inl (by omega)
          · exact Or.inr ⟨by omega, ih h1t h2t⟩

theorem keyLt_total {a b : List Nat} (hl : a.length = b.length) (hne : a ≠ b) :
    keyLt a b = true ∨ keyLt b a = true := by
  induction a generalizing b with
  | nil =>
    cases b with
    | nil => exact absurd rfl hne
    | cons y t => simp at hl
  | cons x s ih =>
    cases b with
    | nil => simp at hl
    | cons y t =>
      rw [keyLt_cons, keyLt_cons]
      rcases Nat.lt_trichotomy x y with h | h | h
      · exact Or.inl (Or.inl h)
      · subst h
        have hst : s ≠ t := fun he => hne (by rw [he])
        rcases ih (by simpa using hl) hst with h1 | h1
        · exact Or.inl (Or.inr ⟨rfl, h1⟩)
        · exact Or.inr (Or.inr ⟨rfl, h1⟩)
      · exact Or.inr (Or.inl h)

theorem keyLt_asymm {a b : List Nat} (h1 : keyLt a b = true) : keyLt b a = false := by
  cases h2 : keyLt b a
  · rfl
  · have := keyLt_trans h1 h2
    rw [keyLt_irrefl] at this
    cases this

theorem keyLt_append {a a1 b b1 : List Nat} (hl : a.length = a1.length)
    (h : keyLt (a ++ b) (a1 ++ b1) = true) :
    keyLt a a1 = true ∨ (a = a1 ∧ keyLt b b1 = true) := by
  induction a generalizing a1 with
  | nil =>
    cases a1 with
    | nil => exact Or.inr ⟨rfl, h⟩
    | cons y t => simp at hl
  | cons x s ih =>
    cases a1 with
    | nil => simp at hl
    | cons y t =>
      simp only [List.cons_append] at h
      rw [keyLt_cons] at h ⊢
      rcases h with h | ⟨h, ht⟩
      · exact Or.inl (Or.inl h)
      · rcases ih (by simpa using hl) ht with h1 | ⟨h1, h2⟩
        · exact Or.inl (Or.inr ⟨h, h1⟩)
        · exact Or.inr ⟨by rw [h, h1], h2⟩

theorem keyLt_append_left {a b c : List Nat} (h : keyLt b c = true) :
    keyLt (a ++ b) (a ++ c) = true := by
  induction a with
  | nil => exact h
  | cons x t ih =>
    simp only [List.cons_append]
    rw [keyLt_cons]
    exact Or.inr ⟨rfl, ih⟩

/-- The comparison of `compareHands` decides by the first position where the
ranks differ. -/
theorem compareCards_pos {x y : List Card} (h : compareCards x y > 0) :
    keyLt (ranksOf y) (ranksOf x) = true := by
  induction x generalizing y with
  | nil => simp [compareCards] at h
  | cons a s ih =>
    cases y with
    | nil => simp [compareCards] at h
    | cons b t =>
      simp only [compareCards] at h
      show keyLt (b.Rank :: ranksOf t) (a.Rank :: ranksOf s) = true
      rw [keyLt_cons]
      split at h
      · rename_i hab
        exact Or.inl hab
      · split at h
        · simp at h
        · rename_i h1 h2
          exact Or.inr ⟨Nat.le_antisymm (Nat.le_of_not_lt h2) (Nat.le_of_not_lt h1), ih h⟩

theorem compareCards_of_keyLt {x y : List Card} (hl : x.length = y.length)
    (h : keyLt (ranksOf y) (ranksOf x) = true) : compareCards x y > 0 := by
  induction x generalizing y with
  | nil =>
    cases y with
    | nil => simp [ranksOf, keyLt] at h
    | cons b t => simp at hl
  | cons a s ih =>
    cases y with
    | nil => simp at hl
    | cons b t =>
      have h1 : keyLt (b.Rank :: ranksOf t) (a.Rank :: ranksOf s) = true := h
      rw [keyLt_cons] at h1
      simp only [compareCards]
      rcases h1 with h1 | ⟨h1, h2⟩
      · have h3 : a.Rank > b.Rank := h1
        simp [h3]
      · have h3 : ¬ a.Rank > b.Rank := by
          show ¬ b.Rank < a.Rank
          rw [h1]
          exact Nat.lt_irrefl _
        have h4 : ¬ a.Rank < b.Rank := by
          rw [h1]
          exact Nat.lt_irrefl _
        simp only [h3, h4, if_false]
        exact ih (by simpa using hl) h2

theorem evaluateFiveCards_length (c : List Card) (r : HandResult)
    (h : evaluateFiveCards c = some r) : c.length = 5 ∧ r.Cards.length = 5 := by
  have h5 : c.length = 5 := by
    by_contra hne
    unfold evaluateFiveCards at h
    simp only [ne_eq, hne, not_false_eq_true, if_true] at h
    cases h
  exact ⟨h5, by rw [(evaluateFiveCards_order c h5 r h).1.length_eq, h5]⟩

/-- The loop of `EvaluateBestHand` ends on a result that no result of its own
category beats in the comparison of `compareHands`. -/
theorem bestLoop_max (best h : HandResult) (combos : List (List Card))
    (hinv : best.Cards.length = 5 ∨ best.Rank = 0)
    (hb : bestLoop best combos = some h) :
    (h.Cards.length = 5 ∨ h.Rank = 0) ∧
    (best.Rank = h.Rank → best.Cards.length = 5 →
      keyLt (ranksOf h.Cards) (ranksOf best.Cards) = false) ∧
    ∀ c ∈ combos, ∀ r, evaluateFiveCards c = some r → r.Rank = h.Rank → 1 ≤ h.Rank →
      keyLt (ranksOf h.Cards) (ranksOf r.Cards) = false := by
  induction combos generalizing best with
  | nil =>
    simp only [bestLoop, Option.some.injEq] at hb
    subst hb
    exact ⟨hinv, fun _ _ => keyLt_irrefl _, fun c hc => by cases hc⟩
  | cons c t ih =>
    simp only [bestLoop] at hb
    split at hb
    · cases hb
    · rename_i r0 hr0
      obtain ⟨_, hr5⟩ := evaluateFiveCards_length c r0 hr0
      have hinv1 : (bestStep best r0).Cards.length = 5 ∨ (bestStep best r0).Rank = 0 := by
        rcases bestStep_origin best r0 with h1 | h1
        · rw [h1]; exact hinv
        · rw [h1]; exact Or.inl hr5
      obtain ⟨i1, i2, i3⟩ := ih (bestStep best r0) hinv1 hb
      have hrk := (bestLoop_rank _ _ _ hb).1
      have hlen : ∀ x y : HandResult, x.Cards.length = 5 → y.Cards.length = 5 →
          (ranksOf x.Cards).length = (ranksOf y.Cards).length := by
        intro x y hx hy
        unfold ranksOf
        rw [List.length_map, List.length_map, hx, hy]
      refine ⟨i1, ?_, ?_⟩
      · intro he h5
        unfold bestStep at i2 hrk
        split at i2
        · rename_i hgt
          rw [if_pos hgt] at hrk
          have : r0.Rank ≤ best.Rank := by rw [he]; exact hrk
          exact absurd hgt (Nat.not_lt.mpr this)
        · rename_i hgt
          rw [if_neg hgt] at hrk
          split at i2
          · rename_i heq
            have heq1 : r0.Rank = best.Rank := by simpa using heq
            split at i2
            · rename_i hcmp
              have h1 := i2 (heq1.trans he) hr5
              have h2 := compareCards_pos hcmp
              cases h3 : keyLt (ranksOf h.Cards) (ranksOf best.Cards)
              · rfl
              · have := keyLt_trans h3 h2
                rw [h1] at this
                cases this
            · exact i2 he h5
          · exact i2 he h5
      · intro c1 hc1 r hr he h1
        rcases List.mem_cons.mp hc1 with rfl | hc1
        · rw [hr0] at hr
          cases hr
          unfold bestStep at i2 hrk
          split at i2
          · exact i2 he hr5
          · rename_i hgt
            rw [if_neg hgt] at hrk
            split at i2
            · rename_i heq
              have heq1 : r0.Rank = best.Rank := by simpa using heq
              rw [if_pos heq] at hrk
              split at i2
              · exact i2 he hr5
              · rename_i hcmp
                rw [if_neg hcmp] at hrk
                have hb5 : best.Cards.length = 5 := by
                  rcases hinv with h5 | h0
                  · exact h5
                  · rw [← he, heq1, h0] at h1
                    cases h1
                have h2 := i2 (heq1.symm.trans he) hb5
                cases h3 : keyLt (ranksOf h.Cards) (ranksOf r0.Cards)
                · rfl
                · by_cases hsame : ranksOf best.Cards = ranksOf r0.Cards
                  · rw [hsame, h3] at h2
                    cases h2
                  · rcases keyLt_total (hlen best r0 hb5 hr5) hsame with h4 | h4
                    · exact absurd (compareCards_of_keyLt (by rw [hr5, hb5]) h4) hcmp
                    · have := keyLt_trans h3 h4
                      rw [h2] at this
                      cases this
            · rename_i hne
              rw [if_neg hne] at hrk
              have hlt : r0.Rank < best.Rank := by
                have hne1 : r0.Rank ≠ best.Rank := by simpa using hne
                exact Nat.lt_of_le_of_ne (Nat.le_of_not_lt hgt) hne1
              have : best.Rank ≤ r0.Rank := by rw [he]; exact hrk
              exact absurd hlt (Nat.not_lt.mpr this)
        · exact i3 c1 hc1 r hr he h1

/-- Two descending lists compare by the largest value they hold a different
number of times. -/
theorem keyLt_of_count {a b : List Nat} (ha : a.Sorted (fun x y => y ≤ x))
    (hb : b.Sorted (fun x y => y ≤ x)) (v : Nat) (hv : b.count v < a.count v)
    (hw : ∀ w, v < w → a.count w = b.count w) : keyLt b a = true := by
  induction a generalizing b with
  | nil => simp at hv
  | cons x s ih =>
    have hva : v ∈ x :: s := List.count_pos_iff.mp (by omega)
    have hvx : v ≤ x := by
      rcases List.mem_cons.mp hva with h | h
      · exact Nat.le_of_eq h
      · exact List.rel_of_sorted_cons ha v h
    cases b with
    | nil => rfl
    | cons y t =>
      rw [keyLt_cons]
      have hyx : y ≤ x := by
        by_contra hgt
        have hgt1 : x < y := Nat.lt_of_not_le hgt
        have h1 := hw y (by omega)
        have h2 : 0 < (y :: t).count y := List.count_pos_iff.mpr (List.mem_cons_self _ _)
        have h3 : y ∈ x :: s := List.count_pos_iff.mp (by omega)
        rcases List.mem_cons.mp h3 with h | h
        · omega
        · have := List.rel_of_sorted_cons ha y h
          omega
      rcases Nat.lt_or_ge v x with hlt | hge
      · -- the heads are equal
        have h1 := hw x hlt
        have h2 : 0 < (x :: s).count x := List.count_pos_iff.mpr (List.mem_cons_self _ _)
        have h3 : x ∈ y :: t := List.count_pos_iff.mp (by omega)
        have hxy : x ≤ y := by
          rcases List.mem_cons.mp h3 with h | h
          · exact Nat.le_of_eq h
          · exact List.rel_of_sorted_cons hb x h
        have he : y = x := Nat.le_antisymm hyx hxy
        subst he
        refine Or.inr ⟨rfl, ih (List.Sorted.of_cons ha) (List.Sorted.of_cons hb) ?_ ?_⟩
        · have hne : y ≠ v := by omega
          simpa [List.count_cons, hne] using hv
        · intro w hvw
          have := hw w hvw
          simp only [List.count_cons] at this
          omega
      · have hxv : x = v := Nat.le_antisymm hge hvx
        subst hxv
        rcases Nat.lt_or_ge y x with hlt | hge1
        · exact Or.inl hlt
        · have he : y = x := Nat.le_antisymm hyx hge1
          subst he
          refine Or.inr ⟨rfl, ih (List.Sorted.of_cons ha) (List.Sorted.of_cons hb) ?_ ?_⟩
          · simpa [List.count_cons] using hv
          · intro w hvw
            have := hw w hvw
            simp only [List.count_cons] at this
            omega

/-! ## The grouped order of the specification -/

theorem mem_groupOf (ranks : List Nat) (n w : Nat) (hn : 1 ≤ n) :
    w ∈ groupOf ranks n ↔ w ∈ ranks ∧ ranks.count w = n := by
  unfold groupOf
  rw [List.mem_flatMap]
  constructor
  · rintro ⟨a, ha, hw⟩
    have hwa : w = a := (List.mem_replicate.mp hw).2
    subst hwa
    have h1 := (sortDesc_perm _).mem_iff.mp ha
    rw [List.mem_filter, List.mem_dedup] at h1
    exact ⟨h1.1, by simpa using h1.2⟩
  · rintro ⟨h1, h2⟩
    refine ⟨w, (sortDesc_perm _).mem_iff.mpr ?_, List.mem_replicate.mpr ⟨by omega, rfl⟩⟩
    rw [List.mem_filter, List.mem_dedup]
    exact ⟨h1, by simpa using h2⟩

theorem keyLt_flatMap {n : Nat} (hn : 1 ≤ n) {d d1 : List Nat} (hl : d.length = d1.length)
    (h : keyLt (d.flatMap (fun r => List.replicate n r))
      (d1.flatMap (fun r => List.replicate n r)) = true) : keyLt d d1 = true := by
  induction d generalizing d1 with
  | nil =>
    cases d1 with
    | nil => simp [keyLt] at h
    | cons y t => simp at hl
  | cons x s ih =>
    cases d1 with
    | nil => simp at hl
    | cons y t =>
      obtain ⟨k, rfl⟩ : ∃ k, n = k + 1 := ⟨n - 1, by omega⟩
      simp only [List.flatMap_cons, List.replicate_succ, List.cons_append] at h
      rw [keyLt_cons] at h ⊢
      rcases h with h | ⟨hxy, h⟩
      · exact Or.inl h
      · subst hxy
        refine Or.inr ⟨rfl, ih (by simpa using hl) ?_⟩
        rcases keyLt_append rfl h with h1 | ⟨_, h1⟩
        · rw [keyLt_irrefl] at h1
          cases h1
        · simpa [List.replicate_succ] using h1

theorem keyLt_strict {d d1 : List Nat} (hs : d.Sorted (fun x y => y ≤ x))
    (hs1 : d1.Sorted (fun x y => y ≤ x)) (hn1 : d1.Nodup) (hl : d.length = d1.length)
    (h : keyLt d d1 = true) : ∃ u v, u ∈ d ∧ v ∈ d1 ∧ v ∉ d ∧ u < v := by
  induction d generalizing d1 with
  | nil =>
    cases d1 with
    | nil => simp [keyLt] at h
    | cons y t => simp at hl
  | cons x s ih =>
    cases d1 with
    | nil => simp at hl
    | cons y t =>
      rw [keyLt_cons] at h
      rcases h with h | ⟨hxy, h⟩
      · refine ⟨x, y, List.mem_cons_self _ _, List.mem_cons_self _ _, ?_, h⟩
        intro hy
        rcases List.mem_cons.mp hy with h1 | h1
        · omega
        · have := List.rel_of_sorted_cons hs y h1
          omega
      · subst hxy
        obtain ⟨u, v, hu, hv, hvs, huv⟩ := ih (List.Sorted.of_cons hs)
          (List.Sorted.of_cons hs1) (List.nodup_cons.mp hn1).2 (by simpa using hl) h
        refine ⟨u, v, List.mem_cons_of_mem _ hu, List.mem_cons_of_mem _ hv, ?_, huv⟩
        intro hv1
        rcases List.mem_cons.mp hv1 with h1 | h1
        · exact (List.nodup_cons.mp hn1).1 (h1 ▸ hv)
        · exact hvs h1

theorem groupOf_eq (ranks : List Nat) (n : Nat) :
    groupOf ranks n = (groupRanks ranks n).flatMap (fun r => List.replicate n r) := rfl

theorem mem_groupRanks (ranks : List Nat) (n w : Nat) :
    w ∈ groupRanks ranks n ↔ w ∈ ranks ∧ ranks.count w = n := by
  unfold groupRanks
  rw [(sortDesc_perm _).mem_iff, List.mem_filter, List.mem_dedup]
  simp

theorem groupRanks_sorted (ranks : List Nat) (n : Nat) :
    (groupRanks ranks n).Sorted (fun x y => y ≤ x) := sortDesc_sorted _

theorem groupRanks_nodup (ranks : List Nat) (n : Nat) : (groupRanks ranks n).Nodup := by
  unfold groupRanks
  rw [(sortDesc_perm _).nodup_iff]
  exact (List.nodup_dedup ranks).filter _

theorem count_add_le (l : List Nat) (u v : Nat) (h : u ≠ v) :
    l.count u + l.count v ≤ l.length := by
  induction l with
  | nil => simp
  | cons x t ih =>
    simp only [List.count_cons, List.length_cons, beq_iff_eq]
    split_ifs with h1 h2 h2
    · exact absurd (h1.symm.trans h2) h
    · omega
    · omega
    · omega

theorem grouped_step (rb rr : List Nat) (n : Nat) (hn : 1 ≤ n) (hn4 : n ≤ 4)
    (h5 : rb.length = 5)
    (hlen : (groupRanks rb n).length = (groupRanks rr n).length)
    (heq : ∀ m, n < m → m ≤ 4 → groupOf rb m = groupOf rr m)
    (hlt : keyLt (groupOf rb n) (groupOf rr n) = true) :
    ∃ u v, rb.count u = n ∧ rr.count v = n ∧ rb.count v < n ∧ u < v := by
  rw [groupOf_eq, groupOf_eq] at hlt
  have h1 := keyLt_flatMap hn hlen hlt
  obtain ⟨u, v, hu, hv, hvb, huv⟩ := keyLt_strict (groupRanks_sorted _ _)
    (groupRanks_sorted _ _) (groupRanks_nodup _ _) hlen h1
  rw [mem_groupRanks] at hu hv hvb
  refine ⟨u, v, hu.2, hv.2, ?_, huv⟩
  by_contra hge
  have hge1 : n ≤ rb.count v := Nat.le_of_not_lt hge
  have hvm : v ∈ rb := List.count_pos_iff.mp (by omega)
  have hne : rb.count v ≠ n := fun he => hvb ⟨hvm, he⟩
  have hle := count_add_le rb u v (by omega)
  have hm4 : rb.count v ≤ 4 := by omega
  have hmem : v ∈ groupOf rb (rb.count v) := (mem_groupOf rb _ v (by omega)).mpr ⟨hvm, rfl⟩
  rw [heq (rb.count v) (by omega) hm4] at hmem
  have := ((mem_groupOf rr _ v (by omega)).mp hmem).2
  omega

theorem groupRanks_mul (l : List Nat) (n : Nat) :
    n * (groupRanks l n).length = l.countP (fun r => l.count r == n) := by
  have hlen : (groupRanks l n).length = ((l.dedup).filter (fun r => l.count r == n)).length :=
    (sortDesc_perm _).length_eq
  rw [hlen]
  have h := List.sum_map_count_dedup_filter_eq_countP (fun r => l.count r == n) l
  have hmap : (List.map (fun x => l.count x) (List.filter (fun r => l.count r == n) l.dedup))
      = List.map (fun _ => n) (List.filter (fun r => l.count r == n) l.dedup) := by
    apply List.map_congr_left
    intro x hx
    have := (List.mem_filter.mp hx).2
    simpa using this
  rw [hmap] at h
  simp only [List.map_const', List.sum_replicate, smul_eq_mul] at h
  rw [mul_comm]
  exact h

theorem countP_classes (f : Nat → Nat) (l : List Nat) (h : ∀ x ∈ l, 1 ≤ f x ∧ f x ≤ 5) :
    l.countP (fun r => f r == 1) + l.countP (fun r => f r == 2) +
      l.countP (fun r => f r == 3) + l.countP (fun r => f r == 4) +
      l.countP (fun r => f r == 5) = l.length := by
  induction l with
  | nil => rfl
  | cons x t ih =>
    have ih1 := ih (fun y hy => h y (List.mem_cons_of_mem _ hy))
    obtain ⟨h1, h2⟩ := h x (List.mem_cons_self _ _)
    simp only [List.countP_cons, List.length_cons, beq_iff_eq]
    have hx : f x = 1 ∨ f x = 2 ∨ f x = 3 ∨ f x = 4 ∨ f x = 5 := by omega
    rcases hx with hx | hx | hx | hx | hx <;> simp [hx] <;> omega

/-- The multiplicities of the ranks of five cards add up to five. -/
theorem shape_sum (l : List Nat) (h5 : l.length = 5) :
    (groupRanks l 1).length + 2 * (groupRanks l 2).length + 3 * (groupRanks l 3).length +
      4 * (groupRanks l 4).length + 5 * (groupRanks l 5).length = 5 := by
  have hc := countP_classes (fun r => l.count r) l (fun x hx =>
    ⟨List.count_pos_iff.mpr hx, by rw [← h5]; exact List.count_le_length _ _⟩)
  beta_reduce at hc
  have e1 := groupRanks_mul l 1
  have e2 := groupRanks_mul l 2
  have e3 := groupRanks_mul l 3
  have e4 := groupRanks_mul l 4
  have e5 := groupRanks_mul l 5
  omega

theorem rankTimes_eq (cards : List Card) (n : Nat) :
    rankTimes cards n = (groupRanks (ranksOf cards) n).length := by
  unfold rankTimes groupRanks
  exact (sortDesc_perm _).length_eq.symm

theorem groupOf_length (l : List Nat) (n : Nat) :
    (groupOf l n).length = n * (groupRanks l n).length := by
  rw [groupOf_eq]
  generalize groupRanks l n = d
  induction d with
  | nil => simp
  | cons x t ih =>
    simp only [List.flatMap_cons, List.length_append, List.length_replicate, ih,
      List.length_cons]
    rw [Nat.mul_add]
    omega

theorem grouped_lt_counts (rb rr : List Nat) (h5 : rb.length = 5)
    (hlen : ∀ n, 1 ≤ n → n ≤ 4 → (groupRanks rb n).length = (groupRanks rr n).length)
    (hlt : keyLt (groupOf rb 4 ++ groupOf rb 3 ++ groupOf rb 2 ++ groupOf rb 1)
      (groupOf rr 4 ++ groupOf rr 3 ++ groupOf rr 2 ++ groupOf rr 1) = true) :
    ∃ n u v, 1 ≤ n ∧ rb.count u = n ∧ rr.count v = n ∧ rb.count v < n ∧ u < v := by
  have hl : ∀ n, 1 ≤ n → n ≤ 4 → (groupOf rb n).length = (groupOf rr n).length := by
    intro n h1 h4
    rw [groupOf_length, groupOf_length, hlen n h1 h4]
  simp only [List.append_assoc] at hlt
  rcases keyLt_append (hl 4 (by omega) (by omega)) hlt with h4 | ⟨e4, hlt3⟩
  · obtain ⟨u, v, h⟩ := grouped_step rb rr 4 (by omega) (by omega) h5
      (hlen 4 (by omega) (by omega)) (fun m h1 h2 => by omega) h4
    exact ⟨4, u, v, by omega, h⟩
  · rcases keyLt_append (hl 3 (by omega) (by omega)) hlt3 with h3 | ⟨e3, hlt2⟩
    · obtain ⟨u, v, h⟩ := grouped_step rb rr 3 (by omega) (by omega) h5
        (hlen 3 (by omega) (by omega)) (fun m h1 h2 => by
          have hm : m = 4 := by omega
          rw [hm]; exact e4) h3
      exact ⟨3, u, v, by omega, h⟩
    · rcases keyLt_append (hl 2 (by omega) (by omega)) hlt2 with h2 | ⟨e2, hlt1⟩
      · obtain ⟨u, v, h⟩ := grouped_step rb rr 2 (by omega) (by omega) h5
          (hlen 2 (by omega) (by omega)) (fun m h1 h2 => by
            have hm : m = 3 ∨ m = 4 := by omega
            rcases hm with hm | hm
            · rw [hm]; exact e3
            · rw [hm]; exact e4) h2
        exact ⟨2, u, v, by omega, h⟩
      · obtain ⟨u, v, h⟩ := grouped_step rb rr 1 (by omega) (by omega) h5
          (hlen 1 (by omega) (by omega)) (fun m h1 h2 => by
            have hm : m = 2 ∨ m = 3 ∨ m = 4 := by omega
            rcases hm with hm | hm | hm
            · rw [hm]; exact e2
            · rw [hm]; exact e3
            · rw [hm]; exact e4) hlt1
        exact ⟨1, u, v, by omega, h⟩

/-! ## The shape of a hand and its category -/

theorem rankTimes_sum (cards : List Card) (h5 : cards.length = 5) :
    rankTimes cards 1 + 2 * rankTimes cards 2 + 3 * rankTimes cards 3 +
      4 * rankTimes cards 4 + 5 * rankTimes cards 5 = 5 := by
  simp only [rankTimes_eq]
  exact shape_sum _ (by rw [ranksOf, List.length_map, h5])

theorem specCategory_chain (cards : List Card) :
    specCategory cards = chainCategory
      (specFlush cards && specStraight cards &&
        (sortDesc (ranksOf cards)).take 2 == [Ace, King])
      (specFlush cards && specStraight cards) (specFlush cards) (specStraight cards)
      (rankTimes cards 4) (rankTimes cards 3) (rankTimes cards 2) := rfl

theorem chain_cases (c1 c2 c3 c4 : Bool) (t4 t3 t2 : Nat) :
    chainCategory c1 c2 c3 c4 t4 t3 t2 = RoyalFlush ∨
    chainCategory c1 c2 c3 c4 t4 t3 t2 = StraightFlush ∨
    (0 < t4 ∧ chainCategory c1 c2 c3 c4 t4 t3 t2 = FourOfAKind) ∨
    (t4 = 0 ∧ 0 < t3 ∧ 0 < t2 ∧ chainCategory c1 c2 c3 c4 t4 t3 t2 = FullHouse) ∨
    (t4 = 0 ∧ ¬ (0 < t3 ∧ 0 < t2) ∧ chainCategory c1 c2 c3 c4 t4 t3 t2 = Flush) ∨
    (t4 = 0 ∧ ¬ (0 < t3 ∧ 0 < t2) ∧ chainCategory c1 c2 c3 c4 t4 t3 t2 = Straight) ∨
    (t4 = 0 ∧ 0 < t3 ∧ t2 = 0 ∧ chainCategory c1 c2 c3 c4 t4 t3 t2 = ThreeOfAKind) ∨
    (t4 = 0 ∧ t3 = 0 ∧ t2 = 2 ∧ chainCategory c1 c2 c3 c4 t4 t3 t2 = TwoPair) ∨
    (t4 = 0 ∧ t3 = 0 ∧ t2 = 1 ∧ chainCategory c1 c2 c3 c4 t4 t3 t2 = OnePair) ∨
    (t4 = 0 ∧ t3 = 0 ∧ t2 ≠ 2 ∧ t2 ≠ 1 ∧ chainCategory c1 c2 c3 c4 t4 t3 t2 = HighCard) := by
  unfold chainCategory
  by_cases h1 : c1 = true
  · exact Or.inl (if_pos h1)
  rw [if_neg h1]
  by_cases h2 : c2 = true
  · exact Or.inr (Or.inl (if_pos h2))
  rw [if_neg h2]
  by_cases h3 : t4 > 0
  · exact Or.inr (Or.inr (Or.inl ⟨h3, if_pos h3⟩))
  rw [if_neg h3]
  have e4 : t4 = 0 := by omega
  by_cases h4 : (decide (t3 > 0) && decide (t2 > 0)) = true
  · have q4 : 0 < t3 ∧ 0 < t2 := by simpa using h4
    exact Or.inr (Or.inr (Or.inr (Or.inl ⟨e4, q4.1, q4.2, if_pos h4⟩)))
  rw [if_neg h4]
  have n4 : ¬ (0 < t3 ∧ 0 < t2) := by simpa using h4
  by_cases h5 : c3 = true
  · exact Or.inr (Or.inr (Or.inr (Or.inr (Or.inl ⟨e4, n4, if_pos h5⟩))))
  rw [if_neg h5]
  by_cases h6 : c4 = true
  · exact Or.inr (Or.inr (Or.inr (Or.inr (Or.inr (Or.inl ⟨e4, n4, if_pos h6⟩)))))
  rw [if_neg h6]
  by_cases h7 : t3 > 0
  · exact Or.inr (Or.inr (Or.inr (Or.inr (Or.inr (Or.inr (Or.inl
      ⟨e4, h7, by omega, if_pos h7⟩))))))
  rw [if_neg h7]
  have e3 : t3 = 0 := by omega
  by_cases h8 : (t2 == 2) = true
  · exact Or.inr (Or.inr (Or.inr (Or.inr (Or.inr (Or.inr (Or.inr (Or.inl
      ⟨e4, e3, by simpa using h8, if_pos h8⟩)))))))
  rw [if_neg h8]
  by_cases h9 : (t2 == 1) = true
  · exact Or.inr (Or.inr (Or.inr (Or.inr (Or.inr (Or.inr (Or.inr (Or.inr (Or.inl
      ⟨e4, e3, by simpa using h9, if_pos h9⟩))))))))
  rw [if_neg h9]
  exact Or.inr (Or.inr (Or.inr (Or.inr (Or.inr (Or.inr (Or.inr (Or.inr (Or.inr
    ⟨e4, e3, by simpa using h8, by simpa using h9, rfl⟩))))))))

theorem chain_shape_four (c1 c2 c3 c4 : Bool) (t1 t2 t3 t4 t5 : Nat)
    (hs : t1 + 2 * t2 + 3 * t3 + 4 * t4 + 5 * t5 = 5)
    (hc : chainCategory c1 c2 c3 c4 t4 t3 t2 = FourOfAKind) :
    t4 = 1 ∧ t3 = 0 ∧ t2 = 0 ∧ t1 = 1 := by
  rcases chain_cases c1 c2 c3 c4 t4 t3 t2 with h | h | ⟨a, h⟩ | ⟨a, b, c, h⟩ | ⟨a, b, h⟩ |
    ⟨a, b, h⟩ | ⟨a, b, c, h⟩ | ⟨a, b, c, h⟩ | ⟨a, b, c, h⟩ | ⟨a, b, c, d, h⟩ <;>
    rw [h] at hc <;>
    first
      | exact absurd hc (by decide)
      | (have h3 : t3 ≤ 1 := by omega
         have h5 : t5 ≤ 1 := by omega
         omega)

theorem chain_shape_full (c1 c2 c3 c4 : Bool) (t1 t2 t3 t4 t5 : Nat)
    (hs : t1 + 2 * t2 + 3 * t3 + 4 * t4 + 5 * t5 = 5)
    (hc : chainCategory c1 c2 c3 c4 t4 t3 t2 = FullHouse) :
    t4 = 0 ∧ t3 = 1 ∧ t2 = 1 ∧ t1 = 0 := by
  rcases chain_cases c1 c2 c3 c4 t4 t3 t2 with h | h | ⟨a, h⟩ | ⟨a, b, c, h⟩ | ⟨a, b, h⟩ |
    ⟨a, b, h⟩ | ⟨a, b, c, h⟩ | ⟨a, b, c, h⟩ | ⟨a, b, c, h⟩ | ⟨a, b, c, d, h⟩ <;>
    rw [h] at hc <;>
    first
      | exact absurd hc (by decide)
      | (have h3 : t3 ≤ 1 := by omega
         have h5 : t5 ≤ 1 := by omega
         omega)

theorem chain_shape_trips (c1 c2 c3 c4 : Bool) (t1 t2 t3 t4 t5 : Nat)
    (hs : t1 + 2 * t2 + 3 * t3 + 4 * t4 + 5 * t5 = 5)
    (hc : chainCategory c1 c2 c3 c4 t4 t3 t2 = ThreeOfAKind) :
    t4 = 0 ∧ t3 = 1 ∧ t2 = 0 ∧ t1 = 2 := by
  rcases chain_cases c1 c2 c3 c4 t4 t3 t2 with h | h | ⟨a, h⟩ | ⟨a, b, c, h⟩ | ⟨a, b, h⟩ |
    ⟨a, b, h⟩ | ⟨a, b, c, h⟩ | ⟨a, b, c, h⟩ | ⟨a, b, c, h⟩ | ⟨a, b, c, d, h⟩ <;>
    rw [h] at hc <;>
    first
      | exact absurd hc (by decide)
      | (have h3 : t3 ≤ 1 := by omega
         have h5 : t5 ≤ 1 := by omega
         omega)

theorem chain_shape_twoPair (c1 c2 c3 c4 : Bool) (t1 t2 t3 t4 t5 : Nat)
    (hs : t1 + 2 * t2 + 3 * t3 + 4 * t4 + 5 * t5 = 5)
    (hc : chainCategory c1 c2 c3 c4 t4 t3 t2 = TwoPair) :
    t4 = 0 ∧ t3 = 0 ∧ t2 = 2 ∧ t1 = 1 := by
  rcases chain_cases c1 c2 c3 c4 t4 t3 t2 with h | h | ⟨a, h⟩ | ⟨a, b, c, h⟩ | ⟨a, b, h⟩ |
    ⟨a, b, h⟩ | ⟨a, b, c, h⟩ | ⟨a, b, c, h⟩ | ⟨a, b, c, h⟩ | ⟨a, b, c, d, h⟩ <;>
    rw [h] at hc <;>
    first
      | exact absurd hc (by decide)
      | (have h3 : t3 ≤ 1 := by omega
         have h5 : t5 ≤ 1 := by omega
         omega)

theorem chain_shape_onePair (c1 c2 c3 c4 : Bool) (t1 t2 t3 t4 t5 : Nat)
    (hs : t1 + 2 * t2 + 3 * t3 + 4 * t4 + 5 * t5 = 5)
    (hc : chainCategory c1 c2 c3 c4 t4 t3 t2 = OnePair) :
    t4 = 0 ∧ t3 = 0 ∧ t2 = 1 ∧ t1 = 3 := by
  rcases chain_cases c1 c2 c3 c4 t4 t3 t2 with h | h | ⟨a, h⟩ | ⟨a, b, c, h⟩ | ⟨a, b, h⟩ |
    ⟨a, b, h⟩ | ⟨a, b, c, h⟩ | ⟨a, b, c, h⟩ | ⟨a, b, c, h⟩ | ⟨a, b, c, d, h⟩ <;>
    rw [h] at hc <;>
    first
      | exact absurd hc (by decide)
      | (have h3 : t3 ≤ 1 := by omega
         have h5 : t5 ≤ 1 := by omega
         omega)

/-- The multiplicities of the ranks in a hand of a category made of pairs,
trips or quads. -/
theorem category_shape (cards : List Card) (h5 : cards.length = 5) :
    (specCategory cards = FourOfAKind → rankTimes cards 4 = 1 ∧ rankTimes cards 3 = 0 ∧
      rankTimes cards 2 = 0 ∧ rankTimes cards 1 = 1) ∧
    (specCategory cards = FullHouse → rankTimes cards 4 = 0 ∧ rankTimes cards 3 = 1 ∧
      rankTimes cards 2 = 1 ∧ rankTimes cards 1 = 0) ∧
    (specCategory cards = ThreeOfAKind → rankTimes cards 4 = 0 ∧ rankTimes cards 3 = 1 ∧
      rankTimes cards 2 = 0 ∧ rankTimes cards 1 = 2) ∧
    (specCategory cards = TwoPair → rankTimes cards 4 = 0 ∧ rankTimes cards 3 = 0 ∧
      rankTimes cards 2 = 2 ∧ rankTimes cards 1 = 1) ∧
    (specCategory cards = OnePair → rankTimes cards 4 = 0 ∧ rankTimes cards 3 = 0 ∧
      rankTimes cards 2 = 1 ∧ rankTimes cards 1 = 3) := by
  have hs := rankTimes_sum cards h5
  rw [specCategory_chain]
  exact ⟨chain_shape_four _ _ _ _ _ _ _ _ _ hs, chain_shape_full _ _ _ _ _ _ _ _ _ hs,
    chain_shape_trips _ _ _ _ _ _ _ _ _ hs, chain_shape_twoPair _ _ _ _ _ _ _ _ _ hs,
    chain_shape_onePair _ _ _ _ _ _ _ _ _ hs⟩

theorem chain_lower_four (c1 c2 c3 c4 : Bool) (t2 t3 t4 : Nat) (h0 : 0 < t4) :
    FourOfAKind ≤ chainCategory c1 c2 c3 c4 t4 t3 t2 := by
  rcases chain_cases c1 c2 c3 c4 t4 t3 t2 with h | h | ⟨a, h⟩ | ⟨a, b, c, h⟩ | ⟨a, b, h⟩ |
    ⟨a, b, h⟩ | ⟨a, b, c, h⟩ | ⟨a, b, c, h⟩ | ⟨a, b, c, h⟩ | ⟨a, b, c, d, h⟩ <;>
    rw [h] <;>
    first
      | decide
      | (exfalso
         omega)

theorem chain_lower_full (c1 c2 c3 c4 : Bool) (t2 t3 t4 : Nat) (h0 : 0 < t3) (h2 : 0 < t2) :
    FullHouse ≤ chainCategory c1 c2 c3 c4 t4 t3 t2 := by
  rcases chain_cases c1 c2 c3 c4 t4 t3 t2 with h | h | ⟨a, h⟩ | ⟨a, b, c, h⟩ | ⟨a, b, h⟩ |
    ⟨a, b, h⟩ | ⟨a, b, c, h⟩ | ⟨a, b, c, h⟩ | ⟨a, b, c, h⟩ | ⟨a, b, c, d, h⟩ <;>
    rw [h] <;>
    first
      | decide
      | (exfalso
         omega)

theorem chain_lower_trips (c1 c2 c3 c4 : Bool) (t2 t3 t4 : Nat) (h0 : 0 < t3) :
    ThreeOfAKind ≤ chainCategory c1 c2 c3 c4 t4 t3 t2 := by
  rcases chain_cases c1 c2 c3 c4 t4 t3 t2 with h | h | ⟨a, h⟩ | ⟨a, b, c, h⟩ | ⟨a, b, h⟩ |
    ⟨a, b, h⟩ | ⟨a, b, c, h⟩ | ⟨a, b, c, h⟩ | ⟨a, b, c, h⟩ | ⟨a, b, c, d, h⟩ <;>
    rw [h] <;>
    first
      | decide
      | (exfalso
         omega)

theorem chain_lower_twoPair (c1 c2 c3 c4 : Bool) (t2 t3 t4 : Nat) (h0 : t2 = 2) :
    TwoPair ≤ chainCategory c1 c2 c3 c4 t4 t3 t2 := by
  rcases chain_cases c1 c2 c3 c4 t4 t3 t2 with h | h | ⟨a, h⟩ | ⟨a, b, c, h⟩ | ⟨a, b, h⟩ |
    ⟨a, b, h⟩ | ⟨a, b, c, h⟩ | ⟨a, b, c, h⟩ | ⟨a, b, c, h⟩ | ⟨a, b, c, d, h⟩ <;>
    rw [h] <;>
    first
      | decide
      | (exfalso
         omega)

theorem chain_lower_onePair (c1 c2 c3 c4 : Bool) (t2 t3 t4 : Nat) (h0 : t2 = 1) :
    OnePair ≤ chainCategory c1 c2 c3 c4 t4 t3 t2 := by
  rcases chain_cases c1 c2 c3 c4 t4 t3 t2 with h | h | ⟨a, h⟩ | ⟨a, b, c, h⟩ | ⟨a, b, h⟩ |
    ⟨a, b, h⟩ | ⟨a, b, c, h⟩ | ⟨a, b, c, h⟩ | ⟨a, b, c, h⟩ | ⟨a, b, c, d, h⟩ <;>
    rw [h] <;>
    first
      | decide
      | (exfalso
         omega)

/-- A hand whose rank multiplicities are those of a category is of that
category or of a higher one. -/
theorem category_lower (cards : List Card) :
    (0 < rankTimes cards 4 → FourOfAKind ≤ specCategory cards) ∧
    (0 < rankTimes cards 3 → 0 < rankTimes cards 2 → FullHouse ≤ specCategory cards) ∧
    (0 < rankTimes cards 3 → ThreeOfAKind ≤ specCategory cards) ∧
    (rankTimes cards 2 = 2 → TwoPair ≤ specCategory cards) ∧
    (rankTimes cards 2 = 1 → OnePair ≤ specCategory cards) := by
  rw [specCategory_chain]
  exact ⟨chain_lower_four _ _ _ _ _ _ _, chain_lower_full _ _ _ _ _ _ _,
    chain_lower_trips _ _ _ _ _ _ _, chain_lower_twoPair _ _ _ _ _ _ _,
    chain_lower_onePair _ _ _ _ _ _ _⟩

/-! ## Exchanging the multiplicities of two ranks -/

theorem count_ranksOf (l : List Card) (w : Nat) :
    (ranksOf l).count w = l.countP (fun c => c.Rank == w) := by
  induction l with
  | nil => rfl
  | cons a t ih =>
    simp only [ranksOf, List.map_cons, List.count_cons, List.countP_cons] at ih ⊢
    rw [ih]

theorem count_ranksOf_const (l : List Card) (a w : Nat) (h : ∀ c ∈ l, c.Rank = a) :
    (ranksOf l).count w = if w = a then l.length else 0 := by
  induction l with
  | nil => simp [ranksOf]
  | cons x t ih =>
    have hx : x.Rank = a := h x (List.mem_cons_self _ _)
    have ih1 := ih (fun c hc => h c (List.mem_cons_of_mem _ hc))
    simp only [ranksOf, List.map_cons, List.count_cons, List.length_cons, beq_iff_eq] at ih1 ⊢
    rw [ih1, hx]
    by_cases hw : w = a
    · simp [hw]
    · have hw1 : ¬ a = w := fun e => hw e.symm
      simp [hw, hw1]

theorem count_ranksOf_filter (l : List Card) (p : Card → Bool) (w : Nat) :
    (ranksOf (l.filter p)).count w = l.countP (fun c => c.Rank == w && p c) := by
  rw [count_ranksOf, List.countP_filter]

theorem swap_hand (cards B R : List Card) (hnd : cards.Nodup) (hB : B ⊆ cards)
    (hR : R ⊆ cards) (hBn : B.Nodup) (hRn : R.Nodup) (u v : Nat) (huv : u ≠ v)
    (hle : (ranksOf B).count v ≤ (ranksOf B).count u) :
    ∃ h, h.Sublist cards ∧ (ranksOf h).count v = (ranksOf R).count v ∧
      (ranksOf h).count u = (ranksOf B).count v ∧
      ∀ w, w ≠ u → w ≠ v → (ranksOf h).count w = (ranksOf B).count w := by
  have hvu : v ≠ u := fun e => huv e.symm
  let P1 := B.filter (fun c => c.Rank != u && c.Rank != v)
  let P2 := (B.filter (fun c => c.Rank == u)).take ((ranksOf B).count v)
  let P3 := R.filter (fun c => c.Rank == v)
  have hP1 : ∀ c ∈ P1, c ∈ B ∧ c.Rank ≠ u ∧ c.Rank ≠ v := by
    intro c hc
    have := List.mem_filter.mp hc
    simpa using this
  have hP2 : ∀ c ∈ P2, c ∈ B ∧ c.Rank = u := by
    intro c hc
    have := List.mem_filter.mp (List.mem_of_mem_take hc)
    simpa using this
  have hP3 : ∀ c ∈ P3, c ∈ R ∧ c.Rank = v := by
    intro c hc
    have := List.mem_filter.mp hc
    simpa using this
  have hn1 : P1.Nodup := hBn.filter _
  have hn2 : P2.Nodup := (hBn.filter _).sublist (List.take_sublist _ _)
  have hn3 : P3.Nodup := hRn.filter _
  have hH : (P1 ++ P2 ++ P3).Nodup := by
    rw [List.nodup_append, List.nodup_append]
    refine ⟨⟨hn1, hn2, ?_⟩, hn3, ?_⟩
    · intro c h1 h2
      exact (hP1 c h1).2.1 (hP2 c h2).2
    · intro c h12 h3
      rcases List.mem_append.mp h12 with h1 | h2
      · exact (hP1 c h1).2.2 (hP3 c h3).2
      · exact huv ((hP2 c h2).2.symm.trans (hP3 c h3).2)
  have hsub : ∀ c ∈ P1 ++ P2 ++ P3, c ∈ cards := by
    intro c hc
    rcases List.mem_append.mp hc with h12 | h3
    · rcases List.mem_append.mp h12 with h1 | h2
      · exact hB (hP1 c h1).1
      · exact hB (hP2 c h2).1
    · exact hR (hP3 c h3).1
  have hperm : (cards.filter (fun c => decide (c ∈ P1 ++ P2 ++ P3))).Perm (P1 ++ P2 ++ P3) := by
    rw [List.perm_ext_iff_of_nodup (hnd.filter _) hH]
    intro c
    rw [List.mem_filter]
    constructor
    · intro h
      simpa using h.2
    · intro h
      exact ⟨hsub c h, by simpa using h⟩
  have hcount : ∀ w, (ranksOf (cards.filter (fun c => decide (c ∈ P1 ++ P2 ++ P3)))).count w
      = (ranksOf P1).count w + (ranksOf P2).count w + (ranksOf P3).count w := by
    intro w
    have hp : (ranksOf (cards.filter (fun c => decide (c ∈ P1 ++ P2 ++ P3)))).Perm
        (ranksOf (P1 ++ P2 ++ P3)) := hperm.map _
    rw [hp.count_eq]
    simp only [ranksOf, List.map_append, List.count_append]
  have hc2 : ∀ w, (ranksOf P2).count w = if w = u then P2.length else 0 :=
    fun w => count_ranksOf_const P2 u w (fun c hc => (hP2 c hc).2)
  have hc3 : ∀ w, (ranksOf P3).count w = if w = v then P3.length else 0 :=
    fun w => count_ranksOf_const P3 v w (fun c hc => (hP3 c hc).2)
  have hl2 : P2.length = (ranksOf B).count v := by
    show ((B.filter (fun c => c.Rank == u)).take ((ranksOf B).count v)).length = _
    rw [List.length_take]
    have : (B.filter (fun c => c.Rank == u)).length = (ranksOf B).count u := by
      rw [count_ranksOf, List.countP_eq_length_filter]
    omega
  have hl3 : P3.length = (ranksOf R).count v := by
    show (R.filter (fun c => c.Rank == v)).length = _
    rw [count_ranksOf, List.countP_eq_length_filter]
  have hc1 : ∀ w, (ranksOf P1).count w = if w = u ∨ w = v then 0 else (ranksOf B).count w := by
    intro w
    show (ranksOf (B.filter (fun c => c.Rank != u && c.Rank != v))).count w = _
    rw [count_ranksOf_filter]
    by_cases hw : w = u ∨ w = v
    · rw [if_pos hw, List.countP_eq_zero]
      intro c _
      rcases hw with rfl | rfl <;> simp <;> tauto
    · rw [if_neg hw, count_ranksOf]
      apply List.countP_congr
      intro c _
      push_neg at hw
      constructor
      · intro h
        simp only [Bool.and_eq_true, beq_iff_eq] at h
        simpa using h.1
      · intro h
        have hr : c.Rank = w := by simpa using h
        simp [hr, hw.1, hw.2]
  refine ⟨cards.filter (fun c => decide (c ∈ P1 ++ P2 ++ P3)), List.filter_sublist _, ?_, ?_, ?_⟩
  · rw [hcount, hc1, hc2, hc3, if_pos (Or.inr rfl), if_neg hvu, if_pos rfl, hl3]
    omega
  · rw [hcount, hc1, hc2, hc3, if_pos (Or.inl rfl), if_pos rfl, if_neg huv, hl2]
    omega
  · intro w hwu hwv
    rw [hcount, hc1, hc2, hc3, if_neg (by tauto), if_neg hwu, if_neg hwv]
    omega

/-! ## The grouped key and the plain order inside one category -/

theorem groupRanks_perm {l1 l2 : List Nat} (h : l1.Perm l2) (n : Nat) :
    groupRanks l1 n = groupRanks l2 n := by
  unfold groupRanks
  have hf : (fun r => l1.count r == n) = (fun r => l2.count r == n) := by
    funext r
    rw [h.count_eq]
  rw [hf]
  exact sortDesc_perm_eq ((h.dedup).filter _)

theorem groupOf_perm {l1 l2 : List Nat} (h : l1.Perm l2) (n : Nat) :
    groupOf l1 n = groupOf l2 n := by
  rw [groupOf_eq, groupOf_eq, groupRanks_perm h]

theorem groupedRanks_perm {l1 l2 : List Card} (h : l1.Perm l2) :
    groupedRanks l1 = groupedRanks l2 := by
  have hr : (ranksOf l1).Perm (ranksOf l2) := h.map _
  unfold groupedRanks
  show (if sortDesc (ranksOf l1) = [14, 5, 4, 3, 2] then [5, 4, 3, 2, 1]
      else groupOf (ranksOf l1) 4 ++ groupOf (ranksOf l1) 3 ++ groupOf (ranksOf l1) 2 ++
        groupOf (ranksOf l1) 1) =
    (if sortDesc (ranksOf l2) = [14, 5, 4, 3, 2] then [5, 4, 3, 2, 1]
      else groupOf (ranksOf l2) 4 ++ groupOf (ranksOf l2) 3 ++ groupOf (ranksOf l2) 2 ++
        groupOf (ranksOf l2) 1)
  rw [sortDesc_perm_eq hr, groupOf_perm hr, groupOf_perm hr, groupOf_perm hr, groupOf_perm hr]

theorem groupRanks_length_map (l : List Nat) (f : Nat → Nat) (hf : Function.Injective f)
    (n : Nat) : (groupRanks (l.map f) n).length = (groupRanks l n).length := by
  unfold groupRanks
  rw [(sortDesc_perm _).length_eq, (sortDesc_perm _).length_eq,
    List.dedup_map_of_injective hf, List.filter_map, List.length_map]
  congr 1
  apply List.filter_congr
  intro x _
  show ((l.map f).count (f x) == n) = (l.count x == n)
  rw [List.count_map_of_injective l f hf]

theorem swap_perm (lh lb : List Nat) (u v : Nat) (huv : u ≠ v)
    (h1 : lh.count v = lb.count u) (h2 : lh.count u = lb.count v)
    (h3 : ∀ w, w ≠ u → w ≠ v → lh.count w = lb.count w) :
    (lh.map (Equiv.swap u v)).Perm lb := by
  rw [List.perm_iff_count]
  intro w
  have hinj : Function.Injective (Equiv.swap u v) := (Equiv.swap u v).injective
  have hw : w = Equiv.swap u v (Equiv.swap u v w) := (Equiv.swap_apply_self u v w).symm
  rw [hw, List.count_map_of_injective lh _ hinj, ← hw]
  by_cases hu : w = u
  · rw [hu, Equiv.swap_apply_left, h1]
  · by_cases hv : w = v
    · rw [hv, Equiv.swap_apply_right, h2]
    · rw [Equiv.swap_apply_of_ne_of_ne hu hv, h3 w hu hv]

theorem swap_shape (lh lb : List Nat) (u v : Nat) (huv : u ≠ v)
    (h1 : lh.count v = lb.count u) (h2 : lh.count u = lb.count v)
    (h3 : ∀ w, w ≠ u → w ≠ v → lh.count w = lb.count w) :
    lh.length = lb.length ∧ ∀ n, (groupRanks lh n).length = (groupRanks lb n).length := by
  have hp := swap_perm lh lb u v huv h1 h2 h3
  refine ⟨by rw [← hp.length_eq, List.length_map], fun n => ?_⟩
  rw [← groupRanks_perm hp n, groupRanks_length_map _ _ (Equiv.swap u v).injective]

theorem wheel_shape (cards : List Card) (h : sortDesc (ranksOf cards) = [14, 5, 4, 3, 2]) :
    rankTimes cards 2 = 0 ∧ rankTimes cards 3 = 0 ∧ rankTimes cards 4 = 0 := by
  have hp : (ranksOf cards).Perm [14, 5, 4, 3, 2] := by
    rw [← h]
    exact (sortDesc_perm _).symm
  simp only [rankTimes_eq, groupRanks_perm hp]
  decide

/-- The ranks of the cards `evaluateFiveCards` returns: the ranks of the
input in descending order, the wheel as 5, 4, 3, 2, A. -/
theorem evaluateFiveCards_ranks (cards : List Card) (r : HandResult)
    (hr : evaluateFiveCards cards = some r) :
    ranksOf r.Cards = if sortDesc (ranksOf cards) = [14, 5, 4, 3, 2] then [5, 4, 3, 2, 14]
      else sortDesc (ranksOf cards) := by
  have h5 := (evaluateFiveCards_length cards r hr).1
  obtain ⟨r1, hr1, hc⟩ := evaluateFiveCards_cards cards h5
  rw [hr] at hr1
  cases hr1
  rw [hc]
  split
  · rename_i hw
    rw [← ranksOf_sorted] at hw
    obtain ⟨h0, h1, h2, h3, h4, hs⟩ := length_five (SortCardsByRankDesc cards)
      (by rw [(sortCardsByRankDesc_perm cards).length_eq, h5])
    rw [hs] at hw ⊢
    simp only [ranksOf, List.map, List.cons.injEq, and_true] at hw
    obtain ⟨a, b, c, d, e⟩ := hw
    have hrot : [h0, h1, h2, h3, h4].rotate 1 = [h1, h2, h3, h4, h0] := rfl
    rw [hrot]
    simp [ranksOf, a, b, c, d, e]
  · exact ranksOf_sorted cards

/-! ## Categories made of pairs, trips or quads -/

theorem pair_shape_eq (x y : List Card) (hx : x.length = 5) (hy : y.length = 5)
    (hc : specCategory x = OnePair ∨ specCategory x = TwoPair ∨
      specCategory x = ThreeOfAKind ∨ specCategory x = FullHouse ∨
      specCategory x = FourOfAKind)
    (he : specCategory y = specCategory x) :
    ∀ n, 1 ≤ n → n ≤ 4 → rankTimes x n = rankTimes y n := by
  obtain ⟨x4, x6, x3, x2, x1⟩ := category_shape x hx
  obtain ⟨y4, y6, y3, y2, y1⟩ := category_shape y hy
  intro n h1 h4
  rcases hc with h | h | h | h | h
  · obtain ⟨a1, a2, a3, a4⟩ := x1 h
    obtain ⟨b1, b2, b3, b4⟩ := y1 (he.trans h)
    interval_cases n <;> simp only [a1, a2, a3, a4, b1, b2, b3, b4]
  · obtain ⟨a1, a2, a3, a4⟩ := x2 h
    obtain ⟨b1, b2, b3, b4⟩ := y2 (he.trans h)
    interval_cases n <;> simp only [a1, a2, a3, a4, b1, b2, b3, b4]
  · obtain ⟨a1, a2, a3, a4⟩ := x3 h
    obtain ⟨b1, b2, b3, b4⟩ := y3 (he.trans h)
    interval_cases n <;> simp only [a1, a2, a3, a4, b1, b2, b3, b4]
  · obtain ⟨a1, a2, a3, a4⟩ := x6 h
    obtain ⟨b1, b2, b3, b4⟩ := y6 (he.trans h)
    interval_cases n <;> simp only [a1, a2, a3, a4, b1, b2, b3, b4]
  · obtain ⟨a1, a2, a3, a4⟩ := x4 h
    obtain ⟨b1, b2, b3, b4⟩ := y4 (he.trans h)
    interval_cases n <;> simp only [a1, a2, a3, a4, b1, b2, b3, b4]

theorem pair_shape_lower (x y : List Card) (hx : x.length = 5)
    (hc : specCategory x = OnePair ∨ specCategory x = TwoPair ∨
      specCategory x = ThreeOfAKind ∨ specCategory x = FullHouse ∨
      specCategory x = FourOfAKind)
    (hs : ∀ n, 1 ≤ n → n ≤ 4 → rankTimes y n = rankTimes x n) :
    specCategory x ≤ specCategory y := by
  obtain ⟨x4, x6, x3, x2, x1⟩ := category_shape x hx
  obtain ⟨y4, y6, y3, y2, y1⟩ := category_lower y
  have s2 := hs 2 (by omega) (by omega)
  have s3 := hs 3 (by omega) (by omega)
  have s4 := hs 4 (by omega) (by omega)
  rcases hc with h | h | h | h | h
  · obtain ⟨a1, a2, a3, a4⟩ := x1 h
    rw [h]
    exact y1 (by omega)
  · obtain ⟨a1, a2, a3, a4⟩ := x2 h
    rw [h]
    exact y2 (by omega)
  · obtain ⟨a1, a2, a3, a4⟩ := x3 h
    rw [h]
    exact y3 (by omega)
  · obtain ⟨a1, a2, a3, a4⟩ := x6 h
    rw [h]
    exact y6 (by omega) (by omega)
  · obtain ⟨a1, a2, a3, a4⟩ := x4 h
    rw [h]
    exact y4 (by omega)

theorem pair_not_wheel (x : List Card) (hx : x.length = 5)
    (hc : specCategory x = OnePair ∨ specCategory x = TwoPair ∨
      specCategory x = ThreeOfAKind ∨ specCategory x = FullHouse ∨
      specCategory x = FourOfAKind) :
    sortDesc (ranksOf x) ≠ [14, 5, 4, 3, 2] := by
  intro hw
  obtain ⟨w2, w3, w4⟩ := wheel_shape x hw
  obtain ⟨x4, x6, x3, x2, x1⟩ := category_shape x hx
  rcases hc with h | h | h | h | h
  · obtain ⟨a1, a2, a3, a4⟩ := x1 h
    omega
  · obtain ⟨a1, a2, a3, a4⟩ := x2 h
    omega
  · obtain ⟨a1, a2, a3, a4⟩ := x3 h
    omega
  · obtain ⟨a1, a2, a3, a4⟩ := x6 h
    omega
  · obtain ⟨a1, a2, a3, a4⟩ := x4 h
    omega

theorem groupedRanks_of_not_wheel (x : List Card)
    (h : sortDesc (ranksOf x) ≠ [14, 5, 4, 3, 2]) :
    groupedRanks x = groupOf (ranksOf x) 4 ++ groupOf (ranksOf x) 3 ++ groupOf (ranksOf x) 2 ++
      groupOf (ranksOf x) 1 := by
  show (if sortDesc (ranksOf x) = [14, 5, 4, 3, 2] then [5, 4, 3, 2, 1]
      else groupOf (ranksOf x) 4 ++ groupOf (ranksOf x) 3 ++ groupOf (ranksOf x) 2 ++
        groupOf (ranksOf x) 1) = _
  rw [if_neg h]

/-- Inside a category made of pairs, trips or quads: when the grouped key of
`cr` is above that of `cb`, the cards hold a hand of the same rank
multiplicities as `cb` whose plainly sorted ranks are above those of `cb`. -/
theorem pair_category_step (cards cb cr : List Card) (hnd : cards.Nodup)
    (hb : cb.Sublist cards) (hr : cr.Sublist cards) (hb5 : cb.length = 5)
    (hr5 : cr.length = 5)
    (hc : specCategory cb = OnePair ∨ specCategory cb = TwoPair ∨
      specCategory cb = ThreeOfAKind ∨ specCategory cb = FullHouse ∨
      specCategory cb = FourOfAKind)
    (he : specCategory cr = specCategory cb)
    (hlt : keyLt (groupedRanks cb) (groupedRanks cr) = true) :
    ∃ h, h.Sublist cards ∧ h.length = 5 ∧ specCategory cb ≤ specCategory h ∧
      (∀ n, 1 ≤ n → n ≤ 4 → rankTimes h n = rankTimes cb n) ∧
      keyLt (sortDesc (ranksOf cb)) (sortDesc (ranksOf h)) = true := by
  have hcr : specCategory cr = OnePair ∨ specCategory cr = TwoPair ∨
      specCategory cr = ThreeOfAKind ∨ specCategory cr = FullHouse ∨
      specCategory cr = FourOfAKind := by
    rw [he]
    exact hc
  rw [groupedRanks_of_not_wheel cb (pair_not_wheel cb hb5 hc),
    groupedRanks_of_not_wheel cr (pair_not_wheel cr hr5 hcr)] at hlt
  have hshape := pair_shape_eq cb cr hb5 hr5 hc he
  obtain ⟨n, u, v, hn, hu, hv, hvb, huv⟩ := grouped_lt_counts (ranksOf cb) (ranksOf cr)
    (by rw [ranksOf, List.length_map, hb5])
    (fun n h1 h4 => by
      have := hshape n h1 h4
      rw [rankTimes_eq, rankTimes_eq] at this
      exact this) hlt
  have hne : u ≠ v := Nat.ne_of_lt huv
  obtain ⟨h, hsub, hcv, hcu, hco⟩ := swap_hand cards cb cr hnd hb.subset hr.subset
    (hnd.sublist hb) (hnd.sublist hr) u v hne (by omega)
  obtain ⟨hlen, hgr⟩ := swap_shape (ranksOf h) (ranksOf cb) u v hne (by omega) hcu hco
  have hh5 : h.length = 5 := by
    rw [ranksOf, ranksOf, List.length_map, List.length_map] at hlen
    omega
  have hrt : ∀ n, 1 ≤ n → n ≤ 4 → rankTimes h n = rankTimes cb n := by
    intro n _ _
    rw [rankTimes_eq, rankTimes_eq]
    exact hgr n
  refine ⟨h, hsub, hh5, pair_shape_lower cb h hb5 hc hrt, hrt, ?_⟩
  apply keyLt_of_count (sortDesc_sorted _) (sortDesc_sorted _) v
  · rw [(sortDesc_perm _).count_eq, (sortDesc_perm _).count_eq]
    omega
  · intro w hw
    rw [(sortDesc_perm _).count_eq, (sortDesc_perm _).count_eq]
    exact hco w (by omega) (by omega)

/-! ## Categories of five distinct ranks -/

theorem specFlush_nodup (x : List Card) (hf : specFlush x = true) (hn : x.Nodup) :
    (ranksOf x).Nodup := by
  unfold ranksOf
  apply List.Nodup.map_on _ hn
  intro c hc d hd hcd
  unfold specFlush at hf
  have hs : c.Suit = d.Suit := by
    have := List.all_eq_true.mp (List.all_eq_true.mp hf c hc) d hd
    simpa using this
  cases c
  cases d
  simp only at hs hcd
  rw [hs, hcd]

theorem consecutiveDesc_nodup (l : List Nat) (h : consecutiveDesc l = true) : l.Nodup := by
  rcases l with _ | ⟨a, _ | ⟨b, _ | ⟨c, _ | ⟨d, _ | ⟨e, _ | ⟨f, t⟩⟩⟩⟩⟩⟩ <;>
    simp only [consecutiveDesc, Bool.false_eq_true] at h
  simp only [Bool.and_eq_true, beq_iff_eq] at h
  simp only [List.nodup_cons, List.mem_cons, List.mem_singleton, List.not_mem_nil,
    List.nodup_nil, not_false_eq_true, and_true, not_or]
  omega

theorem specStraight_nodup (x : List Card) (hs : specStraight x = true) :
    (ranksOf x).Nodup := by
  unfold specStraight at hs
  have hn : (sortDesc (ranksOf x)).Nodup := by
    rcases Bool.or_eq_true _ _ ▸ hs with h | h
    · exact consecutiveDesc_nodup _ h
    · have : sortDesc (ranksOf x) = [14, 5, 4, 3, 2] := by simpa using h
      rw [this]
      decide
  exact (sortDesc_perm _).nodup_iff.mp hn

theorem chain_distinct (k c3 c4 : Bool) (t4 t3 t2 : Nat)
    (hc : chainCategory (c3 && c4 && k) (c3 && c4) c3 c4 t4 t3 t2 = Straight ∨
      chainCategory (c3 && c4 && k) (c3 && c4) c3 c4 t4 t3 t2 = Flush ∨
      chainCategory (c3 && c4 && k) (c3 && c4) c3 c4 t4 t3 t2 = StraightFlush ∨
      chainCategory (c3 && c4 && k) (c3 && c4) c3 c4 t4 t3 t2 = RoyalFlush) :
    c3 = true ∨ c4 = true := by
  cases c3
  · cases c4
    · exfalso
      unfold chainCategory RoyalFlush StraightFlush FourOfAKind FullHouse Flush Straight
        ThreeOfAKind TwoPair OnePair HighCard at hc
      simp only [Bool.false_and, Bool.false_eq_true, if_false] at hc
      rcases hc with h | h | h | h <;> split_ifs at h <;> norm_num at h
    · exact Or.inr rfl
  · exact Or.inl rfl

theorem distinct_category_nodup (x : List Card) (hn : x.Nodup)
    (hc : specCategory x = Straight ∨ specCategory x = Flush ∨
      specCategory x = StraightFlush ∨ specCategory x = RoyalFlush) :
    (ranksOf x).Nodup := by
  rw [specCategory_chain] at hc
  rcases chain_distinct _ _ _ _ _ _ hc with h | h
  · exact specFlush_nodup x h hn
  · exact specStraight_nodup x h

theorem flatMap_replicate_one (d : List Nat) :
    d.flatMap (fun r => List.replicate 1 r) = d := by
  induction d with
  | nil => rfl
  | cons a t ih =>
    rw [List.flatMap_cons, ih]
    rfl

theorem groupRanks_nodup_big (l : List Nat) (hn : l.Nodup) (n : Nat) (h2 : 2 ≤ n) :
    groupRanks l n = [] := by
  unfold groupRanks
  have : (l.dedup).filter (fun r => l.count r == n) = [] := by
    rw [List.filter_eq_nil_iff]
    intro r hr
    have hm : r ∈ l := List.mem_dedup.mp hr
    have := List.count_eq_one_of_mem hn hm
    simp only [beq_iff_eq]
    omega
  rw [this]
  rfl

theorem groupRanks_nodup_one (l : List Nat) (hn : l.Nodup) : groupRanks l 1 = sortDesc l := by
  unfold groupRanks
  have : (l.dedup).filter (fun r => l.count r == 1) = l := by
    rw [hn.dedup, List.filter_eq_self]
    intro r hr
    simp only [beq_iff_eq]
    exact List.count_eq_one_of_mem hn hr
  rw [this]

theorem nodup_grouped (l : List Nat) (hn : l.Nodup) :
    groupOf l 4 ++ groupOf l 3 ++ groupOf l 2 ++ groupOf l 1 = sortDesc l := by
  rw [groupOf_eq, groupOf_eq, groupOf_eq, groupOf_eq,
    groupRanks_nodup_big l hn 4 (by omega), groupRanks_nodup_big l hn 3 (by omega),
    groupRanks_nodup_big l hn 2 (by omega), groupRanks_nodup_one l hn, flatMap_replicate_one]
  rfl

theorem wheel_below (s : List Nat) (hl : s.length = 5) (hs : s.Sorted (fun x y => y ≤ x))
    (hn : s.Nodup) (h : keyLt [5, 4, 3, 2, 1] s = true) : keyLt [5, 4, 3, 2, 14] s = true := by
  obtain ⟨a, b, c, d, e, rfl⟩ := length_five s hl
  simp only [List.nodup_cons, List.mem_cons, List.mem_singleton, List.not_mem_nil,
    List.nodup_nil, not_false_eq_true, and_true, not_or] at hn
  simp only [List.Sorted, List.pairwise_cons, List.mem_cons, List.mem_singleton,
    List.not_mem_nil, forall_eq_or_imp, forall_eq, IsEmpty.forall_iff, implies_true,
    List.Pairwise.nil, and_true] at hs
  simp only [keyLt_cons] at h ⊢
  simp only [keyLt, Bool.false_eq_true, and_false, or_false] at h ⊢
  omega

theorem below_wheel (s : List Nat) (hl : s.length = 5)
    (h : keyLt s [5, 4, 3, 2, 1] = true) : keyLt s [5, 4, 3, 2, 14] = true := by
  obtain ⟨a, b, c, d, e, rfl⟩ := length_five s hl
  simp only [keyLt_cons] at h ⊢
  simp only [keyLt, Bool.false_eq_true, and_false, or_false] at h ⊢
  omega

/-- Inside a category of five distinct ranks the grouped key and the ranks
of the returned cards order two hands the same way. -/
theorem distinct_category_step (cb cr : List Card) (rb rr : HandResult)
    (hb : evaluateFiveCards cb = some rb) (hr : evaluateFiveCards cr = some rr)
    (hnb : (ranksOf cb).Nodup) (hnr : (ranksOf cr).Nodup)
    (hlt : keyLt (groupedRanks cb) (groupedRanks cr) = true) :
    keyLt (ranksOf rb.Cards) (ranksOf rr.Cards) = true := by
  have hb5 : (sortDesc (ranksOf cb)).length = 5 := by
    rw [(sortDesc_perm _).length_eq, ranksOf, List.length_map,
      (evaluateFiveCards_length cb rb hb).1]
  have hr5 : (sortDesc (ranksOf cr)).length = 5 := by
    rw [(sortDesc_perm _).length_eq, ranksOf, List.length_map,
      (evaluateFiveCards_length cr rr hr).1]
  rw [evaluateFiveCards_ranks cb rb hb, evaluateFiveCards_ranks cr rr hr]
  by_cases wb : sortDesc (ranksOf cb) = [14, 5, 4, 3, 2]
  · have gb : groupedRanks cb = [5, 4, 3, 2, 1] := by
      show (if sortDesc (ranksOf cb) = [14, 5, 4, 3, 2] then [5, 4, 3, 2, 1] else _) = _
      rw [if_pos wb]
    rw [gb] at hlt
    rw [if_pos wb]
    by_cases wr : sortDesc (ranksOf cr) = [14, 5, 4, 3, 2]
    · have gr : groupedRanks cr = [5, 4, 3, 2, 1] := by
        show (if sortDesc (ranksOf cr) = [14, 5, 4, 3, 2] then [5, 4, 3, 2, 1] else _) = _
        rw [if_pos wr]
      rw [gr, keyLt_irrefl] at hlt
      cases hlt
    · rw [groupedRanks_of_not_wheel cr wr, nodup_grouped _ hnr] at hlt
      rw [if_neg wr]
      exact wheel_below _ hr5 (sortDesc_sorted _) ((sortDesc_perm _).nodup_iff.mpr hnr) hlt
  · rw [groupedRanks_of_not_wheel cb wb, nodup_grouped _ hnb] at hlt
    rw [if_neg wb]
    by_cases wr : sortDesc (ranksOf cr) = [14, 5, 4, 3, 2]
    · have gr : groupedRanks cr = [5, 4, 3, 2, 1] := by
        show (if sortDesc (ranksOf cr) = [14, 5, 4, 3, 2] then [5, 4, 3, 2, 1] else _) = _
        rw [if_pos wr]
      rw [gr] at hlt
      rw [if_pos wr]
      exact below_wheel _ hb5 hlt
    · rw [groupedRanks_of_not_wheel cr wr, nodup_grouped _ hnr] at hlt
      rw [if_neg wr]
      exact hlt

/-! ## The plain comparison against the grouped key -/

theorem specCategory_cases (x : List Card) :
    specCategory x = HighCard ∨
    (specCategory x = OnePair ∨ specCategory x = TwoPair ∨ specCategory x = ThreeOfAKind ∨
      specCategory x = FullHouse ∨ specCategory x = FourOfAKind) ∨
    (specCategory x = Straight ∨ specCategory x = Flush ∨ specCategory x = StraightFlush ∨
      specCategory x = RoyalFlush) := by
  rw [specCategory_chain]
  unfold chainCategory
  split_ifs <;> simp

/-- No five-card subset has a grouped key above that of the hand the loop of
`EvaluateBestHand` ends with, when that hand is at least a pair. -/
theorem bestLoop_grouped_max (cards : List Card) (hnd : cards.Nodup) (best : HandResult)
    (hbest : bestLoop { Rank := HighCard, Cards := [] } (generateCombinations cards 5)
      = some best)
    (hpos : 1 ≤ best.Rank) (c0 : List Card) (hc0 : c0 ∈ generateCombinations cards 5)
    (he0 : evaluateFiveCards c0 = some best) (c : List Card)
    (hc : c ∈ generateCombinations cards 5) (r : HandResult)
    (he : evaluateFiveCards c = some r) : keyLt (rankKey best) (rankKey r) = false := by
  obtain ⟨_, hrank⟩ := bestLoop_rank _ _ _ hbest
  obtain ⟨_, _, hmax⟩ := bestLoop_max _ _ _ (Or.inr rfl) hbest
  obtain ⟨hs0, h05⟩ := (generateCombinations_mem cards c0 5).mp hc0
  obtain ⟨hs, h5⟩ := (generateCombinations_mem cards c 5).mp hc
  obtain ⟨b1, hb1, hcat0, _⟩ := evaluateFiveCards_spec c0 h05
  rw [he0] at hb1
  cases hb1
  obtain ⟨r1, hr1, hcat, _⟩ := evaluateFiveCards_spec c h5
  rw [he] at hr1
  cases hr1
  have hle : r.Rank ≤ best.Rank := hrank c hc r he
  by_contra hne
  have hlt : keyLt (rankKey best) (rankKey r) = true := by
    cases hk : keyLt (rankKey best) (rankKey r)
    · exact absurd hk hne
    · rfl
  unfold rankKey at hlt
  rw [keyLt_cons] at hlt
  rcases hlt with hlt | ⟨heq, hlt⟩
  · exact absurd hle (Nat.not_le_of_lt hlt)
  rw [groupedRanks_perm (evaluateFiveCards_order c0 h05 best he0).1,
    groupedRanks_perm (evaluateFiveCards_order c h5 r he).1] at hlt
  have hsame : specCategory c = specCategory c0 := by
    rw [← hcat, ← hcat0]
    exact heq.symm
  rcases specCategory_cases c0 with h0 | hp | hd
  · rw [hcat0, h0] at hpos
    exact absurd hpos (by decide)
  · obtain ⟨h, hsub, hh5, hlow, hshape, hplain⟩ :=
      pair_category_step cards c0 c hnd hs0 hs h05 h5 hp hsame hlt
    have hmem : h ∈ generateCombinations cards 5 :=
      (generateCombinations_mem cards h 5).mpr ⟨hsub, hh5⟩
    obtain ⟨rh, hrh, hcath, _⟩ := evaluateFiveCards_spec h hh5
    have hup : rh.Rank ≤ best.Rank := hrank h hmem rh hrh
    have hcq : specCategory h = specCategory c0 := by
      rw [hcath, hcat0] at hup
      exact Nat.le_antisymm hup hlow
    have hrq : rh.Rank = best.Rank := by rw [hcath, hcat0, hcq]
    have hph : specCategory h = OnePair ∨ specCategory h = TwoPair ∨
        specCategory h = ThreeOfAKind ∨ specCategory h = FullHouse ∨
        specCategory h = FourOfAKind := by
      rw [hcq]
      exact hp
    have hfalse := hmax h hmem rh hrh hrq hpos
    rw [evaluateFiveCards_ranks c0 best he0, evaluateFiveCards_ranks h rh hrh,
      if_neg (pair_not_wheel c0 h05 hp), if_neg (pair_not_wheel h hh5 hph), hplain] at hfalse
    cases hfalse
  · have hdc : specCategory c = Straight ∨ specCategory c = Flush ∨
        specCategory c = StraightFlush ∨ specCategory c = RoyalFlush := by
      rw [hsame]
      exact hd
    have hplain := distinct_category_step c0 c best r he0 he
      (distinct_category_nodup c0 (hnd.sublist hs0) hd)
      (distinct_category_nodup c (hnd.sublist hs) hdc) hlt
    have hfalse := hmax c hc r he heq.symm hpos
    rw [hplain] at hfalse
    cases hfalse

theorem mem_subsetKeys (cards : List Card) (k : List Nat) :
    k ∈ subsetKeys cards ↔
      ∃ c ∈ generateCombinations cards 5, ∃ r, evaluateFiveCards c = some r ∧ rankKey r = k := by
  unfold subsetKeys
  rw [List.mem_filterMap]
  constructor
  · rintro ⟨c, hc, hk⟩
    cases he : evaluateFiveCards c with
    | none =>
      rw [he] at hk
      cases hk
    | some r =>
      rw [he] at hk
      exact ⟨c, hc, r, he, by simpa using hk⟩
  · rintro ⟨c, hc, r, he, hk⟩
    exact ⟨c, hc, by rw [he, ← hk]; rfl⟩

/-- C26: for every list of distinct cards (the seven cards of a player
among them) in which some five-card subset is of category One Pair or
higher, `EvaluateBestHand` returns a hand `best` that is the evaluation of
a five-card subset of the cards, and the grouped rank key of `best`
(category, then quad, trip, pair and singleton ranks descending, the wheel
as 5-high) is a maximum of the grouped keys of all five-card subsets: no
subset key is above it.  The hand picked by the plain descending comparison
of `compareHands` is therefore itself a subset that is maximal under the
grouped key, of the same category and the same five ranks. -/
theorem plain_pick_is_grouped_maximum (cards : List Card) (hnd : cards.Nodup)
    (hpair : ∃ combo, combo.Sublist cards ∧ combo.length = 5 ∧ OnePair ≤ specCategory combo) :
    ∃ best, EvaluateBestHand cards = some best ∧
      ∃ combo, combo.Sublist cards ∧ combo.length = 5 ∧
        evaluateFiveCards combo = some best ∧
        rankKey best ∈ subsetKeys cards ∧
        ∀ k ∈ subsetKeys cards, keyLt (rankKey best) k = false := by
  obtain ⟨cp, hps, hp5, hpc⟩ := hpair
  have hlen : ∀ c ∈ generateCombinations cards 5, c.length = 5 :=
    fun c hc => ((generateCombinations_mem cards c 5).mp hc).2
  obtain ⟨best, hbest⟩ := bestLoop_total { Rank := HighCard, Cards := [] } _ hlen
  have h7 : 5 ≤ cards.length := by
    rw [← hp5]
    exact hps.length_le
  have hE : EvaluateBestHand cards = some best := by
    unfold EvaluateBestHand
    rw [if_neg (by omega)]
    exact hbest
  obtain ⟨_, hrank⟩ := bestLoop_rank _ _ _ hbest
  have hpm : cp ∈ generateCombinations cards 5 :=
    (generateCombinations_mem cards cp 5).mpr ⟨hps, hp5⟩
  obtain ⟨rp, hrp, hrpc, _⟩ := evaluateFiveCards_spec cp hp5
  have hpos : 1 ≤ best.Rank := by
    have h1 := hrank cp hpm rp hrp
    rw [hrpc] at h1
    exact le_trans hpc h1
  rcases bestLoop_origin _ _ _ hbest with h0 | ⟨c0, hc0, he0⟩
  · rw [h0] at hpos
    exact absurd hpos (by decide)
  · obtain ⟨hs0, h05⟩ := (generateCombinations_mem cards c0 5).mp hc0
    refine ⟨best, hE, c0, hs0, h05, he0, ?_, ?_⟩
    · exact (mem_subsetKeys cards _).mpr ⟨c0, hc0, best, he0, rfl⟩
    · intro k hk
      obtain ⟨c, hc, r, he, hkr⟩ := (mem_subsetKeys cards k).mp hk
      rw [← hkr]
      exact bestLoop_grouped_max cards hnd best hbest hpos c0 hc0 he0 c hc r he

/-- Witness for C26: the seven cards 2h 2d 3c 3s 4h 4d 5s, whose first five
cards hold two pairs. -/
theorem plain_pick_is_grouped_maximum_witness :
    threePairs.Nodup ∧
      (∃ combo, combo.Sublist threePairs ∧ combo.length = 5 ∧ OnePair ≤ specCategory combo) ∧
      ∃ best, EvaluateBestHand threePairs = some best ∧
        ∃ combo, combo.Sublist threePairs ∧ combo.length = 5 ∧
          evaluateFiveCards combo = some best ∧
          rankKey best ∈ subsetKeys threePairs ∧
          ∀ k ∈ subsetKeys threePairs, keyLt (rankKey best) k = false :=
  ⟨by decide, ⟨threePairs.take 5, List.take_sublist _ _, by decide, by decide⟩,
    plain_pick_is_grouped_maximum threePairs (by decide)
      ⟨threePairs.take 5, List.take_sublist _ _, by decide, by decide⟩⟩

/-! ## The award of the pot, for any number of winners -/

theorem awardOne_ids (ps : List PokerPlayer) (w : Winner) :
    (awardOne ps w).map (fun p => p.ID) = ps.map (fun p => p.ID) := by
  induction ps with
  | nil => rfl
  | cons q t ih =>
    simp only [awardOne]
    split
    · rfl
    · simp only [List.map_cons, ih]

theorem sumChips_awardAll (ws : List Winner) (ps : List PokerPlayer)
    (h : ∀ w ∈ ws, w.PlayerID ∈ ps.map (fun p => p.ID)) :
    sumChips (ws.foldl awardOne ps) = sumChips ps + (ws.map (fun w => w.Amount)).sum := by
  induction ws generalizing ps with
  | nil => simp
  | cons w t ih =>
    have hw : ∃ p ∈ ps, p.ID = w.PlayerID := by
      have := h w (List.mem_cons_self _ _)
      obtain ⟨p, hp, hid⟩ := List.mem_map.mp this
      exact ⟨p, hp, hid⟩
    simp only [List.foldl_cons, List.map_cons, List.sum_cons]
    rw [ih, sumChips_awardOne ps w hw]
    · ring
    · intro x hx
      rw [awardOne_ids]
      exact h x (List.mem_cons_of_mem _ hx)

/-- The call of `endHand` on a state without winners: the pot and the side
pots stand, every winner is entered with the truncated share of the pot, and
the stacks grow by the shares paid. -/
theorem endHand_award (g g1 : PokerGame) (h : endHand g = some g1) (hw : g.Winners = []) :
    g1.Pot = g.Pot ∧ g1.SidePots = g.SidePots ∧ g1.Winners ≠ [] ∧
      (∀ w ∈ g1.Winners, w.Amount = Int.tdiv g.Pot (g1.Winners.length : Int)) ∧
      sumChips g1.Players = sumChips g.Players +
        (g1.Winners.length : Int) * Int.tdiv g.Pot (g1.Winners.length : Int) := by
  unfold endHand at h
  split at h
  · cases h
  · rename_i g2 hg2
    cases h
    unfold determineWinners at hg2
    simp only at hg2
    split at hg2
    · rename_i winner hwin
      cases hg2
      have hmem : winner ∈ g.Players := by
        have : winner ∈ List.filter (fun p => p.IsActive && !p.IsFolded) g.Players := by
          rw [hwin]; exact List.mem_singleton.mpr rfl
        exact (List.mem_filter.mp this).1
      refine ⟨rfl, rfl, by simp [awardPots], ?_, ?_⟩
      · intro w hw1
        simp only [awardPots, List.mem_singleton] at hw1
        rw [hw1]
        simp [awardPots, Int.tdiv_one]
      · simp only [awardPots, List.foldl, List.length_singleton, Nat.cast_one, Int.tdiv_one,
          one_mul]
        rw [sumChips_awardOne _ _ ⟨winner, hmem, rfl⟩]
    · split at hg2
      · cases hg2
      · rename_i phs hphs
        split at hg2
        · cases hg2
        · rename_i hlen
          cases hg2
          have hfst := playerHands_fst _ _ _ hphs
          simp only [awardPots, hw, List.nil_append, List.length_map]
          generalize hws : List.filter (fun ph => ph.2.Rank == bestRankOf phs) phs = ws at hlen ⊢
          have hin : ∀ x ∈ ws, x.1 ∈ g.Players := by
            intro x hx
            have hx1 : x ∈ phs := by
              rw [← hws] at hx
              exact (List.mem_filter.mp hx).1
            have : x.1 ∈ phs.map Prod.fst := List.mem_map_of_mem _ hx1
            rw [hfst] at this
            exact (List.mem_filter.mp this).1
          refine ⟨trivial, trivial, ?_, ?_, ?_⟩
          · intro he
            apply hlen
            rw [List.map_eq_nil_iff] at he
            rw [he]
            rfl
          · intro w hw1
            obtain ⟨x, _, rfl⟩ := List.mem_map.mp hw1
            rfl
          · rw [sumChips_awardAll]
            · congr 1
              rw [List.map_map]
              have : (ws.map ((fun w : Winner => w.Amount) ∘ fun w : PokerPlayer × HandResult =>
                  ({ PlayerID := w.1.ID, Amount := Int.tdiv g.Pot (ws.length : Int),
                     HandRank := w.2.Rank, BestHand := w.2.Cards } : Winner))) =
                  List.replicate ws.length (Int.tdiv g.Pot (ws.length : Int)) := by
                rw [List.eq_replicate_iff]
                refine ⟨by simp, ?_⟩
                intro b hb
                obtain ⟨x, _, rfl⟩ := List.mem_map.mp hb
                rfl
              rw [this, List.sum_replicate, nsmul_eq_mul]
            · intro w hw1
              obtain ⟨x, hx, rfl⟩ := List.mem_map.mp hw1
              exact List.mem_map_of_mem _ (hin x hx)

/-! ## Chip conservation up to the award -/

/-- C1, as stated, fails, in four ways.  Heads-up with stacks of 1000 and
blinds 10/20, the first player folds: the state reached has chips + pot +
side pots = 2030 where the sum before `StartNewHand` was 2000, the pot paid
to the winner being left standing.  Three seats of 1000 with a pot of 101
split between two winners: the stacks hold 2999 of the 3000 chips.  The
checked-down heads-up hand with two more checks accepted after the
showdown: the stacks hold 2080.  `StartNewHand` on a hand in progress with
30 in the pot: the sum was 2000 immediately before and is 1970 after. -/
theorem chip_total_not_constant :
    (Reached headsUpTable zeroRand headsUpFolded ∧ chipTotal headsUpTable = 2000 ∧
      chipTotal headsUpFolded = 2030) ∧
    (Reached oddPotTable boardRand oddPotShowdown ∧ chipTotal oddPotTable = 3000 ∧
      oddPotShowdown.Pot = 101 ∧ oddPotShowdown.Winners.length = 2 ∧
      sumChips oddPotShowdown.Players = 2999 ∧ chipTotal oddPotShowdown = 3100) ∧
    (Reached headsUpTable dealRand paidTwice ∧ sumChips paidTwice.Players = 2080 ∧
      chipTotal paidTwice = 2120) ∧
    (Reached headsUpStart zeroRand restarted ∧ restarted.HandComplete = false ∧
      chipTotal headsUpStart = 2000 ∧ headsUpStart.Pot = 30 ∧ chipTotal restarted = 1970) :=
  have hs : StartNewHand headsUpTable zeroRand = Outcome.ok headsUpStart := by decide
  have hf : ProcessAction headsUpStart "a" ActionType.Fold 0 = Outcome.ok headsUpFolded := by
    decide
  ⟨⟨Reached.step "a" ActionType.Fold 0 (Reached.start hs) hf, by decide, by decide⟩,
    ⟨reached_of_run oddPotTable oddPotShowdown boardRand oddPotLine (by decide), by decide,
      by decide, by decide, by decide, by decide⟩,
    ⟨reached_of_run headsUpTable paidTwice dealRand
      (checkDown ++ [("b", ActionType.Check, 0), ("a", ActionType.Check, 0)]) (by decide),
      by decide, by decide⟩,
    ⟨Reached.start (by decide), by decide, by decide, by decide, by decide⟩⟩

/-- C1, amended: in every state reached from a successful `StartNewHand` by
accepted `ProcessAction` calls in which `HandComplete` is false, the
players' chips plus the pot plus the side pots equal the value of that sum
immediately before `StartNewHand` less the pot and the side pots
`StartNewHand` discards; and the next accepted call that ends the hand, with
any number of winners, leaves the pot standing, enters every winner with the
truncated share of the pot and adds the shares to the stacks: the players'
chips alone, plus the remainder of the pot by the number of winners, equal
that value. -/
theorem chip_conservation_until_award (g0 g : PokerGame) (r : Nat → Nat)
    (h : Reached g0 r g) (hc : g.HandComplete = false) :
    chipTotal g = chipTotal g0 - g0.Pot - sumSidePots g0.SidePots ∧
    ∀ (playerID : String) (action : ActionType) (amount : Int) (g1 : PokerGame),
      ProcessAction g playerID action amount = Outcome.ok g1 →
      g1.HandComplete = true →
      g1.Winners ≠ [] ∧ g1.SidePots = [] ∧
        (∀ w ∈ g1.Winners, w.Amount = Int.tdiv g1.Pot (g1.Winners.length : Int)) ∧
        sumChips g1.Players + Int.tmod g1.Pot (g1.Winners.length : Int)
          = chipTotal g0 - g0.Pot - sumSidePots g0.SidePots ∧
        chipTotal g1 + Int.tmod g1.Pot (g1.Winners.length : Int)
          = chipTotal g0 - g0.Pot - sumSidePots g0.SidePots + g1.Pot := by
  obtain ⟨a, c, d⟩ := reached_running g0 g r h hc
  have hbase : chipTotal g0 - g0.Pot - sumSidePots g0.SidePots = sumChips g0.Players := by
    unfold chipTotal
    ring
  rw [hbase]
  refine ⟨a, ?_⟩
  intro playerID action amount g1 hp hdone
  rcases processAction_cases _ _ _ _ _ hp with ⟨_, k2, _, _⟩ | ⟨g2, ⟨k1, k2, k3, k4⟩, h3⟩
  · rw [k2, hc] at hdone
    cases hdone
  · obtain ⟨e1, e2, e3, e4, e5⟩ := endHand_award g2 g1 h3 (k3.trans c)
    have hs2 : g2.SidePots = [] := k4.trans d
    have hs1 : g1.SidePots = [] := e2.trans hs2
    have hg2 : sumChips g2.Players + g2.Pot = sumChips g0.Players := by
      rw [← a, ← k1]
      simp [chipTotal, hs2, sumSidePots]
    have hmod := Int.tmod_add_tdiv g1.Pot (g1.Winners.length : Int)
    rw [← e1] at e4 e5 hg2
    have hsum : sumChips g1.Players + Int.tmod g1.Pot (g1.Winners.length : Int)
        = sumChips g0.Players := by
      rw [e5, ← hg2]
      linarith
    refine ⟨e3, hs1, e4, hsum, ?_⟩
    simp only [chipTotal, hs1, sumSidePots, List.map_nil, List.sum_nil, add_zero]
    linarith

/-- Witness for C1 amended: the checked-down heads-up hand before the last
check of the river, and the check that ends it with two winners: the pot of
40 splits evenly and the stacks hold the 2000 chips again. -/
theorem chip_conservation_until_award_witness :
    Reached headsUpTable dealRand beforeShowdown ∧ beforeShowdown.HandComplete = false ∧
      ProcessAction beforeShowdown "b" ActionType.Check 0 = Outcome.ok showdownState ∧
      showdownState.HandComplete = true ∧ showdownState.Winners.length = 2 ∧
      chipTotal beforeShowdown
        = chipTotal headsUpTable - headsUpTable.Pot - sumSidePots headsUpTable.SidePots ∧
      (showdownState.Winners ≠ [] ∧ showdownState.SidePots = [] ∧
        (∀ w ∈ showdownState.Winners,
          w.Amount = Int.tdiv showdownState.Pot (showdownState.Winners.length : Int)) ∧
        sumChips showdownState.Players +
            Int.tmod showdownState.Pot (showdownState.Winners.length : Int)
          = chipTotal headsUpTable - headsUpTable.Pot - sumSidePots headsUpTable.SidePots ∧
        chipTotal showdownState +
            Int.tmod showdownState.Pot (showdownState.Winners.length : Int)
          = chipTotal headsUpTable - headsUpTable.Pot - sumSidePots headsUpTable.SidePots
            + showdownState.Pot) :=
  have hr : Reached headsUpTable dealRand beforeShowdown :=
    reached_of_run headsUpTable beforeShowdown dealRand (checkDown.take 7) (by decide)
  have hc : beforeShowdown.HandComplete = false := by decide
  have hp : ProcessAction beforeShowdown "b" ActionType.Check 0 = Outcome.ok showdownState := by
    decide
  have hd : showdownState.HandComplete = true := by decide
  have h := chip_conservation_until_award headsUpTable beforeShowdown dealRand hr hc
  ⟨hr, hc, hp, hd, by decide, h.1, h.2 "b" ActionType.Check 0 showdownState hp hd⟩

/-- C12, as stated, fails when two seats carry the same id: heads-up on
seats named a and a after the blinds (pot 30), the acting seat 0 folds; the
call is accepted and ends the hand, and `awardPots` pays the pot to the
first seat with the id of the winner, the folder at seat 0 (990 to 1020),
while the survivor at seat 1 stays at 980. -/
theorem fold_pays_folder_on_equal_ids :
    Reached twinTable zeroRand twinStart ∧ twinStart.HandComplete = false ∧
      (contenders twinStart.Players).length = 2 ∧ twinStart.CurrentIndex = 0 ∧
      twinStart.Pot = 30 ∧
      twinStart.Players.map (fun p => (p.ID, p.Chips, p.IsFolded))
        = [("a", 990, false), ("a", 980, false)] ∧
      ProcessAction twinStart "a" ActionType.Fold 0 = Outcome.ok twinFolded ∧
      twinFolded.HandComplete = true ∧
      twinFolded.Winners.map (fun w => (w.PlayerID, w.Amount)) = [("a", 30)] ∧
      twinFolded.Players.map (fun p => (p.ID, p.Chips, p.IsFolded))
        = [("a", 1020, true), ("a", 980, false)] :=
  ⟨Reached.start (by decide), by decide, by decide, by decide, by decide, by decide,
    by decide, by decide, by decide, by decide⟩

end Poker
